import Mathlib

/-!
The configuration-line parser (`src/config.c`), the decoder of the binary
display descriptor (`src/screen_info.c`) and the matching loop (`src/main.c`)
of suggestdpi.

A shallow embedding of the lexical helpers, the string-literal decoder
`read_string`, the unsigned-integer decoder `read_unsigned`, the key=value
loop of `read_config_row`, the functions `copy_edid_string` and `parse_edid`
and the loop of `main` that resolves the dpi, followed by theorems about them.

Conventions of the embedding.

* A `char` buffer is a `List Nat` of byte values `0..255`; a `char *` into it
  is a `Nat` index.  Reading at or past the end of the list yields `0`, the
  terminating NUL of a C string, so a list stands for the bytes of the buffer
  followed by zero bytes.
* The `<ctype.h>` predicates are those of the "C" locale on byte values.
* `uint64_t` arithmetic is `Nat` arithmetic followed by `% 2^64`, the cast to
  `uint16_t` is `% 65536`, the cast to `char` is `% 256`.
* A `FILE *` open for reading is a state `Stream`: the bytes not yet read and
  the end-of-file and error indicators.
-/

namespace SuggestDpi

/-! ## Bytes and `<ctype.h>` -/

/-- The byte `buf[i]`; the bytes past the end of the list are NUL. -/
def rd (buf : List Nat) (i : Nat) : Nat := buf.getD i 0

/-- C `isspace` in the "C" locale: HT, LF, VT, FF, CR and the blank. -/
def isspace (c : Nat) : Bool := (9 ≤ c && c ≤ 13) || c == 32

/-- C `isdigit`: the characters 0 to 9. -/
def isdigit (c : Nat) : Bool := 48 ≤ c && c ≤ 57

/-- C `isxdigit`: 0 to 9, A to F, a to f. -/
def isxdigit (c : Nat) : Bool :=
  (48 ≤ c && c ≤ 57) || (65 ≤ c && c ≤ 70) || (97 ≤ c && c ≤ 102)

/-- C `isalnum` in the "C" locale: 0 to 9, A to Z, a to z. -/
def isalnum (c : Nat) : Bool :=
  (48 ≤ c && c ≤ 57) || (65 ≤ c && c ≤ 90) || (97 ≤ c && c ≤ 122)

/-! ## Lexical primitives (`config.c`, lines 10 to 31) -/

/-- The initialiser of `xdigit_table[256]`: its 103 explicit entries; the
entries after them are zero-initialised. -/
def xdigit_table_init : List Nat :=
  [0, 0, 0, 0, 0, 0, 0, 0, 0, 0, 0, 0, 0, 0, 0, 0, 0, 0, 0, 0, 0, 0, 0, 0, 0, 0, 0, 0, 0, 0, 0, 0, 0, 0, 0, 0, 0, 0, 0,
   0, 0, 0, 0, 0, 0, 0, 0, 0, 0, 1, 2, 3, 4, 5, 6, 7, 8, 9, 0, 0, 0, 0, 0, 0, 0, 10, 11, 12, 13, 14, 15, 0, 0, 0, 0, 0,
   0, 0, 0, 0, 0, 0, 0, 0, 0, 0, 0, 0, 0, 0, 0, 0, 0, 0, 0, 0, 0, 10, 11, 12, 13, 14, 15]

/-- The lookup `xdigit_table[(uint8_t) c]`. -/
def xdigit_table (c : Nat) : Nat := xdigit_table_init.getD (c % 256) 0

/-- The loop of `lstrip`: advance while the byte is not NUL and is a space.
With no fuel left the cursor is at or past the end of the list, where the
byte read is NUL and the loop stops. -/
def lstrip_loop (buf : List Nat) : Nat → Nat → Nat
  | 0, str => str
  | fuel + 1, str =>
    if rd buf str ≠ 0 ∧ isspace (rd buf str) = true then lstrip_loop buf fuel (str + 1)
    else str

/-- The function `lstrip`: the cursor moved past the leading whitespace. -/
def lstrip (buf : List Nat) (str : Nat) : Nat := lstrip_loop buf (buf.length - str) str

/-- The function `isodigit`: the characters 0 to 7. -/
def isodigit (c : Nat) : Bool := 48 ≤ c && c < 56

/-- The condition of the loop of `read_key`: an identifier character. -/
def iskeychar (c : Nat) : Bool := isalnum c || c == 95 || c == 45

/-- The loop of `read_key`; with no fuel left the byte read is NUL. -/
def read_key_loop (buf : List Nat) : Nat → Nat → Nat
  | 0, str => str
  | fuel + 1, str =>
    if rd buf str ≠ 0 ∧ iskeychar (rd buf str) = true then read_key_loop buf fuel (str + 1)
    else str

/-- The function `read_key`: the cursor moved past the identifier. -/
def read_key (buf : List Nat) (str : Nat) : Nat := read_key_loop buf (buf.length - str) str

/-! ## The outcome of a decoder (`config.c`, lines 33 to 41) -/

/-- The struct `ReadStat`: the cursor, and the two flags. -/
structure ReadStat where
  next : Nat
  ok : Bool
  overflow : Bool
  deriving DecidableEq, Repr

/-- The macro `STAT_OK(x)` at cursor `str`. -/
def STAT_OK (str x : Nat) : ReadStat := { next := str + x, ok := true, overflow := false }

/-- The macro `STAT_FAIL(x)` at cursor `str`. -/
def STAT_FAIL (str x : Nat) : ReadStat := { next := str + x, ok := false, overflow := false }

/-- The macro `STAT_OVERFLOW(x)` at cursor `str`. -/
def STAT_OVERFLOW (str x : Nat) : ReadStat := { next := str + x, ok := true, overflow := true }

/-! ## The string-literal decoder (`config.c`, lines 43 to 109) -/

/-- The call `memset(buf, 0, cap)` on the destination memory `mem`. -/
def memset0 (mem : List Nat) (cap : Nat) : List Nat := List.replicate cap 0 ++ mem.drop cap

/-- The `switch` on the character after a backslash (lines 60 to 100), `str`
being the cursor on that character: either the outcome of a `STAT_FAIL`, or
the cursor the `switch` leaves and the byte it stores through `*ptr++`. -/
def read_escape (buf : List Nat) (str : Nat) : Except ReadStat (Nat × Nat) :=
  let c := rd buf str
  if c = 97 then .ok (str, 7)           -- case 'a': '\a'
  else if c = 98 then .ok (str, 8)      -- case 'b': '\b'
  else if c = 101 then .ok (str, 27)    -- case 'e': '\033'
  else if c = 102 then .ok (str, 12)    -- case 'f': '\f'
  else if c = 110 then .ok (str, 10)    -- case 'n': '\n'
  else if c = 114 then .ok (str, 13)    -- case 'r': '\r'
  else if c = 116 then .ok (str, 9)     -- case 't': '\t'
  else if c = 118 then .ok (str, 11)    -- case 'v': '\v'
  else if c = 63 then .ok (str, 63)     -- case '?'
  else if c = 92 then .ok (str, 92)     -- case '\\'
  else if c = 39 then .ok (str, 39)     -- case '\''
  else if c = 34 then .ok (str, 34)     -- case '\"'
  else if c = 120 then                  -- case 'x'
    if isxdigit (rd buf (str + 1)) = false then .error (STAT_FAIL str 1)
    else if isxdigit (rd buf (str + 2)) = false then .error (STAT_FAIL str 2)
    else .ok (str + 2,
      (xdigit_table (rd buf (str + 1)) * 2 ^ 4 + xdigit_table (rd buf (str + 2))) % 256)
  else                                  -- default
    if ¬ (48 ≤ c ∧ c < 52) then .error (STAT_FAIL str 0)
    else if c = 48 ∧ isodigit (rd buf (str + 1)) = false then .ok (str, 0)
    else if isodigit (rd buf (str + 1)) = false then .error (STAT_FAIL str 1)
    else if isodigit (rd buf (str + 2)) = false then .error (STAT_FAIL str 2)
    else .ok (str + 2,
      (xdigit_table c * 2 ^ 6 + xdigit_table (rd buf (str + 1)) * 2 ^ 3
        + xdigit_table (rd buf (str + 2))) % 256)

/-- The `for (++str ;; ++str)` loop of `read_string` (lines 51 to 108): `str`
is the cursor, `mem` the destination memory and `ptr` the index in it of the
next byte to write.  With no fuel left the cursor is at or past the end of
the list, where the byte read is NUL: `STAT_FAIL(0)`. -/
def read_string_loop (buf : List Nat) (cap : Nat) :
    Nat → Nat → List Nat → Nat → ReadStat × List Nat
  | 0, str, mem, _ => (STAT_FAIL str 0, mem)
  | fuel + 1, str, mem, ptr =>
    if rd buf str = 34 then (STAT_OK str 1, mem)
    else if rd buf str = 0 then (STAT_FAIL str 0, mem)
    else
      let item : Except ReadStat (Nat × Nat) :=
        if rd buf str = 92 then read_escape buf (str + 1) else .ok (str, rd buf str)
      match item with
      | .error stat => (stat, mem)
      | .ok (str1, byte) =>
        let mem1 := mem.set ptr byte
        if ptr + 1 = cap then (STAT_OVERFLOW str1 0, mem1.set ptr 0)
        else read_string_loop buf cap fuel (str1 + 1) mem1 (ptr + 1)

/-- The function `read_string(str, buf, cap)`: `buf` is the input, `str` the
cursor in it, `mem` the memory at the destination pointer and `cap` its
capacity.  Returns the outcome and the destination memory. -/
def read_string (buf : List Nat) (str : Nat) (mem : List Nat) (cap : Nat) :
    ReadStat × List Nat :=
  let mem0 := memset0 mem cap
  if rd buf str ≠ 34 then (STAT_FAIL str 0, mem0)
  else read_string_loop buf cap (buf.length - (str + 1)) (str + 1) mem0 0

/-! ## The unsigned-integer decoder (`config.c`, lines 111 to 159) -/

/-- The `if`/`else if` chain of lines 141 to 151: the new value of the 64-bit
accumulator `val` after the character `c`, or `none` for `STAT_FAIL(0)`. -/
def accumulate (is_hex is_oct is_bin : Bool) (val c : Nat) : Option Nat :=
  if is_hex = true ∧ isxdigit c = true then some ((val * 16 + xdigit_table c) % 2 ^ 64)
  else if is_oct = true ∧ isodigit c = true then some ((val * 8 + xdigit_table c) % 2 ^ 64)
  else if is_bin = true ∧ (c = 48 ∨ c = 49) then some ((val * 2 + xdigit_table c) % 2 ^ 64)
  else if isdigit c = true then some ((val * 10 + xdigit_table c) % 2 ^ 64)
  else none

/-- The `for (; *str != '\0'; ++str)` loop of `read_unsigned` with the two
statements after it (lines 136 to 158); `slot` is the content of `*ptr`.
With no fuel left the cursor is at or past the end of the list, where the
byte read is NUL and the loop is left. -/
def read_unsigned_loop (buf : List Nat) (is_hex is_oct is_bin : Bool) :
    Nat → Nat → Nat → Nat → ReadStat × Nat
  | 0, str, val, _ => (STAT_OK str 0, val % 65536)
  | fuel + 1, str, val, slot =>
    if rd buf str = 0 then (STAT_OK str 0, val % 65536)
    else if isspace (rd buf str) = true then (STAT_OK str 0, val % 65536)
    else
      match accumulate is_hex is_oct is_bin val (rd buf str) with
      | none => (STAT_FAIL str 0, slot)
      | some val1 =>
        if val1 > 65535 then (STAT_OVERFLOW str 0, val1 % 65536)
        else read_unsigned_loop buf is_hex is_oct is_bin fuel (str + 1) val1 slot

/-- The function `read_unsigned(str, ptr)`: `slot` is the content of `*ptr`
before the call; returns the outcome and the content of `*ptr` after it. -/
def read_unsigned (buf : List Nat) (str : Nat) (slot : Nat) : ReadStat × Nat :=
  if isdigit (rd buf str) = false then (STAT_FAIL str 0, slot)
  else
    let is_hex : Bool := rd buf str == 48 && (rd buf (str + 1) == 120 || rd buf (str + 1) == 88)
    let is_bin : Bool := rd buf str == 48 && (rd buf (str + 1) == 98 || rd buf (str + 1) == 66)
    let is_oct_o : Bool := rd buf str == 48 && (rd buf (str + 1) == 111 || rd buf (str + 1) == 79)
    let is_oct_c : Bool := rd buf str == 48 && isdigit (rd buf (str + 1))
    let str1 := if is_hex || is_oct_o || is_bin then str + 2 else if is_oct_c then str + 1 else str
    if isdigit (rd buf str1) = false then (STAT_FAIL str1 0, slot)
    else
      let is_oct := is_oct_o || is_oct_c
      read_unsigned_loop buf is_hex is_oct is_bin (buf.length - str1) str1 0 slot

/-! ## The key=value loop of `read_config_row` (`config.c`, lines 186 to 277)

This section is the second half of the function: the parse starts from the
buffer `buf` that holds the line and from the cursor `line` in it.  The first
half (lines 163 to 184: `fgets`, the skip of blank lines, the end-of-file and
read-error tests and the test for the final newline) and the function as a
whole are `read_line_loop` and `read_config_row` further down. -/

/-- The struct `ConfigRow` of `config.h`; the `char` arrays are byte lists. -/
structure ConfigRow where
  line : Int
  pnp : List Nat
  has_pnp : Bool
  product : Nat
  has_product : Bool
  name : List Nat
  has_name : Bool
  serial : List Nat
  has_serial : Bool
  dpi : Nat
  has_dpi : Bool
  deriving DecidableEq, Repr

/-- The test `strcmp(buf + p, lit) == 0` for a literal `lit` without NUL. -/
def strcmp_eq (buf : List Nat) : Nat → List Nat → Bool
  | p, [] => rd buf p == 0
  | p, c :: cs => rd buf p == c && strcmp_eq buf (p + 1) cs

/-- How one iteration of the `for (;;)` loop of `read_config_row` ends. -/
inductive RowStep where
  /-- The statement `break`: the line is fully consumed. -/
  | done (row : ConfigRow)
  /-- A `return false`. -/
  | fail (row : ConfigRow)
  /-- The end of the body: `line = read_stat.next`. -/
  | next (buf : List Nat) (line : Nat) (row : ConfigRow)
  deriving DecidableEq, Repr

/-- Lines 237 to 250: the two tests on `read_stat` and `line = read_stat.next`. -/
def row_after (buf : List Nat) (read_stat : ReadStat) (row : ConfigRow) : RowStep :=
  if read_stat.ok = false then .fail row
  else if read_stat.overflow = true then .fail row
  else .next buf read_stat.next row

/-- The body of the `for (;;)` loop of `read_config_row` (lines 193 to 250). -/
def read_config_row_step (buf : List Nat) (line : Nat) (row : ConfigRow) : RowStep :=
  let key := lstrip buf line
  let key_end := read_key buf key
  if key = key_end then
    if rd buf key_end = 0 ∨ rd buf key_end = 35 then .done row else .fail row
  else
    let equ_begin := lstrip buf key_end
    if rd buf equ_begin ≠ 61 then .fail row
    else
      let buf1 := buf.set key_end 0    -- *key_end = '\0'
      let value_begin := lstrip buf1 (equ_begin + 1)
      if strcmp_eq buf1 key [112, 110, 112] = true then                       -- "pnp"
        let r := read_string buf1 value_begin row.pnp 4
        row_after buf1 r.1 { row with pnp := r.2, has_pnp := r.1.ok }
      else if strcmp_eq buf1 key [112, 114, 111, 100, 117, 99, 116] = true then  -- "product"
        let r := read_unsigned buf1 value_begin row.product
        row_after buf1 r.1 { row with product := r.2, has_product := r.1.ok }
      else if strcmp_eq buf1 key [110, 97, 109, 101] = true then              -- "name"
        let r := read_string buf1 value_begin row.name 16
        row_after buf1 r.1 { row with name := r.2, has_name := r.1.ok }
      else if strcmp_eq buf1 key [115, 101, 114, 105, 97, 108] = true then     -- "serial"
        let r := read_string buf1 value_begin row.serial 16
        row_after buf1 r.1 { row with serial := r.2, has_serial := r.1.ok }
      else if strcmp_eq buf1 key [100, 112, 105] = true then                  -- "dpi"
        let r := read_unsigned buf1 value_begin row.dpi
        row_after buf1 r.1 { row with dpi := r.2, has_dpi := r.1.ok }
      else .fail row

/-- The `for (;;)` loop of `read_config_row`: `some (b, row)` when the
function returns `b` leaving `row`, `none` when the fuel runs out first. -/
def read_config_row_loop : Nat → List Nat → Nat → ConfigRow → Option (Bool × ConfigRow)
  | 0, _, _, _ => none
  | fuel + 1, buf, line, row =>
    match read_config_row_step buf line row with
    | .done row1 => some (true, row1)
    | .fail row1 => some (false, row1)
    | .next buf1 line1 row1 => read_config_row_loop fuel buf1 line1 row1

/-- Lines 186 to 190: the five presence flags are cleared. -/
def clear_flags (row : ConfigRow) : ConfigRow :=
  { row with has_pnp := false, has_product := false, has_name := false,
             has_serial := false, has_dpi := false }

/-- The line parse of `read_config_row` (lines 186 to 277) on the buffer
`buf` with the cursor `line` on the first non-blank character of the line.
Every iteration moves the cursor forward, so `buf.length + 1` iterations
are enough. -/
def read_config_row_parse (buf : List Nat) (line : Nat) (row : ConfigRow) :
    Option (Bool × ConfigRow) :=
  read_config_row_loop (buf.length + 1) buf line (clear_flags row)

/-! ## Notions used to state the properties -/

/-- End of string or a whitespace character at the head of `tail`. -/
def Terminated (tail : List Nat) : Prop := rd tail 0 = 0 ∨ isspace (rd tail 0) = true

/-- The character `c` is one the loop of `read_unsigned`, run with the base
flags `h`, `o`, `b`, accumulates as a digit of value `dv c` in base `base`. -/
def DigitFor (h o b : Bool) (base : Nat) (dv : Nat → Nat) (c : Nat) : Prop :=
  c ≠ 0 ∧ isspace c = false ∧ dv c ≤ 15 ∧
    ∀ v, accumulate h o b v c = some ((v * base + dv c) % 2 ^ 64)

/-- The value of the hexadecimal digit character `c`. -/
def hexval (c : Nat) : Nat :=
  if 48 ≤ c ∧ c ≤ 57 then c - 48 else if 65 ≤ c ∧ c ≤ 70 then c - 55 else c - 87

/-- The rendering of `n` in base `b` (at most ten) as ASCII digits, the most
significant first and without a leading zero; the rendering of 0 is "0". -/
def render (b n : Nat) : List Nat :=
  if n = 0 then [48] else (Nat.digits b n).reverse.map (· + 48)

/-- The value of a string of decimal digit characters. -/
def dec_value (ds : List Nat) : Nat := ds.foldl (fun v c => v * 10 + (c - 48)) 0

/-- The chain of lines 141 to 151 on an accumulator that cannot wrap. -/
def accumulate_wide (is_hex is_oct is_bin : Bool) (val c : Nat) : Option Nat :=
  if is_hex = true ∧ isxdigit c = true then some (val * 16 + xdigit_table c)
  else if is_oct = true ∧ isodigit c = true then some (val * 8 + xdigit_table c)
  else if is_bin = true ∧ (c = 48 ∨ c = 49) then some (val * 2 + xdigit_table c)
  else if isdigit c = true then some (val * 10 + xdigit_table c)
  else none

/-- The loop of `read_unsigned` on an accumulator that cannot wrap. -/
def read_unsigned_loop_wide (buf : List Nat) (is_hex is_oct is_bin : Bool) :
    Nat → Nat → Nat → Nat → ReadStat × Nat
  | 0, str, val, _ => (STAT_OK str 0, val % 65536)
  | fuel + 1, str, val, slot =>
    if rd buf str = 0 then (STAT_OK str 0, val % 65536)
    else if isspace (rd buf str) = true then (STAT_OK str 0, val % 65536)
    else
      match accumulate_wide is_hex is_oct is_bin val (rd buf str) with
      | none => (STAT_FAIL str 0, slot)
      | some val1 =>
        if val1 > 65535 then (STAT_OVERFLOW str 0, val1 % 65536)
        else read_unsigned_loop_wide buf is_hex is_oct is_bin fuel (str + 1) val1 slot

/-- The function `read_unsigned` on an accumulator that cannot wrap. -/
def read_unsigned_wide (buf : List Nat) (str : Nat) (slot : Nat) : ReadStat × Nat :=
  if isdigit (rd buf str) = false then (STAT_FAIL str 0, slot)
  else
    let is_hex : Bool := rd buf str == 48 && (rd buf (str + 1) == 120 || rd buf (str + 1) == 88)
    let is_bin : Bool := rd buf str == 48 && (rd buf (str + 1) == 98 || rd buf (str + 1) == 66)
    let is_oct_o : Bool := rd buf str == 48 && (rd buf (str + 1) == 111 || rd buf (str + 1) == 79)
    let is_oct_c : Bool := rd buf str == 48 && isdigit (rd buf (str + 1))
    let str1 := if is_hex || is_oct_o || is_bin then str + 2 else if is_oct_c then str + 1 else str
    if isdigit (rd buf str1) = false then (STAT_FAIL str1 0, slot)
    else
      let is_oct := is_oct_o || is_oct_c
      read_unsigned_loop_wide buf is_hex is_oct is_bin (buf.length - str1) str1 0 slot

/-- The byte of a two-character escape: the named control escapes and the
escapes of a literal character. -/
def simple_escape (e : Nat) : Option Nat :=
  if e = 97 then some 7          -- \a
  else if e = 98 then some 8     -- \b
  else if e = 101 then some 27   -- \e
  else if e = 102 then some 12   -- \f
  else if e = 110 then some 10   -- \n
  else if e = 114 then some 13   -- \r
  else if e = 116 then some 9    -- \t
  else if e = 118 then some 11   -- \v
  else if e = 63 then some 63    -- \?
  else if e = 92 then some 92    -- \\
  else if e = 39 then some 39    -- \'
  else if e = 34 then some 34    -- \"
  else none

/-- One decoded item of a quoted literal, by the shape of its source text. -/
inductive Item where
  /-- An unescaped character. -/
  | plain (c : Nat)
  /-- A backslash and the character `e`. -/
  | simple (e : Nat)
  /-- The escape `\x` and two hexadecimal digits. -/
  | hex (h1 h2 : Nat)
  /-- A backslash and three octal digits. -/
  | oct (d1 d2 d3 : Nat)
  /-- The escape `\0`. -/
  | nul
  deriving DecidableEq, Repr

/-- The source text of an item. -/
def Item.src : Item → List Nat
  | .plain c => [c]
  | .simple e => [92, e]
  | .hex h1 h2 => [92, 120, h1, h2]
  | .oct d1 d2 d3 => [92, d1, d2, d3]
  | .nul => [92, 48]

/-- The byte an item stands for. -/
def Item.byte : Item → Nat
  | .plain c => c
  | .simple e => (simple_escape e).getD 0
  | .hex h1 h2 => 16 * hexval h1 + hexval h2
  | .oct d1 d2 d3 => 64 * (d1 - 48) + 8 * (d2 - 48) + (d3 - 48)
  | .nul => 0

/-- The item is one of the grammar: a plain character is not NUL, the quote
or the backslash; escapes have the digits they need. -/
def Item.wf : Item → Prop
  | .plain c => c ≠ 0 ∧ c ≠ 34 ∧ c ≠ 92 ∧ c < 256
  | .simple e => (simple_escape e).isSome = true
  | .hex h1 h2 => isxdigit h1 = true ∧ isxdigit h2 = true
  | .oct d1 d2 d3 => 48 ≤ d1 ∧ d1 < 52 ∧ isodigit d2 = true ∧ isodigit d3 = true
  | .nul => True

/-- The source text of a sequence of items. -/
def srcs (its : List Item) : List Nat := (its.map Item.src).flatten

/-- The bytes of a sequence of items. -/
def bytes (its : List Item) : List Nat := its.map Item.byte

/-- The items are well formed when followed by the text `rest`: each is one
of the grammar, and an escape `\0` is not followed by an octal digit. -/
def WfItems : List Item → List Nat → Prop
  | [], _ => True
  | it :: its, rest =>
    it.wf ∧ (it = .nul → isodigit (rd (srcs its ++ rest) 0) = false) ∧ WfItems its rest

/-- The stores `*ptr++ = b` for the bytes `bs` in turn. -/
def write_bytes (mem : List Nat) (ptr : Nat) : List Nat → List Nat
  | [] => mem
  | b :: bs => write_bytes (mem.set ptr b) (ptr + 1) bs

/-- The buffers `b1` and `b2` have the same length and the same bytes from index `p` on. -/
def AgreeFrom (p : Nat) (b1 b2 : List Nat) : Prop :=
  b1.length = b2.length ∧ ∀ i, p ≤ i → rd b1 i = rd b2 i

/-- The five keys of the configuration grammar. -/
inductive Key where
  | pnp | product | name | serial | dpi
  deriving DecidableEq, Repr

/-- The text of a key: the string literal `read_config_row` compares with. -/
def Key.text : Key → List Nat
  | .pnp => [112, 110, 112]
  | .product => [112, 114, 111, 100, 117, 99, 116]
  | .name => [110, 97, 109, 101]
  | .serial => [115, 101, 114, 105, 97, 108]
  | .dpi => [100, 112, 105]

/-- The `n` bytes of `buf` from index `a` on. -/
def slice (buf : List Nat) : Nat → Nat → List Nat
  | _, 0 => []
  | a, n + 1 => rd buf a :: slice buf (a + 1) n

/-- The decoder call `read_config_row` makes for the key `k` with the value at
cursor `vb`, and the row after the store of the value and of the presence flag:
`read_string` with capacity 4, 16, 16 for pnp, name, serial and
`read_unsigned` for product, dpi. -/
def store (k : Key) (buf : List Nat) (vb : Nat) (row : ConfigRow) : ReadStat × ConfigRow :=
  match k with
  | .pnp =>
    let r := read_string buf vb row.pnp 4
    (r.1, { row with pnp := r.2, has_pnp := r.1.ok })
  | .product =>
    let r := read_unsigned buf vb row.product
    (r.1, { row with product := r.2, has_product := r.1.ok })
  | .name =>
    let r := read_string buf vb row.name 16
    (r.1, { row with name := r.2, has_name := r.1.ok })
  | .serial =>
    let r := read_string buf vb row.serial 16
    (r.1, { row with serial := r.2, has_serial := r.1.ok })
  | .dpi =>
    let r := read_unsigned buf vb row.dpi
    (r.1, { row with dpi := r.2, has_dpi := r.1.ok })

/-- The presence flag of the key `k`. -/
def ConfigRow.has (row : ConfigRow) : Key → Bool
  | .pnp => row.has_pnp
  | .product => row.has_product
  | .name => row.has_name
  | .serial => row.has_serial
  | .dpi => row.has_dpi

/-- The outcome of the decoder of the key `k` on the value at cursor `vb`:
`read_string` with capacity 4, 16, 16 for pnp, name, serial and `read_unsigned`
for product, dpi, each on the field of the row. -/
def decoder_stat (k : Key) (buf : List Nat) (vb : Nat) (row : ConfigRow) : ReadStat :=
  match k with
  | .pnp => (read_string buf vb row.pnp 4).1
  | .product => (read_unsigned buf vb row.product).1
  | .name => (read_string buf vb row.name 16).1
  | .serial => (read_string buf vb row.serial 16).1
  | .dpi => (read_unsigned buf vb row.dpi).1

/-- A row used in the examples: every flag set, every field non-zero. -/
def example_row : ConfigRow :=
  { line := 3, pnp := [1, 2, 3, 4], has_pnp := true, product := 5, has_product := true,
    name := List.replicate 16 7, has_name := true, serial := List.replicate 16 8,
    has_serial := true, dpi := 9, has_dpi := true }

/-- One `key=value` pair of a line: the key, the whitespace before and after `=`, the
text of the value and the whitespace after it. -/
structure Pair where
  key : Key
  ws1 : List Nat
  ws2 : List Nat
  value : List Nat
  ws3 : List Nat

/-- Every byte of `ws` is a whitespace character. -/
def IsBlank (ws : List Nat) : Prop := ∀ c ∈ ws, isspace c = true

/-- The three runs of whitespace of the pair are whitespace (each may be empty; the
whitespace that follows the last pair may be the final newline of the line). -/
def Pair.wf (p : Pair) : Prop := IsBlank p.ws1 ∧ IsBlank p.ws2 ∧ IsBlank p.ws3

/-- The source text of a pair. -/
def Pair.src (p : Pair) : List Nat :=
  p.key.text ++ (p.ws1 ++ (61 :: (p.ws2 ++ (p.value ++ p.ws3))))

/-- The offset of the value in the source text of a pair. -/
def Pair.value_offset (p : Pair) : Nat := p.key.text.length + p.ws1.length + 1 + p.ws2.length

/-- The source text of a sequence of pairs. -/
def psrcs (ps : List Pair) : List Nat := (ps.map Pair.src).flatten

/-- The outcome and the value of the decoder of the key `k` at cursor `vb`, on a cleared
destination: `read_string` with capacity 4, 16, 16 for pnp, name, serial and
`read_unsigned` for product, dpi. -/
def decode (k : Key) (buf : List Nat) (vb : Nat) : ReadStat × (List Nat ⊕ Nat) :=
  match k with
  | .pnp => ((read_string buf vb (List.replicate 4 0) 4).1,
      .inl (read_string buf vb (List.replicate 4 0) 4).2)
  | .product => ((read_unsigned buf vb 0).1, .inr (read_unsigned buf vb 0).2)
  | .name => ((read_string buf vb (List.replicate 16 0) 16).1,
      .inl (read_string buf vb (List.replicate 16 0) 16).2)
  | .serial => ((read_string buf vb (List.replicate 16 0) 16).1,
      .inl (read_string buf vb (List.replicate 16 0) 16).2)
  | .dpi => ((read_unsigned buf vb 0).1, .inr (read_unsigned buf vb 0).2)

/-- The field of the key `k`. -/
def ConfigRow.field (row : ConfigRow) : Key → List Nat ⊕ Nat
  | .pnp => .inl row.pnp
  | .product => .inr row.product
  | .name => .inl row.name
  | .serial => .inl row.serial
  | .dpi => .inr row.dpi

/-- The `char` arrays of the row have their declared sizes. -/
def RowSized (row : ConfigRow) : Prop :=
  row.pnp.length = 4 ∧ row.name.length = 16 ∧ row.serial.length = 16

/-- The row after the stores of the pairs `ps` in turn, the first key at cursor `s`. -/
def store_all (buf : List Nat) : Nat → List Pair → ConfigRow → ConfigRow
  | _, [], row => row
  | s, p :: ps, row =>
    store_all buf (s + p.src.length) ps (store p.key buf (s + p.value_offset) row).2

/-- The decoder accepts the value of each pair of `ps`, the first key being at cursor `s`:
its outcome is success and it leaves the cursor right after the text of the value. -/
def Accepted (buf : List Nat) : Nat → List Pair → Prop
  | _, [] => True
  | s, p :: ps =>
    (decode p.key buf (s + p.value_offset)).1
        = { next := s + p.value_offset + p.value.length, ok := true, overflow := false }
      ∧ Accepted buf (s + p.src.length) ps

/-- The keys of the pairs `ps` with the values their decoders give, the first key being
at cursor `s`. -/
def decoded (buf : List Nat) : Nat → List Pair → List (Key × (List Nat ⊕ Nat))
  | _, [] => []
  | s, p :: ps =>
    (p.key, (decode p.key buf (s + p.value_offset)).2) :: decoded buf (s + p.src.length) ps

/-- The two-character escapes: the escaped character and the byte it stands for
(`\a \b \e \f \n \r \t \v`, then `\? \\ \' \"`). -/
def escape_table : List (Nat × Nat) :=
  [(97, 7), (98, 8), (101, 27), (102, 12), (110, 10), (114, 13), (116, 9), (118, 11),
   (63, 63), (92, 92), (39, 39), (34, 34)]

/-! ## The binary descriptor decoder (`screen_info.c`, lines 165 to 247)

The blob is the struct `Buffer` of `buffer.h`: `ptr` is the memory from the
pointer on, a list of bytes, and `len` the declared length.  The query of the
display server that fills it is not part of the embedding. -/

/-- The struct `Buffer` of `buffer.h`. -/
structure Buffer where
  ptr : List Nat
  len : Nat
  deriving DecidableEq, Repr

/-- The struct `EdidInfo` of `screen_info.h`; the `char` arrays are byte lists. -/
structure EdidInfo where
  pnp_id : List Nat
  product_id : Nat
  serial_num : Nat
  product_name : List Nat
  identifier : List Nat
  serial_number : List Nat
  physical_width : Nat
  physical_height : Nat
  deriving DecidableEq, Repr

/-- The call `memcpy(dst, src + p, n)` on a destination of at least `n` bytes. -/
def memcpy (dst src : List Nat) (p n : Nat) : List Nat := slice src p n ++ dst.drop n

/-- The first loop of `copy_edid_string` (lines 168 to 172): every CR and LF before the
first NUL becomes NUL.  With no fuel left the cursor is at or past the end of the list,
where the byte read is NUL. -/
def crlf_loop : Nat → List Nat → Nat → List Nat
  | 0, dst, _ => dst
  | fuel + 1, dst, ch =>
    if rd dst ch = 0 then dst
    else if rd dst ch = 13 ∨ rd dst ch = 10 then crlf_loop fuel (dst.set ch 0) (ch + 1)
    else crlf_loop fuel dst (ch + 1)

/-- The loop of C `strlen` from the cursor `str`: the number of bytes before the NUL. -/
def strlen_loop (buf : List Nat) : Nat → Nat → Nat
  | 0, _ => 0
  | fuel + 1, str => if rd buf str = 0 then 0 else strlen_loop buf fuel (str + 1) + 1

/-- C `strlen(buf + str)`. -/
def strlen (buf : List Nat) (str : Nat) : Nat := strlen_loop buf (buf.length - str) str

/-- The loop `while (end >= begin && isspace(*end)) --end;` of `copy_edid_string`
(line 176); `end` is an integer, it may be `begin - 1`.  Every iteration lowers `end`,
so with no fuel left, the fuel being the length of the string, `end < begin`. -/
def rstrip_loop (dst : List Nat) (begin : Nat) : Nat → Int → Int
  | 0, e => e
  | fuel + 1, e =>
    if (begin : Int) ≤ e ∧ isspace (rd dst e.toNat) = true then rstrip_loop dst begin fuel (e - 1)
    else e

/-- The loop `for (s = begin, d = dst; s < end; ++s, ++d) *d = *s;` of
`copy_edid_string` (lines 178 to 180); `s` and `d` are indices in `dst`. -/
def move_loop : Nat → List Nat → Nat → Nat → Int → List Nat
  | 0, dst, _, _, _ => dst
  | fuel + 1, dst, s, d, e =>
    if (s : Int) < e then move_loop fuel (dst.set d (rd dst s)) (s + 1) (d + 1) e else dst

/-- The function `copy_edid_string(dst, ptr)`: `dst` is the memory at the destination,
`src` the memory of the blob and `p` the offset of `ptr` in it.  Returns the
destination memory. -/
def copy_edid_string (dst src : List Nat) (p : Nat) : List Nat :=
  let d0 := memset0 dst 16
  let d1 := memcpy d0 src p 13
  let d2 := crlf_loop d1.length d1 0
  let begin := lstrip d2 0                   -- the loop of line 174 is the loop of `lstrip`
  let e0 : Int := (begin : Int) + (strlen d2 begin : Int) - 1
  let e1 : Int := rstrip_loop d2 begin (strlen d2 begin) e0
  let e2 : Int := e1 + 1
  let d3 := move_loop (e2 - begin).toNat d2 begin 0 e2
  d3.set (e2 - begin).toNat 0

/-- The array `EDID_HEADER`. -/
def EDID_HEADER : List Nat := [0x00, 0xff, 0xff, 0xff, 0xff, 0xff, 0xff, 0x00]

/-- The record after `memset(edid, 0, sizeof(EdidInfo))`. -/
def edid_zero : EdidInfo :=
  { pnp_id := List.replicate 4 0, product_id := 0, serial_num := 0,
    product_name := List.replicate 16 0, identifier := List.replicate 16 0,
    serial_number := List.replicate 16 0, physical_width := 0, physical_height := 0 }

/-- The body of the `for` loop of `parse_edid` (lines 227 to 243) for the index `i`. -/
def edid_block (buff : Buffer) (edid : EdidInfo) (i : Nat) : EdidInfo :=
  let offset := 54 + i * 18
  if rd buff.ptr offset ≠ 0 ∨ rd buff.ptr (offset + 1) ≠ 0 ∨ rd buff.ptr (offset + 2) ≠ 0 then
    edid                                                   -- continue
  else if rd buff.ptr (offset + 3) = 0xfc then
    { edid with product_name := copy_edid_string edid.product_name buff.ptr (offset + 5) }
  else if rd buff.ptr (offset + 3) = 0xfe then
    { edid with identifier := copy_edid_string edid.identifier buff.ptr (offset + 5) }
  else if rd buff.ptr (offset + 3) = 0xff then
    { edid with serial_number := copy_edid_string edid.serial_number buff.ptr (offset + 5) }
  else edid

/-- The function `parse_edid(buff, edid)`: returns the result and the record `*edid`,
which the function clears first.  The arithmetic of the PNP id is that of
`unsigned int`, the product id is a `uint16_t` and the serial number a `uint32_t`. -/
def parse_edid (buff : Buffer) : Bool × EdidInfo :=
  let edid := edid_zero
  if buff.len < 128 then (false, edid)
  else if slice buff.ptr 0 8 ≠ EDID_HEADER then (false, edid)   -- memcmp(...) != 0
  else
    let lo := rd buff.ptr 8
    let hi := rd buff.ptr 9
    let pnp0 := (65 + ((lo &&& 0x7c) >>> 2) - 1) % 256
    let pnp1 := (65 + ((lo &&& 0x03) <<< 3) + ((hi &&& 0xe0) >>> 5) - 1) % 256
    let pnp2 := (65 + (hi &&& 0x1f) - 1) % 256
    let edid := { edid with
      pnp_id := (((edid.pnp_id.set 0 pnp0).set 1 pnp1).set 2 pnp2).set 3 0 }
    let edid := { edid with
      product_id := (rd buff.ptr 10 % 65536 + (rd buff.ptr 11 % 65536) <<< 8) % 65536 }
    let edid := { edid with
      serial_num := (rd buff.ptr 12 % 2 ^ 32 + ((rd buff.ptr 13 % 2 ^ 32) <<< 8) % 2 ^ 32
        + ((rd buff.ptr 14 % 2 ^ 32) <<< 16) % 2 ^ 32
        + ((rd buff.ptr 15 % 2 ^ 32) <<< 24) % 2 ^ 32) % 2 ^ 32 }
    let edid := { edid with
      physical_width := rd buff.ptr 21, physical_height := rd buff.ptr 22 }
    (true, (List.range 5).foldl (edid_block buff) edid)

/-! ## The matching loop (`main.c`, lines 73 to 80)

The rows are the values of `row` after the successful calls of `read_config_row`, in
the order of the calls. -/

/-- The loop of C `strcmp(a, b)` from the index `i` of both arrays: the difference of
the first two bytes that differ, 0 when a NUL is reached first.  With no fuel left the
index is the length of `a`, where the byte read is NUL. -/
def strcmp_loop (a b : List Nat) : Nat → Nat → Int
  | 0, i => 0 - (rd b i : Int)
  | fuel + 1, i =>
    if rd a i ≠ rd b i then (rd a i : Int) - (rd b i : Int)
    else if rd a i = 0 then 0
    else strcmp_loop a b fuel (i + 1)

/-- C `strcmp(a, b)` on two byte arrays. -/
def strcmp (a b : List Nat) : Int := strcmp_loop a b a.length 0

/-- The body of the `while` loop of `main` (lines 74 to 78): the value of `dpi` after
the iteration for `row`. -/
def main_loop_body (edid : EdidInfo) (dpi : Nat) (row : ConfigRow) : Nat :=
  if row.has_pnp = true ∧ strcmp row.pnp edid.pnp_id ≠ 0 then dpi                 -- continue
  else if row.has_product = true ∧ row.product ≠ edid.product_id then dpi
  else if row.has_name = true ∧ strcmp row.name edid.product_name ≠ 0 then dpi
  else if row.has_serial = true ∧ strcmp row.serial edid.serial_number ≠ 0 then dpi
  else if row.has_dpi = true then row.dpi
  else dpi

/-- The value of `dpi` after the `while` loop of `main` (lines 63 to 80) has consumed
the rows `rows`. -/
def main_dpi (edid : EdidInfo) (rows : List ConfigRow) : Nat :=
  rows.foldl (main_loop_body edid) 0

/-- A blob of 128 bytes with the header, the bytes `b8` and `b9` at offsets 8 and 9 and
zeros elsewhere. -/
def pnp_blob (b8 b9 : Nat) : Buffer :=
  { ptr := EDID_HEADER ++ [b8, b9] ++ List.replicate 118 0, len := 128 }

/-- A blob of 128 bytes with the header and the bytes 0x34, 0x12 at offsets 10 and 11,
1, 2, 3, 4 at offsets 12 to 15, 52 and 32 at offsets 21 and 22. -/
def numeric_blob : Buffer :=
  { ptr := EDID_HEADER ++ [0x04, 0x69, 0x34, 0x12, 1, 2, 3, 4] ++ List.replicate 5 0 ++ [52, 32]
      ++ List.replicate 105 0, len := 128 }

/-- The null-terminated string at the start of the array `a`: the bytes before the
first NUL. -/
def cstr (a : List Nat) : List Nat := a.takeWhile (fun c => c != 0)

/-- The list `s` without its leading and its trailing whitespace. -/
def trim (s : List Nat) : List Nat :=
  ((s.dropWhile isspace).reverse.dropWhile isspace).reverse

/-- The bytes of `w` before its first NUL, CR or LF, all of `w` if there is none. -/
def first_line (w : List Nat) : List Nat :=
  w.takeWhile (fun c => c != 0 && c != 13 && c != 10)

/-- The three kinds of text record of the blob. -/
inductive Tag where
  | product_name
  | identifier
  | serial_number
  deriving DecidableEq, Repr

/-- The tag byte of a kind of record. -/
def Tag.code : Tag → Nat
  | .product_name => 0xfc
  | .identifier => 0xfe
  | .serial_number => 0xff

/-- The field of the record that a kind of text record fills. -/
def EdidInfo.text (e : EdidInfo) : Tag → List Nat
  | .product_name => e.product_name
  | .identifier => e.identifier
  | .serial_number => e.serial_number

/-- The offsets of the five 18-byte records. -/
def record_offsets : List Nat := [54, 72, 90, 108, 126]

/-- The record at offset `o` has its first three bytes zero and the tag byte `t`. -/
def is_descriptor (ptr : List Nat) (t o : Nat) : Bool :=
  rd ptr o == 0 && rd ptr (o + 1) == 0 && rd ptr (o + 2) == 0 && rd ptr (o + 3) == t

/-- A blob of 144 bytes with the header and the records: product name `DELL U2412M`,
serial number `SER123`, product name `SECOND`, a record that is no descriptor and a
descriptor with the tag 0. -/
def records_blob : Buffer :=
  { ptr := EDID_HEADER ++ List.replicate 46 7
      ++ [0, 0, 0, 0xfc, 0, 68, 69, 76, 76, 32, 85, 50, 52, 49, 50, 77, 10, 32]
      ++ [0, 0, 0, 0xff, 0, 83, 69, 82, 49, 50, 51, 10, 32, 32, 32, 32, 32, 32]
      ++ [0, 0, 0, 0xfc, 0, 83, 69, 67, 79, 78, 68, 10, 32, 32, 32, 32, 32, 32]
      ++ [0, 1, 0, 0xfe, 0, 78, 79, 10, 32, 32, 32, 32, 32, 32, 32, 32, 32, 32]
      ++ [0, 0, 0, 0x10, 0, 78, 79, 10, 32, 32, 32, 32, 32, 32, 32, 32, 32, 32],
    len := 144 }

/-- The row `row` matches the record `edid` on every field present in the row; the
strings are compared as null-terminated strings. -/
def RowMatches (row : ConfigRow) (edid : EdidInfo) : Prop :=
  (row.has_pnp = true → cstr row.pnp = cstr edid.pnp_id)
  ∧ (row.has_product = true → row.product = edid.product_id)
  ∧ (row.has_name = true → cstr row.name = cstr edid.product_name)
  ∧ (row.has_serial = true → cstr row.serial = cstr edid.serial_number)

instance (row : ConfigRow) (edid : EdidInfo) : Decidable (RowMatches row edid) := by
  unfold RowMatches
  infer_instance

/-- A record with the PNP id `ACI` and the product name `name`, a single character. -/
def example_edid (name : Nat) : EdidInfo :=
  { edid_zero with pnp_id := [65, 67, 73, 0], product_name := name :: List.replicate 15 0 }

/-! ## The offsets of the blob that `parse_edid` reads

A second reading of `parse_edid` and `copy_edid_string` (`screen_info.c`, lines 165 to
247) that returns, in the order of the accesses, the offsets `k` of the expressions
`buff.ptr[k]` that are evaluated, in place of the record. -/

/-- The offsets of the blob that `copy_edid_string(dst, buff.ptr + p)` reads: the 13
bytes of `memcpy(dst, ptr, 13)` (line 167); the rest of the function works on `dst`. -/
def copy_edid_string_reads (p : Nat) : List Nat := (List.range 13).map (fun j => p + j)

/-- The offsets read by the body of the `for` loop of `parse_edid` (lines 227 to 243)
for the index `i`: the operands of `||` are evaluated from the left until one is
true, then the tag byte, then the payload when the tag is one of the three. -/
def edid_block_reads (buff : Buffer) (i : Nat) : List Nat :=
  let offset := 54 + i * 18
  if rd buff.ptr offset ≠ 0 then [offset]
  else if rd buff.ptr (offset + 1) ≠ 0 then [offset, offset + 1]
  else if rd buff.ptr (offset + 2) ≠ 0 then [offset, offset + 1, offset + 2]
  else if rd buff.ptr (offset + 3) = 0xfc ∨ rd buff.ptr (offset + 3) = 0xfe
      ∨ rd buff.ptr (offset + 3) = 0xff then
    [offset, offset + 1, offset + 2, offset + 3] ++ copy_edid_string_reads (offset + 5)
  else [offset, offset + 1, offset + 2, offset + 3]

/-- The offsets read by `parse_edid(buff, edid)`: none when the length test fails, the
8 bytes that `memcmp` compares (all of them when the header matches), then the bytes
of the fixed fields (lines 207 to 223) and those of the loop over the five records. -/
def parse_edid_reads (buff : Buffer) : List Nat :=
  if buff.len < 128 then []
  else if slice buff.ptr 0 8 ≠ EDID_HEADER then List.range 8
  else
    List.range 8 ++ [8, 8, 9, 9, 10, 11, 12, 13, 14, 15, 21, 22]
      ++ ((List.range 5).map (edid_block_reads buff)).flatten

/-- A blob of exactly 128 bytes: the header, the bytes 1 to 118 at the offsets 8 to 125,
the byte 0 at offset 126 (no extension block) and the byte 0 at offset 127 (the
checksum). -/
def short_blob : Buffer :=
  { ptr := EDID_HEADER ++ (List.range 118).map (fun j => j + 1) ++ [0, 0], len := 128 }

/-- A stream open for reading: the bytes not yet read, whether a read past these bytes
is a read error (and not the end of the file), and the end-of-file and error
indicators. -/
structure Stream where
  data : List Nat
  broken : Bool
  eof : Bool
  error : Bool
  deriving DecidableEq, Repr

/-- The characters that `fgets` takes from the bytes of the stream when `n` characters
fit: the bytes up to and including the first newline, at most `n` of them. -/
def fgets_chars : Nat → List Nat → List Nat
  | 0, _ => []
  | _ + 1, [] => []
  | n + 1, c :: cs => if c = 10 then [c] else c :: fgets_chars n cs

/-- C `fgets(buf, size, stream)` on the memory `buf`: the memory after the call, or
`none` for the result `NULL`, and the stream after the call.  The characters are
stored from index 0 and a NUL after them.  A read that runs past the bytes of the
stream is a read error on a broken stream (`NULL`) and sets the end-of-file indicator
otherwise, the result being `NULL` when no character was read. -/
def fgets (buf : List Nat) (size : Nat) (s : Stream) : Option (List Nat) × Stream :=
  if s.eof = true then (none, s)
  else
    let chars := fgets_chars (size - 1) s.data
    let past_end : Bool := decide (chars.length < size - 1) && chars.getLast? != some 10
    let s1 := { s with data := s.data.drop chars.length }
    if past_end = true ∧ s.broken = true then (none, { s1 with error := true })
    else if past_end = true ∧ chars = [] then (none, { s1 with eof := true })
    else
      (some (chars ++ 0 :: buf.drop (chars.length + 1)), { s1 with eof := past_end })

/-- The `while (fgets(buf, sizeof(buf), stream) != NULL)` loop of lines 166 to 172:
the stream, the buffer, the cursor `line` and the line counter `*pline` when the loop
is left, `none` when the fuel runs out first.  Every iteration that goes on has read at
least one byte, so one iteration more than there are bytes is enough. -/
def read_line_loop : Nat → Stream → List Nat → Nat → Int →
    Option (Stream × List Nat × Nat × Int)
  | 0, _, _, _, _ => none
  | fuel + 1, s, buf, line, pline =>
    match fgets buf 1024 s with
    | (none, s1) => some (s1, buf, line, pline)
    | (some buf1, s1) =>
      let line1 := lstrip buf1 0
      if rd buf1 line1 ≠ 0 then some (s1, buf1, line1, pline + 1)     -- break
      else read_line_loop fuel s1 buf1 line1 (pline + 1)

/-- The function `read_config_row(stream, config_row)`: the result, the row and the
stream after the call.  The counter `config_row->line` is an `int`, modelled without
overflow. -/
def read_config_row (stream : Stream) (config_row : ConfigRow) :
    Option (Bool × ConfigRow × Stream) :=
  let buf := List.replicate 1024 0                 -- char buf[1024]; memset(buf, 0, ...)
  match read_line_loop (stream.data.length + 1) stream buf 0 config_row.line with
  | none => none
  | some (s, buf1, line, pline) =>
    let row := { config_row with line := pline }
    if s.eof = true then some (false, row, s)                       -- feof(stream)
    else if s.error = true then some (false, row, s)                -- ferror(stream)
    else
      let length := strlen buf1 line
      if rd buf1 (line + length - 1) ≠ 10 then some (false, row, s)  -- line is too long
      else
        match read_config_row_parse buf1 line row with
        | none => none
        | some (b, row1) => some (b, row1, s)

/-- The stream that holds the bytes `data`, with no indicator set. -/
def stream_of (data : List Nat) : Stream :=
  { data := data, broken := false, eof := false, error := false }

/-! ## Reading the buffer -/

theorem rd_append_right (pre s : List Nat) (i : Nat) : rd (pre ++ s) (pre.length + i) = rd s i := by
  simp [rd, List.getD_eq_getElem?_getD, List.getElem?_append_right]

theorem rd_append_length (pre s : List Nat) : rd (pre ++ s) pre.length = rd s 0 := by
  simpa using rd_append_right pre s 0

theorem rd_append_left (pre s : List Nat) (i : Nat) (h : i < pre.length) : rd (pre ++ s) i = rd pre i := by
  simp [rd, List.getD_eq_getElem?_getD, List.getElem?_append_left h]

theorem rd_lt_of_ne_zero (buf : List Nat) (i : Nat) (h : rd buf i ≠ 0) : i < buf.length := by
  by_contra hn
  apply h
  simp [rd, List.getD_eq_getElem?_getD, List.getElem?_eq_none (not_lt.mp hn)]

@[simp] theorem rd_cons_zero (c : Nat) (s : List Nat) : rd (c :: s) 0 = c := rfl
@[simp] theorem rd_cons_succ (c : Nat) (s : List Nat) (i : Nat) : rd (c :: s) (i + 1) = rd s i := rfl
@[simp] theorem rd_nil (i : Nat) : rd [] i = 0 := rfl

/-! ## The unsigned-integer decoder on strings of digits -/

theorem foldl_digits_le (base : Nat) (dv : Nat → Nat) (hb : 1 ≤ base) (ds : List Nat) :
    ∀ val, val ≤ ds.foldl (fun v c => v * base + dv c) val := by
  induction ds with
  | nil => intro val; simp
  | cons c ds ih =>
    intro val
    simp only [List.foldl_cons]
    calc val ≤ val * base + dv c := by nlinarith
      _ ≤ _ := ih _

theorem read_unsigned_loop_run (h o b : Bool) (base : Nat) (dv : Nat → Nat) (hb : 1 ≤ base)
    (ds : List Nat) : ∀ (pre rest : List Nat) (val fuel slot : Nat),
    (∀ c ∈ ds, DigitFor h o b base dv c) →
    ds.foldl (fun v c => v * base + dv c) val ≤ 65535 →
    read_unsigned_loop (pre ++ (ds ++ rest)) h o b (fuel + ds.length) pre.length val slot
      = read_unsigned_loop (pre ++ (ds ++ rest)) h o b fuel (pre.length + ds.length)
          (ds.foldl (fun v c => v * base + dv c) val) slot := by
  induction ds with
  | nil => intro pre rest val fuel slot _ _; simp
  | cons c ds ih =>
    intro pre rest val fuel slot hd hle
    obtain ⟨hc0, hcs, _, hacc⟩ := hd c (List.mem_cons_self _ _)
    have hrd : rd (pre ++ (c :: ds ++ rest)) pre.length = c := by
      rw [rd_append_length]; rfl
    simp only [List.foldl_cons] at hle ⊢
    have h1 : val * base + dv c ≤ 65535 := le_trans (foldl_digits_le base dv hb ds _) hle
    have hmod : (val * base + dv c) % 2 ^ 64 = val * base + dv c :=
      Nat.mod_eq_of_lt (by omega)
    have hfuel : fuel + (c :: ds).length = (fuel + ds.length) + 1 := by simp; omega
    rw [hfuel, read_unsigned_loop]
    simp only [hrd, hc0, hcs, hacc, hmod, if_false]
    have hng : ¬ (val * base + dv c > 65535) := by omega
    simp only [hng, if_false]
    have hbuf : pre ++ (c :: ds ++ rest) = (pre ++ [c]) ++ (ds ++ rest) := by simp
    have hlen : pre.length + 1 = (pre ++ [c]).length := by simp
    rw [hbuf, hlen, ih (pre ++ [c]) rest _ fuel slot
      (fun x hx => hd x (List.mem_cons_of_mem _ hx)) hle]
    have hpos : (pre ++ [c]).length + ds.length = pre.length + (c :: ds).length := by
      simp only [List.length_append, List.length_cons, List.length_nil]; omega
    rw [hpos]; simp

theorem read_unsigned_loop_end (h o b : Bool) (pre rest : List Nat) (val slot : Nat)
    (ht : Terminated rest) :
    read_unsigned_loop (pre ++ rest) h o b rest.length pre.length val slot
      = (STAT_OK pre.length 0, val % 65536) := by
  cases rest with
  | nil => simp [read_unsigned_loop]
  | cons c r =>
    have hrd : rd (pre ++ c :: r) pre.length = c := by rw [rd_append_length]; rfl
    simp only [List.length_cons, read_unsigned_loop, hrd]
    rcases ht with h0 | hs
    · simp at h0; simp [h0]
    · simp at hs; simp [hs]

theorem xdigit_table_digit (c : Nat) (h1 : 48 ≤ c) (h2 : c ≤ 57) : xdigit_table c = c - 48 := by
  interval_cases c <;> rfl

theorem xdigit_table_hex (c : Nat) (h : isxdigit c = true) : xdigit_table c = hexval c := by
  have hc : c ≤ 102 := by
    simp [isxdigit] at h; omega
  interval_cases c <;> first | rfl | (exact absurd h (by decide))

theorem digitFor_dec (c : Nat) (h1 : 48 ≤ c) (h2 : c ≤ 57) :
    DigitFor false false false 10 (fun c => c - 48) c := by
  refine ⟨by omega, ?_, by simp; omega, fun v => ?_⟩
  · interval_cases c <;> rfl
  · have hd : isdigit c = true := by simp [isdigit, h1, h2]
    simp [accumulate, hd, xdigit_table_digit c h1 h2]

theorem digitFor_bin (c : Nat) (h : c = 48 ∨ c = 49) :
    DigitFor false false true 2 (fun c => c - 48) c := by
  rcases h with rfl | rfl <;>
  exact ⟨by decide, by decide, by decide, fun v => by simp [accumulate]; rfl⟩

theorem digitFor_oct (c : Nat) (h1 : 48 ≤ c) (h2 : c < 56) :
    DigitFor false true false 8 (fun c => c - 48) c := by
  refine ⟨by omega, ?_, by simp; omega, fun v => ?_⟩
  · interval_cases c <;> rfl
  · have hd : isodigit c = true := by simp [isodigit, h1, h2]
    simp [accumulate, hd, xdigit_table_digit c h1 (by omega)]

theorem digitFor_hex (c : Nat) (h : isxdigit c = true) :
    DigitFor true false false 16 hexval c := by
  have hc : c ≤ 102 := by
    simp [isxdigit] at h; omega
  refine ⟨?_, ?_, ?_, fun v => ?_⟩
  · rintro rfl; exact absurd h (by decide)
  · interval_cases c <;> first | rfl | (exact absurd h (by decide))
  · interval_cases c <;> decide
  · simp [accumulate, h, xdigit_table_hex c h]

theorem render_mem (b n c : Nat) (hb : 2 ≤ b) (hc : c ∈ render b n) : 48 ≤ c ∧ c < 48 + b := by
  unfold render at hc
  split at hc
  · simp at hc; omega
  · simp only [List.mem_map, List.mem_reverse] at hc
    obtain ⟨d, hd, rfl⟩ := hc
    have := Nat.digits_lt_base hb hd
    omega

theorem foldl_digits_reverse (b : Nat) (l : List Nat) :
    (l.reverse.map (· + 48)).foldl (fun v c => v * b + (c - 48)) 0 = Nat.ofDigits b l := by
  induction l with
  | nil => simp
  | cons d l ih =>
    simp only [List.reverse_cons, List.map_append, List.foldl_append, ih, List.map_cons,
      List.map_nil, List.foldl_cons, List.foldl_nil, Nat.ofDigits_cons]
    simp; ring

theorem render_value (b n : Nat) :
    (render b n).foldl (fun v c => v * b + (c - 48)) 0 = n := by
  unfold render
  split
  · simp; omega
  · rw [foldl_digits_reverse, Nat.ofDigits_digits]

theorem render_head (b n : Nat) :
    ∃ c r, render b n = c :: r ∧ (c = 48 → r = [] ∧ n = 0) := by
  unfold render
  split
  · rename_i h; exact ⟨48, [], rfl, fun _ => ⟨rfl, h⟩⟩
  · rename_i h
    have hne : Nat.digits b n ≠ [] := Nat.digits_ne_nil_iff_ne_zero.mpr h
    have hlast := Nat.getLast_digit_ne_zero b h
    cases hr : (Nat.digits b n).reverse with
    | nil => simp at hr; exact absurd hr hne
    | cons d r =>
      refine ⟨d + 48, r.map (· + 48), by simp, fun hd => ?_⟩
      exfalso
      have hd0 : d = 0 := by omega
      have h2 : (Nat.digits b n).getLast? = some d := by
        rw [← List.head?_reverse, hr]; rfl
      rw [List.getLast?_eq_getLast _ hne] at h2
      exact hlast (by simpa [hd0] using h2)

theorem read_unsigned_loop_digits (h o b : Bool) (base : Nat) (dv : Nat → Nat) (hb : 1 ≤ base)
    (pre ds tail : List Nat) (slot : Nat)
    (hd : ∀ c ∈ ds, DigitFor h o b base dv c) (ht : Terminated tail)
    (hle : ds.foldl (fun v c => v * base + dv c) 0 ≤ 65535) :
    read_unsigned_loop (pre ++ (ds ++ tail)) h o b ((pre ++ (ds ++ tail)).length - pre.length)
        pre.length 0 slot
      = (STAT_OK (pre.length + ds.length) 0, ds.foldl (fun v c => v * base + dv c) 0) := by
  have hf : (pre ++ (ds ++ tail)).length - pre.length = tail.length + ds.length := by
    simp only [List.length_append]; omega
  rw [hf, read_unsigned_loop_run h o b base dv hb ds pre tail 0 tail.length slot hd hle]
  have hbuf : pre ++ (ds ++ tail) = (pre ++ ds) ++ tail := by simp
  have hlen : pre.length + ds.length = (pre ++ ds).length := by simp
  rw [hbuf, hlen, read_unsigned_loop_end h o b (pre ++ ds) tail _ slot ht, Nat.mod_eq_of_lt (by omega)]

theorem terminated_not_digit (tail : List Nat) (ht : Terminated tail) :
    isdigit (rd tail 0) = false ∧ rd tail 0 ≠ 120 ∧ rd tail 0 ≠ 88 ∧ rd tail 0 ≠ 98
      ∧ rd tail 0 ≠ 66 ∧ rd tail 0 ≠ 111 ∧ rd tail 0 ≠ 79 := by
  rcases ht with h | h
  · rw [h]; decide
  · simp [isspace] at h
    simp [isdigit]
    omega


theorem read_unsigned_plain (buf : List Nat) (str slot : Nat)
    (hd : isdigit (rd buf str) = true)
    (hp : rd buf str ≠ 48 ∨ (isdigit (rd buf (str + 1)) = false ∧ rd buf (str + 1) ≠ 120
      ∧ rd buf (str + 1) ≠ 88 ∧ rd buf (str + 1) ≠ 98 ∧ rd buf (str + 1) ≠ 66
      ∧ rd buf (str + 1) ≠ 111 ∧ rd buf (str + 1) ≠ 79)) :
    read_unsigned buf str slot
      = read_unsigned_loop buf false false false (buf.length - str) str 0 slot := by
  unfold read_unsigned
  rcases hp with hp | ⟨h1, h2, h3, h4, h5, h6, h7⟩
  · have e0 : (rd buf str == 48) = false := beq_false_of_ne hp
    simp [hd, e0]
  · have e2 : (rd buf (str + 1) == 120) = false := beq_false_of_ne h2
    have e3 : (rd buf (str + 1) == 88) = false := beq_false_of_ne h3
    have e4 : (rd buf (str + 1) == 98) = false := beq_false_of_ne h4
    have e5 : (rd buf (str + 1) == 66) = false := beq_false_of_ne h5
    have e6 : (rd buf (str + 1) == 111) = false := beq_false_of_ne h6
    have e7 : (rd buf (str + 1) == 79) = false := beq_false_of_ne h7
    simp [hd, h1, e2, e3, e4, e5, e6, e7]

theorem read_unsigned_hex (buf : List Nat) (str slot : Nat)
    (h0 : rd buf str = 48) (h1 : rd buf (str + 1) = 120 ∨ rd buf (str + 1) = 88) :
    read_unsigned buf str slot
      = if isdigit (rd buf (str + 2)) = false then (STAT_FAIL (str + 2) 0, slot)
        else read_unsigned_loop buf true false false (buf.length - (str + 2)) (str + 2) 0 slot := by
  unfold read_unsigned
  rcases h1 with h1 | h1 <;> simp [h0, h1, isdigit]

theorem read_unsigned_bin (buf : List Nat) (str slot : Nat)
    (h0 : rd buf str = 48) (h1 : rd buf (str + 1) = 98 ∨ rd buf (str + 1) = 66) :
    read_unsigned buf str slot
      = if isdigit (rd buf (str + 2)) = false then (STAT_FAIL (str + 2) 0, slot)
        else read_unsigned_loop buf false false true (buf.length - (str + 2)) (str + 2) 0 slot := by
  unfold read_unsigned
  rcases h1 with h1 | h1 <;> simp [h0, h1, isdigit]

theorem read_unsigned_oct_o (buf : List Nat) (str slot : Nat)
    (h0 : rd buf str = 48) (h1 : rd buf (str + 1) = 111 ∨ rd buf (str + 1) = 79) :
    read_unsigned buf str slot
      = if isdigit (rd buf (str + 2)) = false then (STAT_FAIL (str + 2) 0, slot)
        else read_unsigned_loop buf false true false (buf.length - (str + 2)) (str + 2) 0 slot := by
  unfold read_unsigned
  rcases h1 with h1 | h1 <;> simp [h0, h1, isdigit]

theorem read_unsigned_oct_c (buf : List Nat) (str slot : Nat)
    (h0 : rd buf str = 48) (h1 : isdigit (rd buf (str + 1)) = true) :
    read_unsigned buf str slot
      = read_unsigned_loop buf false true false (buf.length - (str + 1)) (str + 1) 0 slot := by
  unfold read_unsigned
  have hx : rd buf (str + 1) ≠ 120 ∧ rd buf (str + 1) ≠ 88 ∧ rd buf (str + 1) ≠ 98
      ∧ rd buf (str + 1) ≠ 66 ∧ rd buf (str + 1) ≠ 111 ∧ rd buf (str + 1) ≠ 79 := by
    simp [isdigit] at h1; omega
  obtain ⟨h2, h3, h4, h5, h6, h7⟩ := hx
  have e2 : (rd buf (str + 1) == 120) = false := beq_false_of_ne h2
  have e3 : (rd buf (str + 1) == 88) = false := beq_false_of_ne h3
  have e4 : (rd buf (str + 1) == 98) = false := beq_false_of_ne h4
  have e5 : (rd buf (str + 1) == 66) = false := beq_false_of_ne h5
  have e6 : (rd buf (str + 1) == 111) = false := beq_false_of_ne h6
  have e7 : (rd buf (str + 1) == 79) = false := beq_false_of_ne h7
  have hd0 : isdigit 48 = true := rfl
  simp [h0, hd0, h1, e2, e3, e4, e5, e6, e7]

theorem read_unsigned_decimal (n : Nat) (hn : n ≤ 65535) (pre tail : List Nat) (slot : Nat)
    (ht : Terminated tail) :
    read_unsigned (pre ++ (render 10 n ++ tail)) pre.length slot
      = (STAT_OK (pre.length + (render 10 n).length) 0, n) := by
  have hloop := read_unsigned_loop_digits false false false 10 (fun c => c - 48) (by omega)
    pre (render 10 n) tail slot
    (fun c hc => digitFor_dec c (render_mem 10 n c (by omega) hc).1
      (by have := (render_mem 10 n c (by omega) hc).2; omega))
    ht (by rw [render_value]; exact hn)
  rw [render_value] at hloop
  obtain ⟨c, r, hcr, hz⟩ := render_head 10 n
  have hc := render_mem 10 n c (by omega) (by rw [hcr]; exact List.mem_cons_self _ _)
  have hrd0 : rd (pre ++ (render 10 n ++ tail)) pre.length = c := by
    rw [rd_append_length, hcr]; rfl
  have hrd1 : rd (pre ++ (render 10 n ++ tail)) (pre.length + 1) = rd (r ++ tail) 0 := by
    rw [rd_append_right, hcr]; rfl
  rw [read_unsigned_plain _ _ _ (by rw [hrd0]; simp [isdigit]; omega), hloop]
  rw [hrd0, hrd1]
  by_cases hc48 : c = 48
  · right
    obtain ⟨hr, _⟩ := hz hc48
    subst hr
    simpa using terminated_not_digit tail ht
  · left; exact hc48

theorem read_unsigned_prefixed (h o b : Bool) (base n : Nat) (hb : 2 ≤ base) (hb10 : base ≤ 10)
    (hn : n ≤ 65535) (pre pfx tail : List Nat) (slot : Nat) (ht : Terminated tail)
    (hd : ∀ c, 48 ≤ c → c < 48 + base → DigitFor h o b base (fun c => c - 48) c) :
    read_unsigned_loop (pre ++ (pfx ++ (render base n ++ tail))) h o b
        ((pre ++ (pfx ++ (render base n ++ tail))).length - (pre.length + pfx.length))
        (pre.length + pfx.length) 0 slot
      = (STAT_OK (pre.length + pfx.length + (render base n).length) 0, n)
    ∧ isdigit (rd (pre ++ (pfx ++ (render base n ++ tail))) (pre.length + pfx.length)) = true := by
  have hloop := read_unsigned_loop_digits h o b base (fun c => c - 48) (by omega)
    (pre ++ pfx) (render base n) tail slot
    (fun c hc => hd c (render_mem base n c hb hc).1 (render_mem base n c hb hc).2)
    ht (by rw [render_value]; exact hn)
  rw [render_value] at hloop
  have hbuf : pre ++ (pfx ++ (render base n ++ tail)) = (pre ++ pfx) ++ (render base n ++ tail) := by
    simp
  have hlen : pre.length + pfx.length = (pre ++ pfx).length := by simp
  rw [hbuf, hlen]
  refine ⟨hloop, ?_⟩
  obtain ⟨c, r, hcr, _⟩ := render_head base n
  have hc := render_mem base n c hb (by rw [hcr]; exact List.mem_cons_self _ _)
  rw [rd_append_length, hcr]
  simp [isdigit]; omega

/-- Claim C4: for every `n` up to 65535, `read_unsigned` on the decimal rendering of `n`,
on `0b` or `0B` and the binary digits of `n`, on `0o` or `0O` and the octal digits of `n`,
or on `0` and the octal digits of `n`, followed by end of string or whitespace, returns
success, writes `n` and leaves the cursor right after the last digit; and `0x2A` gives 42. -/
theorem read_unsigned_renderings (n : Nat) (hn : n ≤ 65535) (pre tail : List Nat) (slot : Nat)
    (ht : Terminated tail) :
    read_unsigned (pre ++ (render 10 n ++ tail)) pre.length slot
        = ({ next := pre.length + (render 10 n).length, ok := true, overflow := false }, n)
    ∧ (∀ p, p = 98 ∨ p = 66 →
        read_unsigned (pre ++ ([48, p] ++ (render 2 n ++ tail))) pre.length slot
          = ({ next := pre.length + 2 + (render 2 n).length, ok := true, overflow := false }, n))
    ∧ (∀ p, p = 111 ∨ p = 79 →
        read_unsigned (pre ++ ([48, p] ++ (render 8 n ++ tail))) pre.length slot
          = ({ next := pre.length + 2 + (render 8 n).length, ok := true, overflow := false }, n))
    ∧ read_unsigned (pre ++ ([48] ++ (render 8 n ++ tail))) pre.length slot
        = ({ next := pre.length + 1 + (render 8 n).length, ok := true, overflow := false }, n)
    ∧ read_unsigned (pre ++ ([48, 120, 50, 65] ++ tail)) pre.length slot
        = ({ next := pre.length + 4, ok := true, overflow := false }, 42) := by
  refine ⟨?_, ?_, ?_, ?_, ?_⟩
  · simpa [STAT_OK] using read_unsigned_decimal n hn pre tail slot ht
  · intro p hp
    obtain ⟨hl, hdg⟩ := read_unsigned_prefixed false false true 2 n (by omega) (by omega) hn
      pre [48, p] tail slot ht (fun c h1 h2 => digitFor_bin c (by omega))
    rw [read_unsigned_bin _ _ _ (by rw [rd_append_length]; rfl)
      (by rw [rd_append_right]; exact hp)]
    simp only [List.length_cons, List.length_nil, Nat.zero_add, Nat.reduceAdd] at hl hdg
    rw [show pre.length + 2 = pre.length + (1 + 1) from rfl, hdg, hl]
    simp [STAT_OK]
  · intro p hp
    obtain ⟨hl, hdg⟩ := read_unsigned_prefixed false true false 8 n (by omega) (by omega) hn
      pre [48, p] tail slot ht (fun c h1 h2 => digitFor_oct c h1 (by omega))
    rw [read_unsigned_oct_o _ _ _ (by rw [rd_append_length]; rfl)
      (by rw [rd_append_right]; exact hp)]
    simp only [List.length_cons, List.length_nil, Nat.zero_add, Nat.reduceAdd] at hl hdg
    rw [show pre.length + 2 = pre.length + (1 + 1) from rfl, hdg, hl]
    simp [STAT_OK]
  · obtain ⟨hl, hdg⟩ := read_unsigned_prefixed false true false 8 n (by omega) (by omega) hn
      pre [48] tail slot ht (fun c h1 h2 => digitFor_oct c h1 (by omega))
    simp only [List.length_cons, List.length_nil, Nat.zero_add] at hl hdg
    rw [read_unsigned_oct_c _ _ _ (by rw [rd_append_length]; rfl) hdg, hl]
    simp [STAT_OK]
  · have hl := read_unsigned_loop_digits true false false 16 hexval (by omega)
      (pre ++ [48, 120]) [50, 65] tail slot
      (fun c hc => digitFor_hex c (by
        simp only [List.mem_cons, List.mem_singleton, List.not_mem_nil, or_false] at hc
        rcases hc with rfl | rfl <;> rfl))
      ht (by decide)
    have hbuf : pre ++ ([48, 120, 50, 65] ++ tail) = (pre ++ [48, 120]) ++ ([50, 65] ++ tail) := by
      simp
    have hv : List.foldl (fun v c => v * 16 + hexval c) 0 [50, 65] = 42 := by decide
    rw [read_unsigned_hex _ _ _ (by rw [rd_append_length]; rfl)
      (by rw [rd_append_right]; left; rfl)]
    have hdg : isdigit (rd (pre ++ ([48, 120, 50, 65] ++ tail)) (pre.length + 2)) = true := by
      rw [rd_append_right]; rfl
    rw [hdg, hbuf]
    simp only [List.length_append, List.length_cons, List.length_nil, Nat.zero_add,
      Nat.reduceAdd, hv] at hl
    simp only [List.length_append, List.length_cons, List.length_nil, Nat.zero_add,
      Nat.reduceAdd]
    rw [hl]
    simp [STAT_OK]

theorem read_unsigned_renderings_witness :
    read_unsigned [52, 50] 0 0 = ({ next := 2, ok := true, overflow := false }, 42)
    ∧ read_unsigned [48, 98, 49, 48, 49, 48, 49, 48] 0 0
        = ({ next := 8, ok := true, overflow := false }, 42)
    ∧ read_unsigned [48, 111, 53, 50] 0 0 = ({ next := 4, ok := true, overflow := false }, 42)
    ∧ read_unsigned [48, 53, 50] 0 0 = ({ next := 3, ok := true, overflow := false }, 42)
    ∧ read_unsigned [48, 120, 50, 65] 0 0 = ({ next := 4, ok := true, overflow := false }, 42) := by
  have h := read_unsigned_renderings 42 (by decide) [] [] 0 (Or.inl rfl)
  have r10 : render 10 42 = [52, 50] := by simp [render]
  have r2 : render 2 42 = [49, 48, 49, 48, 49, 48] := by simp [render]
  have r8 : render 8 42 = [53, 50] := by simp [render]
  rw [r10, r2, r8] at h
  exact ⟨h.1, h.2.1 98 (Or.inl rfl), h.2.2.1 111 (Or.inl rfl), h.2.2.2.1, h.2.2.2.2⟩

/-! ### Overflow, and the width of the accumulator -/

theorem xdigit_table_le (c : Nat) : xdigit_table c ≤ 15 := by
  unfold xdigit_table
  have h : c % 256 < 256 := Nat.mod_lt _ (by decide)
  generalize c % 256 = k at h
  by_cases hk : k < 103
  · interval_cases k <;> decide
  · have : xdigit_table_init.length ≤ k := by
      have : xdigit_table_init.length = 103 := rfl
      omega
    simp [List.getD_eq_getElem?_getD, List.getElem?_eq_none this]

theorem accumulate_eq_wide (h o b : Bool) (val c : Nat) (hv : val ≤ 65535) :
    accumulate h o b val c = accumulate_wide h o b val c := by
  have hx := xdigit_table_le c
  unfold accumulate accumulate_wide
  rw [Nat.mod_eq_of_lt (show val * 16 + xdigit_table c < 2 ^ 64 by omega),
    Nat.mod_eq_of_lt (show val * 8 + xdigit_table c < 2 ^ 64 by omega),
    Nat.mod_eq_of_lt (show val * 2 + xdigit_table c < 2 ^ 64 by omega),
    Nat.mod_eq_of_lt (show val * 10 + xdigit_table c < 2 ^ 64 by omega)]

theorem read_unsigned_loop_eq_wide (buf : List Nat) (h o b : Bool) (fuel : Nat) :
    ∀ (str val slot : Nat), val ≤ 65535 →
      read_unsigned_loop buf h o b fuel str val slot
        = read_unsigned_loop_wide buf h o b fuel str val slot := by
  induction fuel with
  | zero => intro str val slot _; rfl
  | succ f ih =>
    intro str val slot hv
    simp only [read_unsigned_loop, read_unsigned_loop_wide, accumulate_eq_wide h o b val _ hv]
    by_cases h0 : rd buf str = 0
    · simp [h0]
    · by_cases hs : isspace (rd buf str) = true
      · simp [h0, hs]
      · simp only [h0, hs, if_false]
        cases accumulate_wide h o b val (rd buf str) with
        | none => rfl
        | some v1 =>
          by_cases hv1 : v1 > 65535
          · simp [hv1]
          · simp only [hv1, if_false]
            exact ih _ _ _ (by omega)

theorem read_unsigned_loop_overflow (h o b : Bool) (base : Nat) (dv : Nat → Nat)
    (pre rest : List Nat) (c val fuel slot : Nat) (hc : DigitFor h o b base dv c)
    (hbase : base ≤ 16) (hv : val ≤ 65535) (hov : 65535 < val * base + dv c) :
    read_unsigned_loop (pre ++ (c :: rest)) h o b (fuel + 1) pre.length val slot
      = (STAT_OVERFLOW pre.length 0, (val * base + dv c) % 65536) := by
  obtain ⟨hc0, hcs, hdv, hacc⟩ := hc
  have hrd : rd (pre ++ (c :: rest)) pre.length = c := by rw [rd_append_length]; rfl
  have hmul : val * base ≤ 65535 * 16 := Nat.mul_le_mul hv hbase
  have hmod : (val * base + dv c) % 2 ^ 64 = val * base + dv c :=
    Nat.mod_eq_of_lt (by omega)
  rw [read_unsigned_loop]
  simp only [hrd, hc0, hcs, hacc, hmod, if_false]
  simp [hov]

theorem first_overflow (base : Nat) (dv : Nat → Nat) (ds : List Nat) :
    ∀ val, val ≤ 65535 → 65535 < ds.foldl (fun v c => v * base + dv c) val →
      ∃ ds1 c ds2, ds = ds1 ++ c :: ds2
        ∧ ds1.foldl (fun v c => v * base + dv c) val ≤ 65535
        ∧ 65535 < (ds1.foldl (fun v c => v * base + dv c) val) * base + dv c := by
  induction ds with
  | nil => intro val hv h; simp at h; omega
  | cons c r ih =>
    intro val hv h
    by_cases hc : 65535 < val * base + dv c
    · exact ⟨[], c, r, rfl, hv, hc⟩
    · obtain ⟨ds1, c1, ds2, he, h1, h2⟩ := ih (val * base + dv c) (by omega) h
      exact ⟨c :: ds1, c1, ds2, by rw [he]; rfl, h1, h2⟩

theorem read_unsigned_eq_wide (buf : List Nat) (str slot : Nat) :
    read_unsigned buf str slot = read_unsigned_wide buf str slot := by
  unfold read_unsigned read_unsigned_wide
  simp only [read_unsigned_loop_eq_wide _ _ _ _ _ _ 0 _ (Nat.zero_le _)]

theorem dec_value_take_le (ds1 : List Nat) (i : Nat) :
    dec_value (ds1.take i) ≤ dec_value ds1 := by
  have h := foldl_digits_le 10 (fun c => c - 48) (by omega) (ds1.drop i) (dec_value (ds1.take i))
  unfold dec_value at h ⊢
  rw [← List.foldl_append, List.take_append_drop] at h
  exact h

/-- Claim C6: on a non-empty string `ds` of decimal digits that does not start with `0`,
followed by end of string or whitespace, `read_unsigned` returns success with the value of
`ds` when that value is at most 65535; otherwise it returns truncated with the cursor on the
first digit at which the value read so far exceeds 65535, that value modulo 65536 being
written to the slot.  On every input the decoder computes what it computes with an
accumulator that cannot wrap.  So "65535" succeeds and "65536" is truncated on its last
digit with 0 in the slot. -/
theorem read_unsigned_decimal_boundary (pre ds tail : List Nat) (slot : Nat)
    (hdig : ∀ c ∈ ds, 48 ≤ c ∧ c ≤ 57) (hne : ds ≠ []) (hhead : rd ds 0 ≠ 48)
    (ht : Terminated tail) :
    (dec_value ds ≤ 65535 →
      read_unsigned (pre ++ (ds ++ tail)) pre.length slot
        = ({ next := pre.length + ds.length, ok := true, overflow := false }, dec_value ds))
    ∧ (65535 < dec_value ds →
      ∃ j, j < ds.length ∧ (∀ i, i ≤ j → dec_value (ds.take i) ≤ 65535)
        ∧ 65535 < dec_value (ds.take (j + 1))
        ∧ read_unsigned (pre ++ (ds ++ tail)) pre.length slot
            = ({ next := pre.length + j, ok := true, overflow := true },
               dec_value (ds.take (j + 1)) % 65536))
    ∧ (∀ (buf : List Nat) (str slot1 : Nat),
        read_unsigned buf str slot1 = read_unsigned_wide buf str slot1)
    ∧ read_unsigned [54, 53, 53, 51, 53] 0 slot
        = ({ next := 5, ok := true, overflow := false }, 65535)
    ∧ read_unsigned [54, 53, 53, 51, 54] 0 slot
        = ({ next := 4, ok := true, overflow := true }, 0) := by
  have hD : ∀ c ∈ ds, DigitFor false false false 10 (fun c => c - 48) c :=
    fun c hc => digitFor_dec c (hdig c hc).1 (hdig c hc).2
  obtain ⟨c0, r0, rfl⟩ := List.exists_cons_of_ne_nil hne
  have hrd0 : rd (pre ++ (c0 :: r0 ++ tail)) pre.length = c0 := by
    rw [rd_append_length]; rfl
  have hplain : read_unsigned (pre ++ (c0 :: r0 ++ tail)) pre.length slot
      = read_unsigned_loop (pre ++ (c0 :: r0 ++ tail)) false false false
          ((pre ++ (c0 :: r0 ++ tail)).length - pre.length) pre.length 0 slot := by
    apply read_unsigned_plain
    · rw [hrd0]
      have := hdig c0 (List.mem_cons_self _ _)
      simp [isdigit]; omega
    · left; rw [hrd0]; exact hhead
  refine ⟨fun hle => ?_, fun hgt => ?_, read_unsigned_eq_wide, rfl, rfl⟩
  · rw [hplain, read_unsigned_loop_digits false false false 10 (fun c => c - 48) (by omega)
      pre (c0 :: r0) tail slot hD ht hle]
    rfl
  · obtain ⟨ds1, c, ds2, he, h1, h2⟩ :=
      first_overflow 10 (fun c => c - 48) (c0 :: r0) 0 (by omega) hgt
    have hD1 : ∀ x ∈ ds1, DigitFor false false false 10 (fun c => c - 48) x :=
      fun x hx => hD x (by rw [he]; exact List.mem_append_left _ hx)
    have hDc : DigitFor false false false 10 (fun c => c - 48) c :=
      hD c (by rw [he]; simp)
    have htake1 : (c0 :: r0).take ds1.length = ds1 := by
      rw [he]; simp
    have htake2 : (c0 :: r0).take (ds1.length + 1) = ds1 ++ [c] := by
      rw [he, List.take_append_eq_append_take]; simp
    refine ⟨ds1.length, by rw [he]; simp, fun i hi => ?_, ?_, ?_⟩
    · have : (c0 :: r0).take i = ds1.take i := by
        rw [he, List.take_append_of_le_length hi]
      rw [this]
      exact le_trans (dec_value_take_le ds1 i) h1
    · rw [htake2]; simpa [dec_value] using h2
    · rw [hplain, htake2, he]
      have hfuel : (pre ++ (ds1 ++ c :: ds2 ++ tail)).length - pre.length
          = (ds2.length + tail.length + 1) + ds1.length := by
        simp only [List.length_append, List.length_cons]; omega
      have hbuf : pre ++ (ds1 ++ c :: ds2 ++ tail) = pre ++ (ds1 ++ (c :: (ds2 ++ tail))) := by
        simp
      rw [hfuel, hbuf, read_unsigned_loop_run false false false 10 (fun c => c - 48) (by omega)
        ds1 pre (c :: (ds2 ++ tail)) 0 _ slot hD1 h1]
      have hbuf2 : pre ++ (ds1 ++ (c :: (ds2 ++ tail))) = (pre ++ ds1) ++ (c :: (ds2 ++ tail)) := by
        simp
      have hlen : pre.length + ds1.length = (pre ++ ds1).length := by simp
      rw [hbuf2, hlen, read_unsigned_loop_overflow false false false 10 (fun c => c - 48)
        (pre ++ ds1) (ds2 ++ tail) c _ _ slot hDc (by omega) h1 h2]
      simp [STAT_OVERFLOW, dec_value]

theorem read_unsigned_decimal_boundary_witness :
    read_unsigned [54, 53, 53, 51, 53] 0 0
        = ({ next := 5, ok := true, overflow := false }, 65535)
    ∧ ∃ j, j < 5 ∧ (∀ i, i ≤ j → dec_value ([54, 53, 53, 51, 54].take i) ≤ 65535)
        ∧ 65535 < dec_value ([54, 53, 53, 51, 54].take (j + 1))
        ∧ read_unsigned [54, 53, 53, 51, 54] 0 0
            = ({ next := 0 + j, ok := true, overflow := true },
               dec_value ([54, 53, 53, 51, 54].take (j + 1)) % 65536) :=
  ⟨(read_unsigned_decimal_boundary [] [54, 53, 53, 51, 53] [] 0 (by decide) (by decide)
      (by decide) (Or.inl rfl)).1 (by decide),
   (read_unsigned_decimal_boundary [] [54, 53, 53, 51, 54] [] 0 (by decide) (by decide)
      (by decide) (Or.inl rfl)).2.1 (by decide)⟩

/-- Claim C5, evaluated on the code: `0xFF` and `0Xa` are reported as a failure at the
position right after the prefix, although a hexadecimal digit stands there; `0x0FF`, whose
first digit is a decimal digit, gives 255. -/
theorem read_unsigned_hex_letter_first :
    read_unsigned [48, 120, 70, 70] 0 0 = ({ next := 2, ok := false, overflow := false }, 0)
    ∧ read_unsigned [48, 88, 97, 32] 0 0 = ({ next := 2, ok := false, overflow := false }, 0)
    ∧ read_unsigned [48, 120, 48, 70, 70] 0 0
        = ({ next := 5, ok := true, overflow := false }, 255) := by
  decide

/-- Claim C7, evaluated on the code: a digit out of range for octal or binary notation is
accumulated in base ten instead of being rejected: "089" gives 89, "0o18" gives 18 and
"0b12" gives 12, all with outcome success; the non-hex letter of "0x1G" is a failure with
the cursor on it. -/
theorem read_unsigned_out_of_range_digit :
    read_unsigned [48, 56, 57] 0 0 = ({ next := 3, ok := true, overflow := false }, 89)
    ∧ read_unsigned [48, 111, 49, 56] 0 0 = ({ next := 4, ok := true, overflow := false }, 18)
    ∧ read_unsigned [48, 98, 49, 50] 0 0 = ({ next := 4, ok := true, overflow := false }, 12)
    ∧ read_unsigned [48, 120, 49, 71] 0 0 = ({ next := 3, ok := false, overflow := false }, 0) := by
  decide

/-! ## The string-literal decoder on the items of a literal -/

theorem rd_at (pre s : List Nat) (i : Nat) : rd (pre ++ s) (pre.length + i) = rd s i :=
  rd_append_right pre s i

theorem simple_escape_cases (e b : Nat) (hb : simple_escape e = some b) :
    (e = 97 ∧ b = 7) ∨ (e = 98 ∧ b = 8) ∨ (e = 101 ∧ b = 27) ∨ (e = 102 ∧ b = 12)
    ∨ (e = 110 ∧ b = 10) ∨ (e = 114 ∧ b = 13) ∨ (e = 116 ∧ b = 9) ∨ (e = 118 ∧ b = 11)
    ∨ (e = 63 ∧ b = 63) ∨ (e = 92 ∧ b = 92) ∨ (e = 39 ∧ b = 39) ∨ (e = 34 ∧ b = 34) := by
  unfold simple_escape at hb
  by_cases h0 : e = 97
  · rw [if_pos h0] at hb; injection hb with hb; exact Or.inl ⟨h0, hb.symm⟩
  rw [if_neg h0] at hb
  by_cases h1 : e = 98
  · rw [if_pos h1] at hb; injection hb with hb; exact Or.inr (Or.inl ⟨h1, hb.symm⟩)
  rw [if_neg h1] at hb
  by_cases h2 : e = 101
  · rw [if_pos h2] at hb; injection hb with hb; exact Or.inr (Or.inr (Or.inl ⟨h2, hb.symm⟩))
  rw [if_neg h2] at hb
  by_cases h3 : e = 102
  · rw [if_pos h3] at hb; injection hb with hb; exact Or.inr (Or.inr (Or.inr (Or.inl ⟨h3, hb.symm⟩)))
  rw [if_neg h3] at hb
  by_cases h4 : e = 110
  · rw [if_pos h4] at hb; injection hb with hb; exact Or.inr (Or.inr (Or.inr (Or.inr (Or.inl ⟨h4, hb.symm⟩))))
  rw [if_neg h4] at hb
  by_cases h5 : e = 114
  · rw [if_pos h5] at hb; injection hb with hb; exact Or.inr (Or.inr (Or.inr (Or.inr (Or.inr (Or.inl ⟨h5, hb.symm⟩)))))
  rw [if_neg h5] at hb
  by_cases h6 : e = 116
  · rw [if_pos h6] at hb; injection hb with hb; exact Or.inr (Or.inr (Or.inr (Or.inr (Or.inr (Or.inr (Or.inl ⟨h6, hb.symm⟩))))))
  rw [if_neg h6] at hb
  by_cases h7 : e = 118
  · rw [if_pos h7] at hb; injection hb with hb; exact Or.inr (Or.inr (Or.inr (Or.inr (Or.inr (Or.inr (Or.inr (Or.inl ⟨h7, hb.symm⟩)))))))
  rw [if_neg h7] at hb
  by_cases h8 : e = 63
  · rw [if_pos h8] at hb; injection hb with hb; exact Or.inr (Or.inr (Or.inr (Or.inr (Or.inr (Or.inr (Or.inr (Or.inr (Or.inl ⟨h8, hb.symm⟩))))))))
  rw [if_neg h8] at hb
  by_cases h9 : e = 92
  · rw [if_pos h9] at hb; injection hb with hb; exact Or.inr (Or.inr (Or.inr (Or.inr (Or.inr (Or.inr (Or.inr (Or.inr (Or.inr (Or.inl ⟨h9, hb.symm⟩)))))))))
  rw [if_neg h9] at hb
  by_cases h10 : e = 39
  · rw [if_pos h10] at hb; injection hb with hb; exact Or.inr (Or.inr (Or.inr (Or.inr (Or.inr (Or.inr (Or.inr (Or.inr (Or.inr (Or.inr (Or.inl ⟨h10, hb.symm⟩))))))))))
  rw [if_neg h10] at hb
  by_cases h11 : e = 34
  · rw [if_pos h11] at hb; injection hb with hb; exact Or.inr (Or.inr (Or.inr (Or.inr (Or.inr (Or.inr (Or.inr (Or.inr (Or.inr (Or.inr (Or.inr (⟨h11, hb.symm⟩)))))))))))
  rw [if_neg h11] at hb
  exact absurd hb (by simp)

theorem read_escape_simple (buf : List Nat) (str e b : Nat) (he : rd buf str = e)
    (hb : simple_escape e = some b) : read_escape buf str = .ok (str, b) := by
  rcases simple_escape_cases e b hb with h | h | h | h | h | h | h | h | h | h | h | h <;>
    obtain ⟨rfl, rfl⟩ := h <;> simp only [read_escape, he] <;> rfl
theorem read_escape_hex (buf : List Nat) (str h1 h2 : Nat) (he : rd buf str = 120)
    (e1 : rd buf (str + 1) = h1) (e2 : rd buf (str + 2) = h2)
    (x1 : isxdigit h1 = true) (x2 : isxdigit h2 = true) :
    read_escape buf str = .ok (str + 2, 16 * hexval h1 + hexval h2) := by
  unfold read_escape
  have b1 : hexval h1 ≤ 15 := by rw [← xdigit_table_hex h1 x1]; exact xdigit_table_le h1
  have b2 : hexval h2 ≤ 15 := by rw [← xdigit_table_hex h2 x2]; exact xdigit_table_le h2
  simp [he, e1, e2, x1, x2, xdigit_table_hex]
  omega

theorem read_escape_oct (buf : List Nat) (str d1 d2 d3 : Nat) (he : rd buf str = d1)
    (e1 : rd buf (str + 1) = d2) (e2 : rd buf (str + 2) = d3)
    (x0 : 48 ≤ d1) (x0' : d1 < 52) (x1 : isodigit d2 = true) (x2 : isodigit d3 = true) :
    read_escape buf str = .ok (str + 2, 64 * (d1 - 48) + 8 * (d2 - 48) + (d3 - 48)) := by
  unfold read_escape
  have y1 : 48 ≤ d2 ∧ d2 < 56 := by simpa [isodigit] using x1
  have y2 : 48 ≤ d3 ∧ d3 < 56 := by simpa [isodigit] using x2
  have t1 := xdigit_table_digit d1 x0 (by omega)
  have t2 := xdigit_table_digit d2 y1.1 (by omega)
  have t3 := xdigit_table_digit d3 y2.1 (by omega)
  simp only [he, e1, e2, x1, x2, t1, t2, t3]
  have n1 : ¬ d1 = 97 := by omega
  have n2 : ¬ d1 = 98 := by omega
  have n3 : ¬ d1 = 101 := by omega
  have n4 : ¬ d1 = 102 := by omega
  have n5 : ¬ d1 = 110 := by omega
  have n6 : ¬ d1 = 114 := by omega
  have n7 : ¬ d1 = 116 := by omega
  have n8 : ¬ d1 = 118 := by omega
  have n9 : ¬ d1 = 63 := by omega
  have n10 : ¬ d1 = 92 := by omega
  have n11 : ¬ d1 = 39 := by omega
  have n12 : ¬ d1 = 34 := by omega
  have n13 : ¬ d1 = 120 := by omega
  simp [n1, n2, n3, n4, n5, n6, n7, n8, n9, n10, n11, n12, n13, x0, x0']
  omega

theorem read_escape_nul (buf : List Nat) (str : Nat) (he : rd buf str = 48)
    (e1 : isodigit (rd buf (str + 1)) = false) :
    read_escape buf str = .ok (str, 0) := by
  unfold read_escape
  simp [he, e1]

/-- One iteration of the loop of `read_string` on a well-formed item. -/
theorem read_string_loop_item (it : Item) (pre rest mem : List Nat) (cap fuel ptr : Nat)
    (hw : it.wf) (hn : it = .nul → isodigit (rd rest 0) = false) :
    read_string_loop (pre ++ (it.src ++ rest)) cap (fuel + 1) pre.length mem ptr
      = if ptr + 1 = cap then
          (STAT_OVERFLOW (pre.length + it.src.length - 1) 0, (mem.set ptr it.byte).set ptr 0)
        else read_string_loop (pre ++ (it.src ++ rest)) cap fuel (pre.length + it.src.length)
          (mem.set ptr it.byte) (ptr + 1) := by
  have r0 : ∀ s : List Nat, rd (pre ++ s) pre.length = rd s 0 := fun s => rd_append_length pre s
  have r1 : ∀ s : List Nat, rd (pre ++ s) (pre.length + 1) = rd s 1 := fun s => rd_at pre s 1
  have r2 : ∀ s : List Nat, rd (pre ++ s) (pre.length + 1 + 1) = rd s 2 := fun s => rd_at pre s 2
  have r3 : ∀ s : List Nat, rd (pre ++ s) (pre.length + 1 + 2) = rd s 3 := fun s => rd_at pre s 3
  rw [read_string_loop]
  cases it with
  | plain c =>
    obtain ⟨h0, h34, h92, _⟩ := hw
    simp [Item.src, Item.byte, r0, h0, h34, h92]
  | simple e =>
    obtain ⟨b, hb⟩ := Option.isSome_iff_exists.mp hw
    have hesc := read_escape_simple (pre ++ ([92, e] ++ rest)) (pre.length + 1) e b
      (by rw [r1]; rfl) hb
    simp only [List.cons_append, List.nil_append] at hesc
    simp [Item.src, Item.byte, r0, hesc, hb]
  | hex h1 h2 =>
    obtain ⟨x1, x2⟩ := hw
    have hesc := read_escape_hex (pre ++ ([92, 120, h1, h2] ++ rest)) (pre.length + 1) h1 h2
      (by rw [r1]; rfl) (by rw [r2]; rfl) (by rw [r3]; rfl) x1 x2
    simp only [List.cons_append, List.nil_append] at hesc
    simp [Item.src, Item.byte, r0, hesc]
  | oct d1 d2 d3 =>
    obtain ⟨x0, x0', x1, x2⟩ := hw
    have hesc := read_escape_oct (pre ++ ([92, d1, d2, d3] ++ rest)) (pre.length + 1) d1 d2 d3
      (by rw [r1]; rfl) (by rw [r2]; rfl) (by rw [r3]; rfl) x0 x0' x1 x2
    simp only [List.cons_append, List.nil_append] at hesc
    simp [Item.src, Item.byte, r0, hesc]
  | nul =>
    have hesc := read_escape_nul (pre ++ ([92, 48] ++ rest)) (pre.length + 1)
      (by rw [r1]; rfl) (by rw [r2]; exact hn rfl)
    simp only [List.cons_append, List.nil_append] at hesc
    simp [Item.src, Item.byte, r0, hesc]

theorem srcs_nil : srcs [] = [] := rfl

theorem srcs_cons (it : Item) (its : List Item) : srcs (it :: its) = it.src ++ srcs its := by
  simp [srcs]

theorem srcs_append (a b : List Item) : srcs (a ++ b) = srcs a ++ srcs b := by
  simp [srcs]

theorem item_src_length_pos (it : Item) : 1 ≤ it.src.length := by
  cases it <;> simp [Item.src]

theorem length_le_srcs (its : List Item) : its.length ≤ (srcs its).length := by
  induction its with
  | nil => simp
  | cons it r ih =>
    have := item_src_length_pos it
    rw [srcs_cons]; simp only [List.length_cons, List.length_append]; omega

theorem wfItems_append (a b : List Item) (rest : List Nat) :
    WfItems (a ++ b) rest → WfItems a (srcs b ++ rest) ∧ WfItems b rest := by
  induction a with
  | nil => intro h; exact ⟨trivial, h⟩
  | cons it r ih =>
    intro h
    obtain ⟨h1, h2, h3⟩ := h
    have h3' : WfItems (r ++ b) rest := h3
    have h2' : it = Item.nul → isodigit (rd (srcs (r ++ b) ++ rest) 0) = false := h2
    obtain ⟨i1, i2⟩ := ih h3'
    refine ⟨⟨h1, ?_, i1⟩, i2⟩
    intro hn
    have := h2' hn
    rwa [srcs_append, List.append_assoc] at this

theorem read_string_loop_run (cap : Nat) (its : List Item) :
    ∀ (pre rest mem : List Nat) (ptr fuel : Nat), WfItems its rest → ptr + its.length < cap →
      read_string_loop (pre ++ (srcs its ++ rest)) cap (fuel + its.length) pre.length mem ptr
        = read_string_loop (pre ++ (srcs its ++ rest)) cap fuel (pre.length + (srcs its).length)
            (write_bytes mem ptr (bytes its)) (ptr + its.length) := by
  induction its with
  | nil => intro pre rest mem ptr fuel _ _; simp [srcs, bytes, write_bytes]
  | cons it r ih =>
    intro pre rest mem ptr fuel hw hlt
    obtain ⟨h1, h2, h3⟩ := hw
    simp only [List.length_cons] at hlt
    have hstep := read_string_loop_item it pre (srcs r ++ rest) mem cap (fuel + r.length) ptr h1 h2
    have hne : ¬ (ptr + 1 = cap) := by omega
    rw [if_neg hne] at hstep
    have hbuf : pre ++ (srcs (it :: r) ++ rest) = pre ++ (it.src ++ (srcs r ++ rest)) := by
      rw [srcs_cons, List.append_assoc]
    have hfuel : fuel + (it :: r).length = fuel + r.length + 1 := by simp; omega
    rw [hbuf, hfuel, hstep]
    have hbuf2 : pre ++ (it.src ++ (srcs r ++ rest)) = (pre ++ it.src) ++ (srcs r ++ rest) := by
      simp
    have hlen : pre.length + it.src.length = (pre ++ it.src).length := by simp
    rw [hbuf2, hlen, ih (pre ++ it.src) rest _ (ptr + 1) fuel h3 (by omega)]
    have hpos : (pre ++ it.src).length + (srcs r).length = pre.length + (srcs (it :: r)).length := by
      rw [srcs_cons]; simp only [List.length_append]; omega
    have hptr : ptr + 1 + r.length = ptr + (it :: r).length := by simp; omega
    rw [hpos, hptr]
    rfl

theorem read_string_loop_quote (pre tail mem : List Nat) (cap fuel ptr : Nat) :
    read_string_loop (pre ++ (34 :: tail)) cap (fuel + 1) pre.length mem ptr
      = (STAT_OK pre.length 1, mem) := by
  rw [read_string_loop]
  simp [rd_append_length]

theorem write_bytes_fresh (bs : List Nat) :
    ∀ (done extra : List Nat) (k : Nat), bs.length ≤ k →
      write_bytes (done ++ (List.replicate k 0 ++ extra)) done.length bs
        = done ++ (bs ++ (List.replicate (k - bs.length) 0 ++ extra)) := by
  induction bs with
  | nil => intro done extra k _; simp [write_bytes]
  | cons b r ih =>
    intro done extra k hk
    simp only [List.length_cons] at hk
    obtain ⟨k1, rfl⟩ : ∃ k1, k = k1 + 1 := ⟨k - 1, by omega⟩
    have hset : (done ++ (List.replicate (k1 + 1) 0 ++ extra)).set done.length b
        = (done ++ [b]) ++ (List.replicate k1 0 ++ extra) := by
      simp [List.replicate_succ, List.set_append_right]
    have hlen : done.length + 1 = (done ++ [b]).length := by simp
    rw [write_bytes, hset, hlen, ih (done ++ [b]) extra k1 (by omega)]
    simp

/-- The decoding of a well-formed literal that fits the capacity. -/
theorem read_string_literal_ok (its : List Item) (pre tail mem : List Nat) (cap : Nat)
    (hw : WfItems its (34 :: tail)) (hlt : its.length < cap) :
    read_string (pre ++ (34 :: (srcs its ++ 34 :: tail))) pre.length mem cap
      = ({ next := pre.length + (srcs its).length + 2, ok := true, overflow := false },
         bytes its ++ (List.replicate (cap - its.length) 0 ++ mem.drop cap)) := by
  have hsl := length_le_srcs its
  unfold read_string
  have hq : rd (pre ++ (34 :: (srcs its ++ 34 :: tail))) pre.length = 34 := by
    rw [rd_append_length]; rfl
  simp only [hq, ne_eq, not_true_eq_false, if_false]
  have hbuf : pre ++ (34 :: (srcs its ++ 34 :: tail)) = (pre ++ [34]) ++ (srcs its ++ 34 :: tail) := by
    simp
  have hlen : pre.length + 1 = (pre ++ [34]).length := by simp
  have hfuel : ((pre ++ [34]) ++ (srcs its ++ 34 :: tail)).length - (pre ++ [34]).length
      = (tail.length + ((srcs its).length - its.length) + 1) + its.length := by
    simp only [List.length_append, List.length_cons, List.length_nil]; omega
  rw [hbuf, hlen, hfuel, read_string_loop_run cap its (pre ++ [34]) (34 :: tail) _ 0 _ hw (by omega)]
  have hbuf2 : (pre ++ [34]) ++ (srcs its ++ 34 :: tail) = ((pre ++ [34]) ++ srcs its) ++ (34 :: tail) := by
    simp
  have hlen2 : (pre ++ [34]).length + (srcs its).length = ((pre ++ [34]) ++ srcs its).length := by
    simp only [List.length_append]
  rw [hbuf2, hlen2, read_string_loop_quote]
  have hwb := write_bytes_fresh (bytes its) [] (mem.drop cap) cap (by simp [bytes]; omega)
  simp only [List.nil_append, List.length_nil] at hwb
  simp only [memset0, hwb, STAT_OK]
  simp [bytes]
  omega

/-- The decoding of a well-formed literal that does not fit the capacity. -/
theorem read_string_literal_truncated (its : List Item) (pre tail mem : List Nat) (cap : Nat)
    (hcap : 1 ≤ cap) (hw : WfItems its (34 :: tail)) (hge : cap ≤ its.length) :
    read_string (pre ++ (34 :: (srcs its ++ 34 :: tail))) pre.length mem cap
      = ({ next := pre.length + (srcs (its.take cap)).length, ok := true, overflow := true },
         (bytes its).take (cap - 1) ++ (0 :: mem.drop cap)) := by
  obtain ⟨its1, it, its2, rfl, hl1⟩ : ∃ its1 it its2, its = its1 ++ it :: its2
      ∧ its1.length = cap - 1 := by
    have hd : its.drop (cap - 1) ≠ [] := by
      intro h
      have := congrArg List.length h
      simp at this
      omega
    obtain ⟨it, its2, h2⟩ := List.exists_cons_of_ne_nil hd
    refine ⟨its.take (cap - 1), it, its2, ?_, ?_⟩
    · rw [← h2, List.take_append_drop]
    · rw [List.length_take]; omega
  obtain ⟨w1, w2⟩ := wfItems_append its1 (it :: its2) (34 :: tail) hw
  obtain ⟨hitw, hitn, _⟩ := w2
  unfold read_string
  have hq : rd (pre ++ (34 :: (srcs (its1 ++ it :: its2) ++ 34 :: tail))) pre.length = 34 := by
    rw [rd_append_length]; rfl
  simp only [hq, ne_eq, not_true_eq_false, if_false]
  have hsl := length_le_srcs its1
  have hpos := item_src_length_pos it
  have hbuf : pre ++ (34 :: (srcs (its1 ++ it :: its2) ++ 34 :: tail))
      = (pre ++ [34]) ++ (srcs its1 ++ (srcs (it :: its2) ++ 34 :: tail)) := by
    simp [srcs_append]
  have hlen : pre.length + 1 = (pre ++ [34]).length := by simp
  have hfuel : ((pre ++ [34]) ++ (srcs its1 ++ (srcs (it :: its2) ++ 34 :: tail))).length
      - (pre ++ [34]).length
      = ((srcs its1).length - its1.length + (srcs (it :: its2)).length - 1 + 1 + tail.length + 1)
          + its1.length := by
    have : 1 ≤ (srcs (it :: its2)).length := by
      rw [srcs_cons]; simp only [List.length_append]; omega
    simp only [List.length_append, List.length_cons, List.length_nil]; omega
  rw [hbuf, hlen, hfuel, read_string_loop_run cap its1 (pre ++ [34]) _ _ 0 _ w1 (by omega)]
  have hbuf2 : (pre ++ [34]) ++ (srcs its1 ++ (srcs (it :: its2) ++ 34 :: tail))
      = ((pre ++ [34]) ++ srcs its1) ++ (it.src ++ (srcs its2 ++ 34 :: tail)) := by
    simp [srcs_cons]
  have hlen2 : (pre ++ [34]).length + (srcs its1).length = ((pre ++ [34]) ++ srcs its1).length := by
    simp only [List.length_append]
  rw [hbuf2, hlen2, read_string_loop_item it _ _ _ cap _ _ hitw hitn, if_pos (by omega)]
  have hwb := write_bytes_fresh (bytes its1) [] (mem.drop cap) cap (by simp [bytes]; omega)
  simp only [List.nil_append, List.length_nil] at hwb
  have hk : cap - (bytes its1).length = 1 := by simp [bytes]; omega
  have hb1 : (bytes its1).length = its1.length := by simp [bytes]
  have htake : (its1 ++ it :: its2).take cap = its1 ++ [it] := by
    have : cap = its1.length + 1 := by omega
    rw [this, List.take_append_eq_append_take]; simp
  have hbt : (bytes (its1 ++ it :: its2)).take (cap - 1) = bytes its1 := by
    rw [← hl1]; simp [bytes]
  rw [htake, hbt]
  simp only [memset0, hwb, hk, STAT_OVERFLOW, Nat.zero_add]
  refine Prod.ext ?_ ?_
  · simp only [srcs_append, srcs_cons, srcs_nil, List.length_append, List.length_cons,
      List.length_nil, List.append_nil, Nat.add_zero]
    congr 1
    omega
  · simp only [List.replicate_one, List.singleton_append]
    rw [← hb1, List.set_append_right _ _ (le_refl _), List.set_append_right _ _ (le_refl _)]
    simp

/-- After the items that fit, `read_string` is its loop at the text that follows them. -/
theorem read_string_after_items (its : List Item) (pre rest mem : List Nat) (cap : Nat)
    (hw : WfItems its rest) (hlt : its.length < cap) :
    read_string (pre ++ (34 :: (srcs its ++ rest))) pre.length mem cap
      = read_string_loop (pre ++ (34 :: (srcs its ++ rest))) cap
          ((srcs its).length - its.length + rest.length) (pre.length + 1 + (srcs its).length)
          (write_bytes (memset0 mem cap) 0 (bytes its)) its.length := by
  have hsl := length_le_srcs its
  unfold read_string
  have hq : rd (pre ++ (34 :: (srcs its ++ rest))) pre.length = 34 := by
    rw [rd_append_length]; rfl
  simp only [hq, ne_eq, not_true_eq_false, if_false]
  have hbuf : pre ++ (34 :: (srcs its ++ rest)) = (pre ++ [34]) ++ (srcs its ++ rest) := by
    simp
  have hlen : pre.length + 1 = (pre ++ [34]).length := by simp
  have hfuel : ((pre ++ [34]) ++ (srcs its ++ rest)).length - (pre ++ [34]).length
      = ((srcs its).length - its.length + rest.length) + its.length := by
    simp only [List.length_append, List.length_cons, List.length_nil]; omega
  rw [hbuf, hlen, hfuel, read_string_loop_run cap its (pre ++ [34]) rest _ 0 _ hw (by omega)]
  simp

theorem read_string_loop_hex_fail1 (buf mem : List Nat) (cap fuel str ptr : Nat)
    (h0 : rd buf str = 92) (h1 : rd buf (str + 1) = 120)
    (h2 : isxdigit (rd buf (str + 1 + 1)) = false) :
    read_string_loop buf cap (fuel + 1) str mem ptr = (STAT_FAIL (str + 1) 1, mem) := by
  rw [read_string_loop]
  simp [h0, read_escape, h1, h2]

theorem read_string_loop_hex_fail2 (buf mem : List Nat) (cap fuel str ptr : Nat)
    (h0 : rd buf str = 92) (h1 : rd buf (str + 1) = 120)
    (h2 : isxdigit (rd buf (str + 1 + 1)) = true)
    (h3 : isxdigit (rd buf (str + 1 + 2)) = false) :
    read_string_loop buf cap (fuel + 1) str mem ptr = (STAT_FAIL (str + 1) 2, mem) := by
  rw [read_string_loop]
  simp [h0, read_escape, h1, h2, h3]

/-- Claim C8: for hexadecimal digit characters `h1`, `h2` and a capacity of at least 2,
`read_string` on the literal made of the escape `\x h1 h2` alone returns success, the
destination holding the single byte `16 * hexval h1 + hexval h2` followed by zero bytes, with
the cursor one past the closing quote.  In any literal, after items that fit the capacity,
the escape `\x` followed by a character that is not a hexadecimal digit is a failure with
the cursor on that character, and followed by a hexadecimal digit and then a character
that is not one, a failure with the cursor on that second character. -/
theorem read_string_hex_escape (h1 h2 : Nat) (x1 : isxdigit h1 = true) (x2 : isxdigit h2 = true)
    (cap : Nat) (hcap : 2 ≤ cap) (pre tail mem : List Nat) :
    read_string (pre ++ ([34, 92, 120, h1, h2, 34] ++ tail)) pre.length mem cap
      = ({ next := pre.length + 6, ok := true, overflow := false },
         (16 * hexval h1 + hexval h2) :: (List.replicate (cap - 1) 0 ++ mem.drop cap))
    ∧ (∀ (its : List Item) (rest : List Nat),
        WfItems its (92 :: 120 :: rest) → its.length < cap → isxdigit (rd rest 0) = false →
        (read_string (pre ++ (34 :: (srcs its ++ 92 :: 120 :: rest))) pre.length mem cap).1
          = { next := pre.length + 1 + (srcs its).length + 2, ok := false, overflow := false })
    ∧ (∀ (its : List Item) (h : Nat) (rest : List Nat),
        WfItems its (92 :: 120 :: h :: rest) → its.length < cap → isxdigit h = true →
        isxdigit (rd rest 0) = false →
        (read_string (pre ++ (34 :: (srcs its ++ 92 :: 120 :: h :: rest))) pre.length mem cap).1
          = { next := pre.length + 1 + (srcs its).length + 3, ok := false, overflow := false }) := by
  refine ⟨?_, ?_, ?_⟩
  · have h := read_string_literal_ok [.hex h1 h2] pre tail mem cap
      ⟨⟨x1, x2⟩, by simp, trivial⟩ (by simpa using hcap)
    simpa [srcs, Item.src, bytes, Item.byte] using h
  · intro its rest hw hlt hx
    rw [read_string_after_items its pre _ mem cap hw hlt]
    have hb : pre ++ (34 :: (srcs its ++ 92 :: 120 :: rest))
        = (pre ++ 34 :: srcs its) ++ (92 :: 120 :: rest) := by simp
    have hl : pre.length + 1 + (srcs its).length = (pre ++ 34 :: srcs its).length := by
      simp only [List.length_append, List.length_cons]; omega
    have hf : (srcs its).length - its.length + (92 :: 120 :: rest).length
        = ((srcs its).length - its.length + rest.length + 1) + 1 := by
      simp only [List.length_cons]; omega
    rw [hf, hb, hl, read_string_loop_hex_fail1 _ _ _ _ _ _ (by rw [rd_append_length]; rfl)
      (by rw [rd_at]; rfl) (by rw [Nat.add_assoc, rd_at]; exact hx)]
    simp only [STAT_FAIL, List.length_append, List.length_cons]
  · intro its h rest hw hlt hx1 hx2
    rw [read_string_after_items its pre _ mem cap hw hlt]
    have hb : pre ++ (34 :: (srcs its ++ 92 :: 120 :: h :: rest))
        = (pre ++ 34 :: srcs its) ++ (92 :: 120 :: h :: rest) := by simp
    have hl : pre.length + 1 + (srcs its).length = (pre ++ 34 :: srcs its).length := by
      simp only [List.length_append, List.length_cons]; omega
    have hf : (srcs its).length - its.length + (92 :: 120 :: h :: rest).length
        = ((srcs its).length - its.length + rest.length + 2) + 1 := by
      simp only [List.length_cons]; omega
    rw [hf, hb, hl, read_string_loop_hex_fail2 _ _ _ _ _ _ (by rw [rd_append_length]; rfl)
      (by rw [rd_at]; rfl) (by rw [Nat.add_assoc, rd_at]; exact hx1)
      (by rw [Nat.add_assoc, rd_at]; exact hx2)]
    simp only [STAT_FAIL, List.length_append, List.length_cons]

theorem read_string_hex_escape_witness :
    read_string [34, 92, 120, 52, 49, 34] 0 [1, 2, 3, 4] 4
        = ({ next := 6, ok := true, overflow := false }, [65, 0, 0, 0])
    ∧ (read_string [34, 65, 92, 120, 71, 34] 0 [1, 2, 3, 4] 4).1
        = { next := 4, ok := false, overflow := false }
    ∧ (read_string [34, 65, 92, 120, 52, 71, 34] 0 [1, 2, 3, 4] 4).1
        = { next := 5, ok := false, overflow := false } :=
  have h := read_string_hex_escape 52 49 (by decide) (by decide) 4 (by decide) [] [] [1, 2, 3, 4]
  ⟨h.1,
   h.2.1 [.plain 65] [71, 34] (by simp [WfItems, Item.wf]) (by decide) (by decide),
   h.2.2 [.plain 65] 52 [71, 34] (by simp [WfItems, Item.wf]) (by decide) (by decide)
     (by decide)⟩

/-- Claim C10: for a capacity `N` of at least 1 and a well-formed quoted literal of `k`
items, `read_string` returns success when `k < N`, the destination holding the decoded
bytes followed by zero bytes; when `N ≤ k` it returns truncated, the destination holding
the first `N - 1` decoded bytes and a zero byte at index `N - 1`, with the cursor on the
last source character of the `N`-th item. -/
theorem read_string_capacity (its : List Item) (pre tail mem : List Nat) (N : Nat)
    (hN : 1 ≤ N) (hw : WfItems its (34 :: tail)) :
    (its.length < N →
      read_string (pre ++ (34 :: (srcs its ++ 34 :: tail))) pre.length mem N
        = ({ next := pre.length + (srcs its).length + 2, ok := true, overflow := false },
           bytes its ++ (List.replicate (N - its.length) 0 ++ mem.drop N)))
    ∧ (N ≤ its.length →
      read_string (pre ++ (34 :: (srcs its ++ 34 :: tail))) pre.length mem N
        = ({ next := pre.length + (srcs (its.take N)).length, ok := true, overflow := true },
           (bytes its).take (N - 1) ++ (0 :: mem.drop N))) :=
  ⟨fun h => read_string_literal_ok its pre tail mem N hw h,
   fun h => read_string_literal_truncated its pre tail mem N hN hw h⟩

theorem read_string_capacity_witness :
    read_string [34, 65, 66, 67, 34] 0 [1, 2, 3, 4] 4
        = ({ next := 5, ok := true, overflow := false }, [65, 66, 67, 0])
    ∧ read_string [34, 65, 66, 67, 68, 34] 0 [1, 2, 3, 4] 4
        = ({ next := 4, ok := true, overflow := true }, [65, 66, 67, 0]) :=
  ⟨(read_string_capacity [.plain 65, .plain 66, .plain 67] [] [] [1, 2, 3, 4] 4 (by decide)
      (by simp [WfItems, Item.wf])).1 (by decide),
   (read_string_capacity [.plain 65, .plain 66, .plain 67, .plain 68] [] [] [1, 2, 3, 4] 4
      (by decide) (by simp [WfItems, Item.wf])).2 (by decide)⟩

/-- Claim C9 fails as stated: the one-digit escape of the literal `"\1"` and the two-digit
escape of `"\12"` are not decoded; `read_string` returns failure with the cursor on the
closing quote and the destination holds no decoded byte. -/
theorem read_string_short_octal_fails :
    read_string [34, 92, 49, 34] 0 [0, 0, 0, 0] 4
        = ({ next := 3, ok := false, overflow := false }, [0, 0, 0, 0])
    ∧ read_string [34, 92, 49, 50, 34] 0 [0, 0, 0, 0] 4
        = ({ next := 4, ok := false, overflow := false }, [0, 0, 0, 0]) := by
  decide

/-- Claim C9 as amended: an octal escape of exactly three octal digits whose first digit
is in 0 to 3, occurring in a well-formed quoted literal that fits the capacity, is decoded
to the single byte whose value is that octal number; an escape `\0` not followed by an
octal digit is decoded to the NUL byte. -/
theorem read_string_octal_escape (its1 its2 : List Item) (pre tail mem : List Nat) (cap : Nat) :
    (∀ d1 d2 d3 : Nat, 48 ≤ d1 → d1 < 52 → isodigit d2 = true → isodigit d3 = true →
      WfItems (its1 ++ .oct d1 d2 d3 :: its2) (34 :: tail) →
      its1.length + 1 + its2.length < cap →
      read_string (pre ++ (34 :: (srcs its1 ++ [92, d1, d2, d3] ++ srcs its2 ++ 34 :: tail)))
          pre.length mem cap
        = ({ next := pre.length + (srcs its1).length + 4 + (srcs its2).length + 2,
             ok := true, overflow := false },
           bytes its1 ++ (64 * (d1 - 48) + 8 * (d2 - 48) + (d3 - 48)) :: bytes its2
             ++ (List.replicate (cap - (its1.length + 1 + its2.length)) 0 ++ mem.drop cap)))
    ∧ (WfItems (its1 ++ .nul :: its2) (34 :: tail) →
      its1.length + 1 + its2.length < cap →
      read_string (pre ++ (34 :: (srcs its1 ++ [92, 48] ++ srcs its2 ++ 34 :: tail)))
          pre.length mem cap
        = ({ next := pre.length + (srcs its1).length + 2 + (srcs its2).length + 2,
             ok := true, overflow := false },
           bytes its1 ++ 0 :: bytes its2
             ++ (List.replicate (cap - (its1.length + 1 + its2.length)) 0 ++ mem.drop cap))) := by
  constructor
  · intro d1 d2 d3 _ _ _ _ hw hlt
    have h := read_string_literal_ok (its1 ++ .oct d1 d2 d3 :: its2) pre tail mem cap hw
      (by simp only [List.length_append, List.length_cons]; omega)
    simp only [srcs_append, srcs_cons, Item.src, bytes, List.map_append, List.map_cons, Item.byte,
      List.length_append, List.length_cons, List.length_nil] at h
    simp only [bytes, List.append_assoc, List.cons_append, List.nil_append] at h ⊢
    rw [h]
    refine Prod.ext ?_ ?_
    · simp only [ReadStat.mk.injEq, and_true]; omega
    · simp only [List.append_cancel_left_eq, List.cons.injEq, true_and]
      congr 2
      omega
  · intro hw hlt
    have h := read_string_literal_ok (its1 ++ .nul :: its2) pre tail mem cap hw
      (by simp only [List.length_append, List.length_cons]; omega)
    simp only [srcs_append, srcs_cons, Item.src, bytes, List.map_append, List.map_cons, Item.byte,
      List.length_append, List.length_cons, List.length_nil] at h
    simp only [bytes, List.append_assoc, List.cons_append, List.nil_append] at h ⊢
    rw [h]
    refine Prod.ext ?_ ?_
    · simp only [ReadStat.mk.injEq, and_true]; omega
    · simp only [List.append_cancel_left_eq, List.cons.injEq, true_and]
      congr 2
      omega

theorem read_string_octal_escape_witness :
    read_string [34, 65, 92, 49, 48, 49, 66, 34] 0 [1, 2, 3, 4] 4
        = ({ next := 8, ok := true, overflow := false }, [65, 65, 66, 0])
    ∧ read_string [34, 65, 92, 48, 66, 34] 0 [1, 2, 3, 4] 4
        = ({ next := 6, ok := true, overflow := false }, [65, 0, 66, 0]) :=
  have h := read_string_octal_escape [.plain 65] [.plain 66] [] [] [1, 2, 3, 4] 4
  ⟨h.1 49 48 49 (by decide) (by decide) (by decide) (by decide)
     (by simp [WfItems, Item.wf, isodigit]) (by decide),
   h.2 (by simp [WfItems, Item.wf, srcs, Item.src, isodigit]) (by decide)⟩

/-! ## Buffers that agree from a cursor on -/

theorem rd_of_length_le (buf : List Nat) (i : Nat) (h : buf.length ≤ i) : rd buf i = 0 := by
  simp [rd, List.getD_eq_getElem?_getD, List.getElem?_eq_none h]

theorem rd_set_ne (buf : List Nat) (k i v : Nat) (h : k ≠ i) : rd (buf.set k v) i = rd buf i := by
  simp [rd, List.getD_eq_getElem?_getD, List.getElem?_set_ne h]

theorem agreeFrom_set (buf : List Nat) (k v p : Nat) (h : k < p) : AgreeFrom p (buf.set k v) buf :=
  ⟨by simp, fun i hi => rd_set_ne buf k i v (by omega)⟩

theorem AgreeFrom.mono {p q : Nat} {b1 b2 : List Nat} (h : AgreeFrom p b1 b2) (hpq : p ≤ q) :
    AgreeFrom q b1 b2 :=
  ⟨h.1, fun i hi => h.2 i (le_trans hpq hi)⟩

theorem AgreeFrom.trans {p : Nat} {b1 b2 b3 : List Nat} (h : AgreeFrom p b1 b2)
    (h' : AgreeFrom p b2 b3) : AgreeFrom p b1 b3 :=
  ⟨h.1.trans h'.1, fun i hi => (h.2 i hi).trans (h'.2 i hi)⟩

/-! ### `lstrip` and `read_key` -/

theorem lstrip_loop_congr (b1 b2 : List Nat) (p fuel : Nat) (h : AgreeFrom p b1 b2) :
    ∀ str, p ≤ str → lstrip_loop b1 fuel str = lstrip_loop b2 fuel str := by
  induction fuel with
  | zero => intro str _; rfl
  | succ f ih =>
    intro str hs
    simp only [lstrip_loop, h.2 str hs]
    split
    · exact ih _ (by omega)
    · rfl

theorem lstrip_congr (b1 b2 : List Nat) (p str : Nat) (h : AgreeFrom p b1 b2) (hs : p ≤ str) :
    lstrip b1 str = lstrip b2 str := by
  unfold lstrip
  rw [h.1, lstrip_loop_congr b1 b2 p _ h str hs]

theorem lstrip_loop_ge (buf : List Nat) (fuel : Nat) : ∀ str, str ≤ lstrip_loop buf fuel str := by
  induction fuel with
  | zero => intro str; exact le_refl _
  | succ f ih =>
    intro str
    simp only [lstrip_loop]
    split
    · exact le_trans (Nat.le_succ _) (ih _)
    · exact le_refl _

theorem lstrip_ge (buf : List Nat) (str : Nat) : str ≤ lstrip buf str := lstrip_loop_ge buf _ str

theorem lstrip_loop_le (buf : List Nat) (fuel : Nat) :
    ∀ str, str ≤ buf.length → lstrip_loop buf fuel str ≤ buf.length := by
  induction fuel with
  | zero => intro str h; exact h
  | succ f ih =>
    intro str h
    simp only [lstrip_loop]
    split
    · rename_i hc
      exact ih _ (rd_lt_of_ne_zero buf str hc.1)
    · exact h

theorem lstrip_le (buf : List Nat) (str : Nat) (h : str ≤ buf.length) :
    lstrip buf str ≤ buf.length := lstrip_loop_le buf _ str h

theorem read_key_loop_ge (buf : List Nat) (fuel : Nat) : ∀ str, str ≤ read_key_loop buf fuel str := by
  induction fuel with
  | zero => intro str; exact le_refl _
  | succ f ih =>
    intro str
    simp only [read_key_loop]
    split
    · exact le_trans (Nat.le_succ _) (ih _)
    · exact le_refl _

theorem read_key_ge (buf : List Nat) (str : Nat) : str ≤ read_key buf str :=
  read_key_loop_ge buf _ str

/-- The loop of `lstrip` stops on a byte that is NUL or not a space. -/
theorem lstrip_loop_stop (buf : List Nat) (fuel : Nat) :
    ∀ str, buf.length - str ≤ fuel →
      rd buf (lstrip_loop buf fuel str) = 0 ∨ isspace (rd buf (lstrip_loop buf fuel str)) = false := by
  induction fuel with
  | zero =>
    intro str h
    left
    exact rd_of_length_le buf str (by omega)
  | succ f ih =>
    intro str h
    simp only [lstrip_loop]
    split
    · exact ih _ (by omega)
    · rename_i hc
      by_cases h0 : rd buf str = 0
      · left; exact h0
      · right
        simpa [h0] using hc

theorem lstrip_stop (buf : List Nat) (str : Nat) :
    rd buf (lstrip buf str) = 0 ∨ isspace (rd buf (lstrip buf str)) = false :=
  lstrip_loop_stop buf _ str (le_refl _)

/-- The cursor `lstrip` returns on a run of whitespace followed by another byte. -/
theorem lstrip_run (ws : List Nat) : ∀ (pre rest : List Nat),
    (∀ c ∈ ws, isspace c = true) → (rd rest 0 = 0 ∨ isspace (rd rest 0) = false) →
    lstrip (pre ++ (ws ++ rest)) pre.length = pre.length + ws.length := by
  induction ws with
  | nil =>
    intro pre rest _ hr
    unfold lstrip
    cases hf : (pre ++ ([] ++ rest)).length - pre.length with
    | zero => rfl
    | succ f =>
      simp only [lstrip_loop, List.nil_append, rd_append_length]
      rcases hr with h | h <;> simp [h]
  | cons c r ih =>
    intro pre rest hws hr
    have hc := hws c (List.mem_cons_self _ _)
    have hc0 : c ≠ 0 := by rintro rfl; exact absurd hc (by decide)
    have hb : pre ++ (c :: r ++ rest) = (pre ++ [c]) ++ (r ++ rest) := by simp
    have hi := ih (pre ++ [c]) rest (fun x hx => hws x (List.mem_cons_of_mem _ hx)) hr
    unfold lstrip at hi ⊢
    have hf : (pre ++ (c :: r ++ rest)).length - pre.length
        = ((pre ++ [c]) ++ (r ++ rest)).length - (pre ++ [c]).length + 1 := by
      simp only [List.length_append, List.length_cons, List.length_nil]; omega
    rw [hf, lstrip_loop]
    have hrd : rd (pre ++ (c :: r ++ rest)) pre.length = c := by rw [rd_append_length]; rfl
    simp only [hrd, hc0, hc, ne_eq, not_false_eq_true, and_self, if_true]
    rw [hb, show pre.length + 1 = (pre ++ [c]).length by simp, hi]
    simp only [List.length_append, List.length_cons, List.length_nil]; omega

/-- The cursor `read_key` returns on a run of identifier characters followed by another byte. -/
theorem read_key_run (ks : List Nat) : ∀ (pre rest : List Nat),
    (∀ c ∈ ks, c ≠ 0 ∧ iskeychar c = true) → (rd rest 0 = 0 ∨ iskeychar (rd rest 0) = false) →
    read_key (pre ++ (ks ++ rest)) pre.length = pre.length + ks.length := by
  induction ks with
  | nil =>
    intro pre rest _ hr
    unfold read_key
    cases hf : (pre ++ ([] ++ rest)).length - pre.length with
    | zero => rfl
    | succ f =>
      simp only [read_key_loop, List.nil_append, rd_append_length]
      rcases hr with h | h <;> simp [h]
  | cons c r ih =>
    intro pre rest hws hr
    obtain ⟨hc0, hc⟩ := hws c (List.mem_cons_self _ _)
    have hb : pre ++ (c :: r ++ rest) = (pre ++ [c]) ++ (r ++ rest) := by simp
    have hi := ih (pre ++ [c]) rest (fun x hx => hws x (List.mem_cons_of_mem _ hx)) hr
    unfold read_key at hi ⊢
    have hf : (pre ++ (c :: r ++ rest)).length - pre.length
        = ((pre ++ [c]) ++ (r ++ rest)).length - (pre ++ [c]).length + 1 := by
      simp only [List.length_append, List.length_cons, List.length_nil]; omega
    rw [hf, read_key_loop]
    have hrd : rd (pre ++ (c :: r ++ rest)) pre.length = c := by rw [rd_append_length]; rfl
    simp only [hrd, hc0, hc, ne_eq, not_false_eq_true, and_self, if_true]
    rw [hb, show pre.length + 1 = (pre ++ [c]).length by simp, hi]
    simp only [List.length_append, List.length_cons, List.length_nil]; omega

/-! ### The decoders read the buffer from their cursor on only -/

theorem read_unsigned_loop_congr (b1 b2 : List Nat) (h o b : Bool) (p fuel : Nat)
    (hag : AgreeFrom p b1 b2) :
    ∀ str val slot, p ≤ str →
      read_unsigned_loop b1 h o b fuel str val slot = read_unsigned_loop b2 h o b fuel str val slot := by
  induction fuel with
  | zero => intro str val slot _; rfl
  | succ f ih =>
    intro str val slot hs
    simp only [read_unsigned_loop, hag.2 str hs]
    by_cases h0 : rd b2 str = 0
    · simp [h0]
    · by_cases hsp : isspace (rd b2 str) = true
      · simp [h0, hsp]
      · simp only [h0, hsp, if_false]
        cases accumulate h o b val (rd b2 str) with
        | none => rfl
        | some v1 =>
          by_cases hv1 : v1 > 65535
          · simp [hv1]
          · simp only [hv1, if_false]
            exact ih _ _ _ (by omega)

theorem read_unsigned_congr (b1 b2 : List Nat) (p str slot : Nat) (hag : AgreeFrom p b1 b2)
    (hs : p ≤ str) : read_unsigned b1 str slot = read_unsigned b2 str slot := by
  have hl := fun (h o b : Bool) (s : Nat) (hs : p ≤ s) =>
    read_unsigned_loop_congr b1 b2 h o b p (b2.length - s) hag s 0 slot hs
  unfold read_unsigned
  simp only [hag.1, hag.2 str hs, hag.2 (str + 1) (by omega)]
  split_ifs <;> first
    | rfl
    | (rw [hag.2 _ (by omega)] at *; simp_all; done)
    | exact hl _ _ _ _ (by omega)

theorem read_escape_congr (b1 b2 : List Nat) (p str : Nat) (hag : AgreeFrom p b1 b2)
    (hs : p ≤ str) : read_escape b1 str = read_escape b2 str := by
  unfold read_escape
  simp only [hag.2 str hs, hag.2 (str + 1) (by omega), hag.2 (str + 2) (by omega)]

theorem read_escape_ge (buf : List Nat) (str s b : Nat)
    (he : read_escape buf str = .ok (s, b)) : str ≤ s := by
  unfold read_escape at he
  simp only [] at he
  by_cases h0 : rd buf str = 97
  · rw [if_pos h0] at he; cases he; exact le_refl _
  rw [if_neg h0] at he
  by_cases h1 : rd buf str = 98
  · rw [if_pos h1] at he; cases he; exact le_refl _
  rw [if_neg h1] at he
  by_cases h2 : rd buf str = 101
  · rw [if_pos h2] at he; cases he; exact le_refl _
  rw [if_neg h2] at he
  by_cases h3 : rd buf str = 102
  · rw [if_pos h3] at he; cases he; exact le_refl _
  rw [if_neg h3] at he
  by_cases h4 : rd buf str = 110
  · rw [if_pos h4] at he; cases he; exact le_refl _
  rw [if_neg h4] at he
  by_cases h5 : rd buf str = 114
  · rw [if_pos h5] at he; cases he; exact le_refl _
  rw [if_neg h5] at he
  by_cases h6 : rd buf str = 116
  · rw [if_pos h6] at he; cases he; exact le_refl _
  rw [if_neg h6] at he
  by_cases h7 : rd buf str = 118
  · rw [if_pos h7] at he; cases he; exact le_refl _
  rw [if_neg h7] at he
  by_cases h8 : rd buf str = 63
  · rw [if_pos h8] at he; cases he; exact le_refl _
  rw [if_neg h8] at he
  by_cases h9 : rd buf str = 92
  · rw [if_pos h9] at he; cases he; exact le_refl _
  rw [if_neg h9] at he
  by_cases h10 : rd buf str = 39
  · rw [if_pos h10] at he; cases he; exact le_refl _
  rw [if_neg h10] at he
  by_cases h11 : rd buf str = 34
  · rw [if_pos h11] at he; cases he; exact le_refl _
  rw [if_neg h11] at he
  by_cases hx : rd buf str = 120
  · rw [if_pos hx] at he
    by_cases x1 : isxdigit (rd buf (str + 1)) = false
    · rw [if_pos x1] at he; cases he
    rw [if_neg x1] at he
    by_cases x2 : isxdigit (rd buf (str + 2)) = false
    · rw [if_pos x2] at he; cases he
    rw [if_neg x2] at he; cases he; exact Nat.le_add_right _ _
  rw [if_neg hx] at he
  by_cases y0 : ¬ (48 ≤ rd buf str ∧ rd buf str < 52)
  · rw [if_pos y0] at he; cases he
  rw [if_neg y0] at he
  by_cases y1 : rd buf str = 48 ∧ isodigit (rd buf (str + 1)) = false
  · rw [if_pos y1] at he; cases he; exact le_refl _
  rw [if_neg y1] at he
  by_cases y2 : isodigit (rd buf (str + 1)) = false
  · rw [if_pos y2] at he; cases he
  rw [if_neg y2] at he
  by_cases y3 : isodigit (rd buf (str + 2)) = false
  · rw [if_pos y3] at he; cases he
  rw [if_neg y3] at he; cases he; exact Nat.le_add_right _ _

theorem read_string_loop_congr (b1 b2 : List Nat) (cap p fuel : Nat) (hag : AgreeFrom p b1 b2) :
    ∀ str mem ptr, p ≤ str →
      read_string_loop b1 cap fuel str mem ptr = read_string_loop b2 cap fuel str mem ptr := by
  induction fuel with
  | zero => intro str mem ptr _; rfl
  | succ f ih =>
    intro str mem ptr hs
    simp only [read_string_loop, hag.2 str hs, read_escape_congr b1 b2 p (str + 1) hag (by omega)]
    by_cases h34 : rd b2 str = 34
    · simp [h34]
    · by_cases h0 : rd b2 str = 0
      · simp [h0]
      · simp only [h34, h0, if_false]
        by_cases h92 : rd b2 str = 92
        · simp only [h92, if_true]
          cases he : read_escape b2 (str + 1) with
          | error st => rfl
          | ok r =>
            obtain ⟨s, b⟩ := r
            have := read_escape_ge b2 (str + 1) s b he
            simp only []
            split
            · rfl
            · exact ih _ _ _ (by omega)
        · simp only [h92, if_false]
          split
          · rfl
          · exact ih _ _ _ (by omega)

theorem read_string_congr (b1 b2 mem : List Nat) (p str cap : Nat) (hag : AgreeFrom p b1 b2)
    (hs : p ≤ str) : read_string b1 str mem cap = read_string b2 str mem cap := by
  unfold read_string
  simp only [hag.1, hag.2 str hs, read_string_loop_congr b1 b2 cap p _ hag (str + 1) _ 0 (by omega)]

/-! ## The comparison of the key -/

theorem strcmp_eq_iff (lit : List Nat) : ∀ (b : List Nat) (key n : Nat),
    (∀ i, key ≤ i → i < key + n → rd b i ≠ 0) → rd b (key + n) = 0 → (∀ c ∈ lit, c ≠ 0) →
    (strcmp_eq b key lit = true ↔ slice b key n = lit) := by
  induction lit with
  | nil =>
    intro b key n hnz hz _
    cases n with
    | zero => simpa [strcmp_eq, slice] using hz
    | succ m =>
      have := hnz key (le_refl _) (by omega)
      simp [strcmp_eq, slice, this]
  | cons c cs ih =>
    intro b key n hnz hz hl
    have hc0 : c ≠ 0 := hl c (List.mem_cons_self _ _)
    cases n with
    | zero =>
      have hz' : rd b key = 0 := by simpa using hz
      simp [strcmp_eq, slice, hz', Ne.symm hc0]
    | succ m =>
      have hi := ih b (key + 1) m (fun i h1 h2 => hnz i (by omega) (by omega))
        (by rw [← hz]; congr 1; omega) (fun x hx => hl x (List.mem_cons_of_mem _ hx))
      simp only [strcmp_eq, slice, Bool.and_eq_true, beq_iff_eq, List.cons.injEq, hi]

theorem read_key_loop_between (buf : List Nat) (fuel : Nat) :
    ∀ str i, str ≤ i → i < read_key_loop buf fuel str →
      rd buf i ≠ 0 ∧ iskeychar (rd buf i) = true := by
  induction fuel with
  | zero => intro str i h1 h2; simp only [read_key_loop] at h2; omega
  | succ f ih =>
    intro str i h1 h2
    simp only [read_key_loop] at h2
    split at h2
    · rename_i hc
      by_cases hi : i = str
      · subst hi; exact hc
      · exact ih (str + 1) i (by omega) h2
    · omega

theorem read_key_between (buf : List Nat) (str i : Nat) (h1 : str ≤ i)
    (h2 : i < read_key buf str) : rd buf i ≠ 0 ∧ iskeychar (rd buf i) = true :=
  read_key_loop_between buf _ str i h1 h2

theorem read_key_loop_stop (buf : List Nat) (fuel : Nat) :
    ∀ str, buf.length - str ≤ fuel →
      rd buf (read_key_loop buf fuel str) = 0
        ∨ iskeychar (rd buf (read_key_loop buf fuel str)) = false := by
  induction fuel with
  | zero =>
    intro str h
    left
    exact rd_of_length_le buf str (by omega)
  | succ f ih =>
    intro str h
    simp only [read_key_loop]
    split
    · exact ih _ (by omega)
    · rename_i hc
      by_cases h0 : rd buf str = 0
      · left; exact h0
      · right
        simpa [h0] using hc

theorem read_key_stop (buf : List Nat) (str : Nat) :
    rd buf (read_key buf str) = 0 ∨ iskeychar (rd buf (read_key buf str)) = false :=
  read_key_loop_stop buf _ str (le_refl _)

theorem slice_congr (b1 b2 : List Nat) (n : Nat) : ∀ a,
    (∀ i, a ≤ i → i < a + n → rd b1 i = rd b2 i) → slice b1 a n = slice b2 a n := by
  induction n with
  | zero => intro a _; rfl
  | succ m ih =>
    intro a h
    simp only [slice]
    rw [h a (le_refl _) (by omega), ih (a + 1) (fun i h1 h2 => h i (by omega) (by omega))]

theorem rd_set_eq (buf : List Nat) (k v : Nat) (h : k < buf.length) : rd (buf.set k v) k = v := by
  simp [rd, List.getD_eq_getElem?_getD, List.getElem?_set_self h]

theorem key_text_ne_zero (k : Key) : ∀ c ∈ k.text, c ≠ 0 := by
  cases k <;> decide

/-- The comparisons of `read_config_row` on the identifier between `key` and `key_end`,
once `*key_end = '\0'` is stored. -/
theorem strcmp_key (buf : List Nat) (key key_end : Nat) (hend : key_end < buf.length)
    (hle : key ≤ key_end) (hnz : ∀ i, key ≤ i → i < key_end → rd buf i ≠ 0)
    (lit : List Nat) (hl : ∀ c ∈ lit, c ≠ 0) :
    strcmp_eq (buf.set key_end 0) key lit = true ↔ slice buf key (key_end - key) = lit := by
  have h := strcmp_eq_iff lit (buf.set key_end 0) key (key_end - key)
    (fun i h1 h2 => by rw [rd_set_ne _ _ _ _ (by omega)]; exact hnz i h1 (by omega))
    (by rw [show key + (key_end - key) = key_end by omega, rd_set_eq _ _ _ hend]) hl
  rw [h, slice_congr (buf.set key_end 0) buf _ key
    (fun i h1 h2 => rd_set_ne _ _ _ _ (by omega))]

theorem slice_length (buf : List Nat) (n : Nat) : ∀ a, (slice buf a n).length = n := by
  induction n with
  | zero => intro a; rfl
  | succ m ih => intro a; simp [slice, ih]

theorem store_congr (k : Key) (b1 b2 : List Nat) (p vb : Nat) (row : ConfigRow)
    (hag : AgreeFrom p b1 b2) (hv : p ≤ vb) : store k b1 vb row = store k b2 vb row := by
  cases k <;>
    simp only [store, read_string_congr b1 b2 _ p vb _ hag hv,
      read_unsigned_congr b1 b2 p vb _ hag hv]

/-- One iteration of the loop of `read_config_row` on a key followed by `=`. -/
theorem step_of_key (buf : List Nat) (line : Nat) (row : ConfigRow) (k : Key)
    (hs : slice buf (lstrip buf line) (read_key buf (lstrip buf line) - lstrip buf line) = k.text)
    (he : rd buf (lstrip buf (read_key buf (lstrip buf line))) = 61) :
    read_config_row_step buf line row
      = row_after (buf.set (read_key buf (lstrip buf line)) 0)
          (store k buf (lstrip buf (lstrip buf (read_key buf (lstrip buf line)) + 1)) row).1
          (store k buf (lstrip buf (lstrip buf (read_key buf (lstrip buf line)) + 1)) row).2 := by
  generalize hkey : lstrip buf line = key at hs he ⊢
  generalize hkend : read_key buf key = key_end at hs he ⊢
  generalize hequ : lstrip buf key_end = equ at he ⊢
  have hlen : key_end - key = k.text.length := by
    have := slice_length buf (key_end - key) key
    rw [hs] at this; exact this.symm
  have hpos : 0 < k.text.length := by cases k <;> decide
  have hne : key ≠ key_end := by omega
  have hle : key ≤ key_end := by omega
  have hequ_lt : equ < buf.length := rd_lt_of_ne_zero buf equ (by rw [he]; decide)
  have hke : key_end ≤ equ := by rw [← hequ]; exact lstrip_ge buf key_end
  have hend : key_end < buf.length := by omega
  have hnz : ∀ i, key ≤ i → i < key_end → rd buf i ≠ 0 := fun i h1 h2 =>
    (read_key_between buf key i h1 (by rw [hkend]; exact h2)).1
  have hcmp : ∀ lit : List Nat, (∀ c ∈ lit, c ≠ 0) →
      (strcmp_eq (buf.set key_end 0) key lit = true ↔ k.text = lit) := by
    intro lit hl
    rw [strcmp_key buf key key_end hend hle hnz lit hl, hs]
  have hag : AgreeFrom (key_end + 1) (buf.set key_end 0) buf := agreeFrom_set buf key_end 0 _ (by omega)
  have hvb : lstrip (buf.set key_end 0) (equ + 1) = lstrip buf (equ + 1) :=
    lstrip_congr _ _ (key_end + 1) (equ + 1) hag (by omega)
  have hvge : key_end + 1 ≤ lstrip buf (equ + 1) :=
    le_trans (by omega) (lstrip_ge buf (equ + 1))
  have hst := store_congr k (buf.set key_end 0) buf (key_end + 1) (lstrip buf (equ + 1)) row hag hvge
  unfold read_config_row_step
  simp only [hkey, hkend, hequ, hne, he, hvb, if_false, ne_eq, not_true_eq_false,
    hcmp [112, 110, 112] (by decide), hcmp [112, 114, 111, 100, 117, 99, 116] (by decide),
    hcmp [110, 97, 109, 101] (by decide), hcmp [115, 101, 114, 105, 97, 108] (by decide),
    hcmp [100, 112, 105] (by decide)]
  rw [← hst]
  cases k <;> simp [Key.text, store]

/-! ## Where a successful decoder leaves the cursor -/

theorem read_escape_error (buf : List Nat) (str : Nat) (st : ReadStat)
    (he : read_escape buf str = .error st) : st.ok = false := by
  unfold read_escape at he
  simp only [] at he
  by_cases h0 : rd buf str = 97
  · rw [if_pos h0] at he; cases he
  rw [if_neg h0] at he
  by_cases h1 : rd buf str = 98
  · rw [if_pos h1] at he; cases he
  rw [if_neg h1] at he
  by_cases h2 : rd buf str = 101
  · rw [if_pos h2] at he; cases he
  rw [if_neg h2] at he
  by_cases h3 : rd buf str = 102
  · rw [if_pos h3] at he; cases he
  rw [if_neg h3] at he
  by_cases h4 : rd buf str = 110
  · rw [if_pos h4] at he; cases he
  rw [if_neg h4] at he
  by_cases h5 : rd buf str = 114
  · rw [if_pos h5] at he; cases he
  rw [if_neg h5] at he
  by_cases h6 : rd buf str = 116
  · rw [if_pos h6] at he; cases he
  rw [if_neg h6] at he
  by_cases h7 : rd buf str = 118
  · rw [if_pos h7] at he; cases he
  rw [if_neg h7] at he
  by_cases h8 : rd buf str = 63
  · rw [if_pos h8] at he; cases he
  rw [if_neg h8] at he
  by_cases h9 : rd buf str = 92
  · rw [if_pos h9] at he; cases he
  rw [if_neg h9] at he
  by_cases h10 : rd buf str = 39
  · rw [if_pos h10] at he; cases he
  rw [if_neg h10] at he
  by_cases h11 : rd buf str = 34
  · rw [if_pos h11] at he; cases he
  rw [if_neg h11] at he
  by_cases hx : rd buf str = 120
  · rw [if_pos hx] at he
    by_cases x1 : isxdigit (rd buf (str + 1)) = false
    · rw [if_pos x1] at he; cases he; rfl
    rw [if_neg x1] at he
    by_cases x2 : isxdigit (rd buf (str + 2)) = false
    · rw [if_pos x2] at he; cases he; rfl
    rw [if_neg x2] at he; cases he
  rw [if_neg hx] at he
  by_cases y0 : ¬ (48 ≤ rd buf str ∧ rd buf str < 52)
  · rw [if_pos y0] at he; cases he; rfl
  rw [if_neg y0] at he
  by_cases y1 : rd buf str = 48 ∧ isodigit (rd buf (str + 1)) = false
  · rw [if_pos y1] at he; cases he
  rw [if_neg y1] at he
  by_cases y2 : isodigit (rd buf (str + 1)) = false
  · rw [if_pos y2] at he; cases he; rfl
  rw [if_neg y2] at he
  by_cases y3 : isodigit (rd buf (str + 2)) = false
  · rw [if_pos y3] at he; cases he; rfl
  rw [if_neg y3] at he; cases he

theorem read_string_loop_bounds (buf : List Nat) (cap fuel : Nat) :
    ∀ str mem ptr, (read_string_loop buf cap fuel str mem ptr).1.ok = true →
      (read_string_loop buf cap fuel str mem ptr).1.overflow = false →
      str < (read_string_loop buf cap fuel str mem ptr).1.next
        ∧ (read_string_loop buf cap fuel str mem ptr).1.next ≤ buf.length := by
  induction fuel with
  | zero => intro str mem ptr h _; simp [read_string_loop, STAT_FAIL] at h
  | succ f ih =>
    intro str mem ptr
    rw [read_string_loop]
    by_cases h34 : rd buf str = 34
    · intro _ _
      have := rd_lt_of_ne_zero buf str (by rw [h34]; decide)
      simp only [h34, if_true, STAT_OK]
      omega
    · by_cases h0 : rd buf str = 0
      · intro h; simp [h34, h0, STAT_FAIL] at h
      · simp only [h34, h0, if_false]
        by_cases h92 : rd buf str = 92
        · simp only [h92, if_true]
          cases he : read_escape buf (str + 1) with
          | error st =>
            intro h
            simp only [] at h
            rw [read_escape_error buf (str + 1) st he] at h
            exact absurd h (by decide)
          | ok r =>
            obtain ⟨s, b⟩ := r
            have hge := read_escape_ge buf (str + 1) s b he
            simp only []
            by_cases hc : ptr + 1 = cap
            · intro _ h; simp [hc, STAT_OVERFLOW] at h
            · simp only [hc, if_false]
              intro h1 h2
              have := ih _ _ _ h1 h2
              omega
        · simp only [h92, if_false]
          by_cases hc : ptr + 1 = cap
          · intro _ h; simp [hc, STAT_OVERFLOW] at h
          · simp only [hc, if_false]
            intro h1 h2
            have := ih _ _ _ h1 h2
            omega

theorem read_string_bounds (buf mem : List Nat) (str cap : Nat)
    (h1 : (read_string buf str mem cap).1.ok = true)
    (h2 : (read_string buf str mem cap).1.overflow = false) :
    str < (read_string buf str mem cap).1.next
      ∧ (read_string buf str mem cap).1.next ≤ buf.length := by
  unfold read_string at h1 h2 ⊢
  by_cases hq : rd buf str = 34
  · simp only [hq, ne_eq, not_true_eq_false, if_false] at h1 h2 ⊢
    have := read_string_loop_bounds buf cap _ _ _ _ h1 h2
    omega
  · simp [hq, STAT_FAIL] at h1

theorem read_unsigned_loop_bounds (buf : List Nat) (h o b : Bool) (fuel : Nat) :
    ∀ str val slot, str ≤ buf.length →
      (read_unsigned_loop buf h o b fuel str val slot).1.ok = true →
      (read_unsigned_loop buf h o b fuel str val slot).1.overflow = false →
      str ≤ (read_unsigned_loop buf h o b fuel str val slot).1.next
        ∧ (read_unsigned_loop buf h o b fuel str val slot).1.next ≤ buf.length := by
  induction fuel with
  | zero => intro str val slot hs _ _; simp [read_unsigned_loop, STAT_OK]; exact hs
  | succ f ih =>
    intro str val slot hs
    rw [read_unsigned_loop]
    by_cases h0 : rd buf str = 0
    · intro _ _; simp [h0, STAT_OK]; exact hs
    · by_cases hsp : isspace (rd buf str) = true
      · intro _ _; simp [h0, hsp, STAT_OK]; exact hs
      · simp only [h0, hsp, if_false, Bool.false_eq_true, reduceIte]
        have hlt := rd_lt_of_ne_zero buf str h0
        cases accumulate h o b val (rd buf str) with
        | none => intro hh; simp [STAT_FAIL] at hh
        | some v1 =>
          simp only []
          by_cases hv : v1 > 65535
          · intro _ hh; simp [hv, STAT_OVERFLOW] at hh
          · simp only [hv, if_false]
            intro h1 h2
            have := ih (str + 1) v1 slot (by omega) h1 h2
            omega

theorem read_unsigned_loop_first (buf : List Nat) (h o b : Bool) (fuel str val slot : Nat)
    (hd : isdigit (rd buf str) = true) (hf : buf.length - str ≤ fuel)
    (h1 : (read_unsigned_loop buf h o b fuel str val slot).1.ok = true)
    (h2 : (read_unsigned_loop buf h o b fuel str val slot).1.overflow = false) :
    str < (read_unsigned_loop buf h o b fuel str val slot).1.next
      ∧ (read_unsigned_loop buf h o b fuel str val slot).1.next ≤ buf.length := by
  have h0 : rd buf str ≠ 0 := by rintro hz; rw [hz] at hd; exact absurd hd (by decide)
  have hsp : isspace (rd buf str) = false := by
    simp only [isdigit, Bool.and_eq_true, decide_eq_true_eq] at hd
    simp [isspace]; omega
  have hlt := rd_lt_of_ne_zero buf str h0
  obtain ⟨f, rfl⟩ : ∃ f, fuel = f + 1 := ⟨fuel - 1, by omega⟩
  rw [read_unsigned_loop] at h1 h2 ⊢
  simp only [h0, hsp, if_false, Bool.false_eq_true, reduceIte] at h1 h2 ⊢
  cases hacc : accumulate h o b val (rd buf str) with
  | none => rw [hacc] at h1; simp [STAT_FAIL] at h1
  | some v1 =>
    rw [hacc] at h1 h2
    simp only [] at h1 h2 ⊢
    by_cases hv : v1 > 65535
    · simp [hv, STAT_OVERFLOW] at h2
    · simp only [hv, if_false, Bool.false_eq_true, reduceIte] at h1 h2 ⊢
      have := read_unsigned_loop_bounds buf h o b f (str + 1) v1 slot (by omega) h1 h2
      omega

theorem read_unsigned_bounds (buf : List Nat) (str slot : Nat)
    (h1 : (read_unsigned buf str slot).1.ok = true)
    (h2 : (read_unsigned buf str slot).1.overflow = false) :
    str < (read_unsigned buf str slot).1.next
      ∧ (read_unsigned buf str slot).1.next ≤ buf.length := by
  unfold read_unsigned at h1 h2 ⊢
  by_cases hd : isdigit (rd buf str) = false
  · simp [hd, STAT_FAIL] at h1
  · simp only [hd, if_false, Bool.true_eq_false, reduceIte] at h1 h2 ⊢
    generalize hstr1 : (if ((rd buf str == 48 && (rd buf (str + 1) == 120 || rd buf (str + 1) == 88))
        || (rd buf str == 48 && (rd buf (str + 1) == 111 || rd buf (str + 1) == 79))
        || (rd buf str == 48 && (rd buf (str + 1) == 98 || rd buf (str + 1) == 66))) = true
      then str + 2
      else if (rd buf str == 48 && isdigit (rd buf (str + 1))) = true then str + 1 else str)
      = str1 at h1 h2 ⊢
    have hge : str ≤ str1 := by
      rw [← hstr1]; split_ifs <;> omega
    by_cases hd1 : isdigit (rd buf str1) = false
    · simp [hd1, STAT_FAIL] at h1
    · simp only [hd1, if_false, Bool.true_eq_false, reduceIte] at h1 h2 ⊢
      have := read_unsigned_loop_first buf _ _ _ _ str1 0 slot (by simpa using hd1) (le_refl _) h1 h2
      omega

/-! ## The states at the head of the loop of `read_config_row` -/

theorem row_after_next (b : List Nat) (st : ReadStat) (r : ConfigRow) (b1 : List Nat) (l1 : Nat)
    (r1 : ConfigRow) (h : row_after b st r = .next b1 l1 r1) :
    st.ok = true ∧ st.overflow = false ∧ b1 = b ∧ l1 = st.next ∧ r1 = r := by
  unfold row_after at h
  by_cases h1 : st.ok = false
  · rw [if_pos h1] at h; cases h
  · rw [if_neg h1] at h
    by_cases h2 : st.overflow = true
    · rw [if_pos h2] at h; cases h
    · rw [if_neg h2] at h
      cases h
      exact ⟨by simpa using h1, by simpa using h2, rfl, rfl, rfl⟩

theorem store_bounds (k : Key) (buf : List Nat) (vb : Nat) (row : ConfigRow)
    (h1 : (store k buf vb row).1.ok = true) (h2 : (store k buf vb row).1.overflow = false) :
    vb < (store k buf vb row).1.next ∧ (store k buf vb row).1.next ≤ buf.length := by
  cases k
  · exact read_string_bounds buf _ vb 4 h1 h2
  · exact read_unsigned_bounds buf vb _ h1 h2
  · exact read_string_bounds buf _ vb 16 h1 h2
  · exact read_string_bounds buf _ vb 16 h1 h2
  · exact read_unsigned_bounds buf vb _ h1 h2

/-- An iteration that reaches the end of the body has read a key and `=`. -/
theorem step_next_key (buf : List Nat) (line : Nat) (row : ConfigRow) (buf1 : List Nat)
    (line1 : Nat) (row1 : ConfigRow)
    (h : read_config_row_step buf line row = .next buf1 line1 row1) :
    ∃ k : Key,
      slice buf (lstrip buf line) (read_key buf (lstrip buf line) - lstrip buf line) = k.text
      ∧ rd buf (lstrip buf (read_key buf (lstrip buf line))) = 61 := by
  generalize hkey : lstrip buf line = key at h ⊢
  generalize hkend : read_key buf key = key_end at h ⊢
  generalize hequ : lstrip buf key_end = equ at h ⊢
  unfold read_config_row_step at h
  simp only [hkey, hkend, hequ] at h
  by_cases hne : key = key_end
  · rw [if_pos hne] at h
    split at h <;> cases h
  rw [if_neg hne] at h
  by_cases he : rd buf equ = 61
  swap
  · rw [if_pos he] at h; cases h
  rw [if_neg (not_not.mpr he)] at h
  have hle : key ≤ key_end := by rw [← hkend]; exact read_key_ge buf key
  have hequ_lt : equ < buf.length := rd_lt_of_ne_zero buf equ (by rw [he]; decide)
  have hke : key_end ≤ equ := by rw [← hequ]; exact lstrip_ge buf key_end
  have hend : key_end < buf.length := by omega
  have hnz : ∀ i, key ≤ i → i < key_end → rd buf i ≠ 0 := fun i h1 h2 =>
    (read_key_between buf key i h1 (by rw [hkend]; exact h2)).1
  have hcmp : ∀ k : Key, strcmp_eq (buf.set key_end 0) key k.text = true →
      slice buf key (key_end - key) = k.text := fun k hk =>
    (strcmp_key buf key key_end hend hle hnz k.text (key_text_ne_zero k)).mp hk
  by_cases c1 : strcmp_eq (buf.set key_end 0) key [112, 110, 112] = true
  · exact ⟨.pnp, hcmp .pnp c1, he⟩
  rw [if_neg c1] at h
  by_cases c2 : strcmp_eq (buf.set key_end 0) key [112, 114, 111, 100, 117, 99, 116] = true
  · exact ⟨.product, hcmp .product c2, he⟩
  rw [if_neg c2] at h
  by_cases c3 : strcmp_eq (buf.set key_end 0) key [110, 97, 109, 101] = true
  · exact ⟨.name, hcmp .name c3, he⟩
  rw [if_neg c3] at h
  by_cases c4 : strcmp_eq (buf.set key_end 0) key [115, 101, 114, 105, 97, 108] = true
  · exact ⟨.serial, hcmp .serial c4, he⟩
  rw [if_neg c4] at h
  by_cases c5 : strcmp_eq (buf.set key_end 0) key [100, 112, 105] = true
  · exact ⟨.dpi, hcmp .dpi c5, he⟩
  rw [if_neg c5] at h
  cases h

/-- An iteration that reaches the end of the body moves the cursor forward, inside the
buffer, and keeps the length of the buffer. -/
theorem step_next_bounds (buf : List Nat) (line : Nat) (row : ConfigRow) (buf1 : List Nat)
    (line1 : Nat) (row1 : ConfigRow)
    (h : read_config_row_step buf line row = .next buf1 line1 row1) :
    buf1.length = buf.length ∧ line < line1 ∧ line1 ≤ buf.length := by
  obtain ⟨k, hs, he⟩ := step_next_key buf line row buf1 line1 row1 h
  rw [step_of_key buf line row k hs he] at h
  obtain ⟨h1, h2, rfl, rfl, rfl⟩ := row_after_next _ _ _ _ _ _ h
  have hb := store_bounds k buf _ row h1 h2
  have g1 := lstrip_ge buf line
  have g2 := read_key_ge buf (lstrip buf line)
  have g3 := lstrip_ge buf (read_key buf (lstrip buf line))
  have g4 := lstrip_ge buf (lstrip buf (read_key buf (lstrip buf line)) + 1)
  refine ⟨by simp, by omega, hb.2⟩

theorem store_stat (k : Key) (buf : List Nat) (vb : Nat) (row : ConfigRow) :
    (store k buf vb row).1 = decoder_stat k buf vb row := by
  cases k <;> rfl

theorem store_has (k : Key) (buf : List Nat) (vb : Nat) (row : ConfigRow) :
    (store k buf vb row).2.has k = (decoder_stat k buf vb row).ok := by
  cases k <;> rfl

theorem read_key_eq_self (buf : List Nat) (str : Nat)
    (h : rd buf str = 0 ∨ iskeychar (rd buf str) = false) : read_key buf str = str := by
  unfold read_key
  cases buf.length - str with
  | zero => rfl
  | succ f =>
    simp only [read_key_loop]
    rcases h with h | h <;> simp [h]

theorem read_key_loop_congr (b1 b2 : List Nat) (p fuel : Nat) (h : AgreeFrom p b1 b2) :
    ∀ str, p ≤ str → read_key_loop b1 fuel str = read_key_loop b2 fuel str := by
  induction fuel with
  | zero => intro str _; rfl
  | succ f ih =>
    intro str hs
    simp only [read_key_loop, h.2 str hs]
    split
    · exact ih _ (by omega)
    · rfl

theorem read_key_congr (b1 b2 : List Nat) (p str : Nat) (h : AgreeFrom p b1 b2) (hs : p ≤ str) :
    read_key b1 str = read_key b2 str := by
  unfold read_key
  rw [h.1, read_key_loop_congr b1 b2 p _ h str hs]

theorem memset0_of_length (mem : List Nat) (cap : Nat) (h : mem.length = cap) :
    memset0 mem cap = List.replicate cap 0 := by
  simp [memset0, List.drop_eq_nil_of_le (le_of_eq h)]

theorem read_string_mem (buf mem : List Nat) (str cap : Nat) (h : mem.length = cap) :
    read_string buf str mem cap = read_string buf str (List.replicate cap 0) cap := by
  unfold read_string
  rw [memset0_of_length mem cap h, memset0_of_length (List.replicate cap 0) cap (by simp)]

theorem read_string_loop_length (buf : List Nat) (cap fuel : Nat) :
    ∀ str mem ptr, (read_string_loop buf cap fuel str mem ptr).2.length = mem.length := by
  induction fuel with
  | zero => intro str mem ptr; rfl
  | succ f ih =>
    intro str mem ptr
    rw [read_string_loop]
    split
    · rfl
    · split
      · rfl
      · simp only []
        split
        · rfl
        · split
          · simp
          · rw [ih]; simp

theorem read_string_length (buf mem : List Nat) (str cap : Nat) (h : mem.length = cap) :
    (read_string buf str mem cap).2.length = cap := by
  unfold read_string
  rw [memset0_of_length mem cap h]
  simp only []
  split
  · simp
  · rw [read_string_loop_length]; simp

theorem read_string_ok_first (buf mem : List Nat) (str cap : Nat)
    (h : (read_string buf str mem cap).1.ok = true) : rd buf str = 34 := by
  unfold read_string at h
  by_contra hq
  simp [hq, STAT_FAIL] at h

theorem read_unsigned_ok_first (buf : List Nat) (str slot : Nat)
    (h : (read_unsigned buf str slot).1.ok = true) : isdigit (rd buf str) = true := by
  unfold read_unsigned at h
  by_contra hq
  simp [hq, STAT_FAIL] at h

theorem read_unsigned_loop_slot (buf : List Nat) (h o b : Bool) (fuel : Nat) :
    ∀ str val slot,
      (read_unsigned_loop buf h o b fuel str val slot).1
          = (read_unsigned_loop buf h o b fuel str val 0).1
      ∧ ((read_unsigned_loop buf h o b fuel str val 0).1.ok = true →
          (read_unsigned_loop buf h o b fuel str val slot).2
            = (read_unsigned_loop buf h o b fuel str val 0).2) := by
  induction fuel with
  | zero => intro str val slot; exact ⟨rfl, fun _ => rfl⟩
  | succ f ih =>
    intro str val slot
    simp only [read_unsigned_loop]
    by_cases h0 : rd buf str = 0
    · simp [h0]
    · by_cases hsp : isspace (rd buf str) = true
      · simp [h0, hsp]
      · simp only [h0, hsp, if_false, Bool.false_eq_true, reduceIte]
        cases accumulate h o b val (rd buf str) with
        | none => simp [STAT_FAIL]
        | some v1 =>
          simp only []
          by_cases hv : v1 > 65535
          · simp [hv]
          · simp only [hv, if_false, reduceIte]
            exact ih _ _ _

theorem read_unsigned_slot (buf : List Nat) (str slot : Nat) :
    (read_unsigned buf str slot).1 = (read_unsigned buf str 0).1
    ∧ ((read_unsigned buf str 0).1.ok = true →
        (read_unsigned buf str slot).2 = (read_unsigned buf str 0).2) := by
  unfold read_unsigned
  by_cases hd : isdigit (rd buf str) = false
  · simp [hd, STAT_FAIL]
  · simp only [hd, if_false, Bool.true_eq_false, reduceIte]
    generalize (if ((rd buf str == 48 && (rd buf (str + 1) == 120 || rd buf (str + 1) == 88))
        || (rd buf str == 48 && (rd buf (str + 1) == 111 || rd buf (str + 1) == 79))
        || (rd buf str == 48 && (rd buf (str + 1) == 98 || rd buf (str + 1) == 66))) = true
      then str + 2
      else if (rd buf str == 48 && isdigit (rd buf (str + 1))) = true then str + 1 else str)
      = str1
    by_cases hd1 : isdigit (rd buf str1) = false
    · simp [hd1, STAT_FAIL]
    · simp only [hd1, if_false, Bool.true_eq_false, reduceIte]
      exact read_unsigned_loop_slot _ _ _ _ _ _ _ _

theorem store_eq_decode (k : Key) (buf : List Nat) (q : Nat) (row : ConfigRow)
    (hr : RowSized row) :
    (store k buf q row).1 = (decode k buf q).1
    ∧ ((decode k buf q).1.ok = true → (store k buf q row).2.field k = (decode k buf q).2) := by
  obtain ⟨h1, h2, h3⟩ := hr
  cases k
  · simp only [store, decode, ConfigRow.field, read_string_mem buf row.pnp q 4 h1]
    exact ⟨trivial, fun _ => trivial⟩
  · simp only [store, decode, ConfigRow.field]
    exact ⟨(read_unsigned_slot buf q row.product).1,
      fun h => congrArg Sum.inr ((read_unsigned_slot buf q row.product).2 h)⟩
  · simp only [store, decode, ConfigRow.field, read_string_mem buf row.name q 16 h2]
    exact ⟨trivial, fun _ => trivial⟩
  · simp only [store, decode, ConfigRow.field, read_string_mem buf row.serial q 16 h3]
    exact ⟨trivial, fun _ => trivial⟩
  · simp only [store, decode, ConfigRow.field]
    exact ⟨(read_unsigned_slot buf q row.dpi).1,
      fun h => congrArg Sum.inr ((read_unsigned_slot buf q row.dpi).2 h)⟩

theorem store_sized (k : Key) (buf : List Nat) (q : Nat) (row : ConfigRow) (hr : RowSized row) :
    RowSized (store k buf q row).2 := by
  obtain ⟨h1, h2, h3⟩ := hr
  cases k
  · exact ⟨read_string_length buf row.pnp q 4 h1, h2, h3⟩
  · exact ⟨h1, h2, h3⟩
  · exact ⟨h1, read_string_length buf row.name q 16 h2, h3⟩
  · exact ⟨h1, h2, read_string_length buf row.serial q 16 h3⟩
  · exact ⟨h1, h2, h3⟩

theorem store_has_other (k k1 : Key) (buf : List Nat) (q : Nat) (row : ConfigRow) (h : k1 ≠ k) :
    (store k buf q row).2.has k1 = row.has k1 := by
  cases k <;> cases k1 <;> first | rfl | exact absurd rfl h

theorem store_field_other (k k1 : Key) (buf : List Nat) (q : Nat) (row : ConfigRow)
    (h : k1 ≠ k) : (store k buf q row).2.field k1 = row.field k1 := by
  cases k <;> cases k1 <;> first | rfl | exact absurd rfl h

theorem decode_ok_first (k : Key) (buf : List Nat) (q : Nat)
    (h : (decode k buf q).1.ok = true) : rd buf q ≠ 0 ∧ isspace (rd buf q) = false := by
  have hq : rd buf q = 34 ∨ isdigit (rd buf q) = true := by
    cases k
    · exact Or.inl (read_string_ok_first buf _ q 4 h)
    · exact Or.inr (read_unsigned_ok_first buf q 0 h)
    · exact Or.inl (read_string_ok_first buf _ q 16 h)
    · exact Or.inl (read_string_ok_first buf _ q 16 h)
    · exact Or.inr (read_unsigned_ok_first buf q 0 h)
  rcases hq with hq | hq
  · rw [hq]; exact ⟨by decide, by decide⟩
  · simp only [isdigit, Bool.and_eq_true, decide_eq_true_eq] at hq
    refine ⟨by omega, ?_⟩
    simp [isspace]; omega

theorem key_text_keychar (k : Key) : ∀ c ∈ k.text, c ≠ 0 ∧ iskeychar c = true := by
  cases k <;> decide

theorem key_text_head (k : Key) (rest : List Nat) :
    rd (k.text ++ rest) 0 ≠ 0 ∧ isspace (rd (k.text ++ rest) 0) = false := by
  cases k <;> exact ⟨Nat.succ_ne_zero _, rfl⟩

theorem blank_or_eq_head (ws rest : List Nat) (hws : IsBlank ws) :
    rd (ws ++ 61 :: rest) 0 = 0 ∨ iskeychar (rd (ws ++ 61 :: rest) 0) = false := by
  right
  cases ws with
  | nil => rfl
  | cons c r =>
    have hc := hws c (List.mem_cons_self _ _)
    show iskeychar c = false
    simp only [isspace, Bool.or_eq_true, Bool.and_eq_true, decide_eq_true_eq, beq_iff_eq] at hc
    simp [iskeychar, isalnum]
    omega

theorem slice_append (t : List Nat) : ∀ (pre rest : List Nat),
    slice (pre ++ (t ++ rest)) pre.length t.length = t := by
  induction t with
  | nil => intro pre rest; rfl
  | cons c r ih =>
    intro pre rest
    have hb : pre ++ (c :: r ++ rest) = (pre ++ [c]) ++ (r ++ rest) := by simp
    have hrd : rd (pre ++ (c :: r ++ rest)) pre.length = c := by rw [rd_append_length]; rfl
    simp only [List.length_cons, slice, hrd]
    rw [hb, show pre.length + 1 = (pre ++ [c]).length by simp, ih]

/-- One iteration of the loop of `read_config_row` on a pair whose value the decoder accepts. -/
theorem pair_step (buf b pre ws rest : List Nat) (p : Pair) (row : ConfigRow)
    (hbuf : buf = pre ++ (ws ++ (p.src ++ rest))) (hws : IsBlank ws) (hp : p.wf)
    (hag : AgreeFrom pre.length b buf)
    (hacc : (store p.key buf (pre.length + ws.length + p.value_offset) row).1
      = { next := pre.length + ws.length + p.value_offset + p.value.length,
          ok := true, overflow := false })
    (hfirst : rd buf (pre.length + ws.length + p.value_offset) ≠ 0
      ∧ isspace (rd buf (pre.length + ws.length + p.value_offset)) = false) :
    ∃ b1, read_config_row_step b pre.length row
        = .next b1 (pre.length + ws.length + p.value_offset + p.value.length)
            (store p.key buf (pre.length + ws.length + p.value_offset) row).2
      ∧ AgreeFrom (pre.length + ws.length + p.value_offset + p.value.length) b1 buf := by
  obtain ⟨hw1, hw2, _⟩ := hp
  have e1 : buf = pre ++ (ws ++ (p.key.text
      ++ (p.ws1 ++ 61 :: (p.ws2 ++ (p.value ++ (p.ws3 ++ rest)))))) := by
    rw [hbuf]; simp [Pair.src]
  have e2 : buf = (pre ++ ws) ++ (p.key.text
      ++ (p.ws1 ++ 61 :: (p.ws2 ++ (p.value ++ (p.ws3 ++ rest))))) := by
    rw [e1]; simp
  have e3 : buf = (pre ++ ws ++ p.key.text)
      ++ (p.ws1 ++ 61 :: (p.ws2 ++ (p.value ++ (p.ws3 ++ rest)))) := by
    rw [e1]; simp
  have e4 : buf = (pre ++ ws ++ p.key.text ++ p.ws1)
      ++ (61 :: (p.ws2 ++ (p.value ++ (p.ws3 ++ rest)))) := by
    rw [e1]; simp
  have e5 : buf = (pre ++ ws ++ p.key.text ++ p.ws1 ++ [61])
      ++ (p.ws2 ++ (p.value ++ (p.ws3 ++ rest))) := by
    rw [e1]; simp
  have l2 : (pre ++ ws).length = pre.length + ws.length := by simp
  have l3 : (pre ++ ws ++ p.key.text).length = pre.length + ws.length + p.key.text.length := by
    simp only [List.length_append]
  have l4 : (pre ++ ws ++ p.key.text ++ p.ws1).length
      = pre.length + ws.length + p.key.text.length + p.ws1.length := by
    simp only [List.length_append]
  have l5 : (pre ++ ws ++ p.key.text ++ p.ws1 ++ [61]).length
      = pre.length + ws.length + p.key.text.length + p.ws1.length + 1 := by
    simp only [List.length_append, List.length_cons, List.length_nil]
  have hq : pre.length + ws.length + p.value_offset
      = pre.length + ws.length + p.key.text.length + p.ws1.length + 1 + p.ws2.length := by
    simp only [Pair.value_offset]; omega
  -- the four cursors on the original buffer
  have k1 : lstrip buf pre.length = pre.length + ws.length := by
    rw [e1]; exact lstrip_run ws pre _ hws (Or.inr (key_text_head p.key _).2)
  have k2 : read_key buf (pre.length + ws.length)
      = pre.length + ws.length + p.key.text.length := by
    rw [← l2, e2]
    exact read_key_run p.key.text (pre ++ ws) _ (key_text_keychar p.key)
      (blank_or_eq_head p.ws1 _ hw1)
  have k3 : lstrip buf (pre.length + ws.length + p.key.text.length)
      = pre.length + ws.length + p.key.text.length + p.ws1.length := by
    rw [← l3, e3]
    exact lstrip_run p.ws1 (pre ++ ws ++ p.key.text) _ hw1 (Or.inr rfl)
  have k4 : rd buf (pre.length + ws.length + p.key.text.length + p.ws1.length) = 61 := by
    rw [← l4, e4, rd_append_length]; rfl
  have k5 : lstrip buf (pre.length + ws.length + p.key.text.length + p.ws1.length + 1)
      = pre.length + ws.length + p.value_offset := by
    have hrest : rd (p.value ++ (p.ws3 ++ rest)) 0
        = rd buf (pre.length + ws.length + p.value_offset) := by
      rw [hq, ← l5]
      conv_rhs => rw [e5]
      rw [rd_append_right]
      have : p.ws2 ++ (p.value ++ (p.ws3 ++ rest)) = p.ws2 ++ (p.value ++ (p.ws3 ++ rest)) := rfl
      have := rd_append_right p.ws2 (p.value ++ (p.ws3 ++ rest)) 0
      simpa using this.symm
    rw [hq, ← l5, e5]
    have := lstrip_run p.ws2 (pre ++ ws ++ p.key.text ++ p.ws1 ++ [61]) _ hw2
      (Or.inr (by rw [hrest]; exact hfirst.2))
    rw [this]
  have k6 : slice buf (pre.length + ws.length) p.key.text.length = p.key.text := by
    rw [← l2, e2]; exact slice_append _ _ _
  -- the same cursors on the current buffer
  have c1 : lstrip b pre.length = pre.length + ws.length := by
    rw [lstrip_congr b buf pre.length pre.length hag (le_refl _), k1]
  have c2 : read_key b (pre.length + ws.length) = pre.length + ws.length + p.key.text.length := by
    rw [read_key_congr b buf pre.length _ hag (by omega), k2]
  have c3 : lstrip b (pre.length + ws.length + p.key.text.length)
      = pre.length + ws.length + p.key.text.length + p.ws1.length := by
    rw [lstrip_congr b buf pre.length _ hag (by omega), k3]
  have c4 : rd b (pre.length + ws.length + p.key.text.length + p.ws1.length) = 61 := by
    rw [hag.2 _ (by omega), k4]
  have c5 : lstrip b (pre.length + ws.length + p.key.text.length + p.ws1.length + 1)
      = pre.length + ws.length + p.value_offset := by
    rw [lstrip_congr b buf pre.length _ hag (by omega), k5]
  have c6 : slice b (pre.length + ws.length) p.key.text.length = p.key.text := by
    rw [slice_congr b buf _ _ (fun i h1 _ => hag.2 i (by omega)), k6]
  have hstep := step_of_key b pre.length row p.key
    (by rw [c1, c2, Nat.add_sub_cancel_left]; exact c6) (by rw [c1, c2, c3]; exact c4)
  rw [c1, c2, c3, c5,
    store_congr p.key b buf pre.length _ row hag (by omega), hacc] at hstep
  refine ⟨b.set (pre.length + ws.length + p.key.text.length) 0, ?_, ?_⟩
  · rw [hstep]; rfl
  · exact (agreeFrom_set b _ 0 _ (by rw [hq]; omega)).trans (hag.mono (by omega))

theorem psrcs_cons (p : Pair) (ps : List Pair) : psrcs (p :: ps) = p.src ++ psrcs ps := by
  simp [psrcs]

theorem pair_src_length (p : Pair) :
    p.src.length = p.value_offset + p.value.length + p.ws3.length := by
  simp only [Pair.src, Pair.value_offset, List.length_append, List.length_cons]
  omega

theorem lstrip_eq_self (buf : List Nat) (str : Nat)
    (h : rd buf str = 0 ∨ isspace (rd buf str) = false) : lstrip buf str = str := by
  unfold lstrip
  cases buf.length - str with
  | zero => rfl
  | succ f =>
    simp only [lstrip_loop]
    rcases h with h | h <;> simp [h]

theorem step_lstrip (buf : List Nat) (line : Nat) (row : ConfigRow) :
    read_config_row_step buf (lstrip buf line) row = read_config_row_step buf line row := by
  unfold read_config_row_step
  rw [lstrip_eq_self buf (lstrip buf line) (lstrip_stop buf line)]

/-- The last iteration: the rest of the line is whitespace, an optional comment and the
final newline. -/
theorem step_end (buf b pre ws comment tail : List Nat) (row : ConfigRow)
    (hbuf : buf = pre ++ (ws ++ (comment ++ 10 :: tail))) (hws : IsBlank ws)
    (hcomment : comment = [] ∨ rd comment 0 = 35) (htail : rd tail 0 = 0)
    (hag : AgreeFrom pre.length b buf) :
    read_config_row_step b pre.length row = .done row := by
  have hdone : ∀ pos, lstrip buf pre.length = pos → (rd buf pos = 0 ∨ rd buf pos = 35) →
      read_config_row_step b pre.length row = .done row := by
    intro pos hpos hrd
    have hge : pre.length ≤ pos := by rw [← hpos]; exact lstrip_ge buf _
    have hrdb : rd b pos = 0 ∨ rd b pos = 35 := by rw [hag.2 pos hge]; exact hrd
    have hk : read_key b pos = pos := by
      apply read_key_eq_self
      rcases hrdb with h | h
      · exact Or.inl h
      · right; rw [h]; rfl
    unfold read_config_row_step
    simp only [lstrip_congr b buf pre.length pre.length hag (le_refl _), hpos, hk, if_true]
    rw [if_pos hrdb]
  rcases hcomment with rfl | hc
  · have hb : buf = pre ++ ((ws ++ [10]) ++ tail) := by rw [hbuf]; simp
    have hblank : IsBlank (ws ++ [10]) := by
      intro c hc
      rcases List.mem_append.mp hc with h | h
      · exact hws c h
      · simp only [List.mem_singleton] at h; subst h; rfl
    have hl : lstrip buf pre.length = pre.length + (ws ++ [10]).length := by
      rw [hb]; exact lstrip_run (ws ++ [10]) pre tail hblank (Or.inl htail)
    refine hdone _ hl (Or.inl ?_)
    have hb2 : buf = (pre ++ (ws ++ [10])) ++ tail := by rw [hb]; simp
    have hlen2 : pre.length + (ws ++ [10]).length = (pre ++ (ws ++ [10])).length := by
      simp only [List.length_append]
    rw [hlen2]
    conv_lhs => rw [hb2]
    rw [rd_append_length, htail]
  · have hr0 : rd (comment ++ 10 :: tail) 0 = 35 := by
      cases comment with
      | nil => simp at hc
      | cons c r => exact hc
    have hl : lstrip buf pre.length = pre.length + ws.length := by
      rw [hbuf]; exact lstrip_run ws pre _ hws (Or.inr (by rw [hr0]; rfl))
    refine hdone _ hl (Or.inr ?_)
    have hb2 : buf = (pre ++ ws) ++ (comment ++ 10 :: tail) := by rw [hbuf]; simp
    have hlen2 : pre.length + ws.length = (pre ++ ws).length := by
      simp only [List.length_append]
    rw [hlen2]
    conv_lhs => rw [hb2]
    rw [rd_append_length, hr0]

/-- The loop of `read_config_row` over accepted pairs, up to the end of the line. -/
theorem pairs_loop (buf comment tail : List Nat)
    (hcomment : comment = [] ∨ rd comment 0 = 35) (htail : rd tail 0 = 0) :
    ∀ (ps : List Pair) (pre ws b : List Nat) (row : ConfigRow) (fuel : Nat),
      buf = pre ++ (ws ++ (psrcs ps ++ (comment ++ 10 :: tail))) → IsBlank ws →
      (∀ p ∈ ps, p.wf) → Accepted buf (pre.length + ws.length) ps → RowSized row →
      AgreeFrom pre.length b buf → b.length + 1 ≤ fuel + pre.length →
      read_config_row_loop fuel b pre.length row
        = some (true, store_all buf (pre.length + ws.length) ps row) := by
  intro ps
  induction ps with
  | nil =>
    intro pre ws b row fuel hbuf hws _ _ _ hag hfuel
    have hlen : pre.length ≤ b.length := by
      rw [hag.1, hbuf]; simp only [List.length_append]; omega
    obtain ⟨f, rfl⟩ : ∃ f, fuel = f + 1 := ⟨fuel - 1, by omega⟩
    have hbuf1 : buf = pre ++ (ws ++ (comment ++ 10 :: tail)) := by rw [hbuf]; simp [psrcs]
    rw [read_config_row_loop, step_end buf b pre ws comment tail row hbuf1 hws hcomment htail hag]
    rfl
  | cons p r ih =>
    intro pre ws b row fuel hbuf hws hwf hacc hsized hag hfuel
    obtain ⟨hacc1, hacc2⟩ := hacc
    have hp : p.wf := hwf p (List.mem_cons_self _ _)
    have hbuf1 : buf = pre ++ (ws ++ (p.src ++ (psrcs r ++ (comment ++ 10 :: tail)))) := by
      rw [hbuf, psrcs_cons]; simp
    have hsd := store_eq_decode p.key buf (pre.length + ws.length + p.value_offset) row hsized
    have hfirst := decode_ok_first p.key buf (pre.length + ws.length + p.value_offset)
      (by rw [hacc1])
    obtain ⟨b1, hstep, hag1⟩ := pair_step buf b pre ws _ p row hbuf1 hws hp hag
      (by rw [hsd.1, hacc1]) hfirst
    have hlen : pre.length + ws.length + p.src.length ≤ b.length := by
      rw [hag.1, hbuf1]; simp only [List.length_append]; omega
    have hsl := pair_src_length p
    have hoff : 1 ≤ p.value_offset := by
      simp only [Pair.value_offset]; omega
    obtain ⟨f, rfl⟩ : ∃ f, fuel = f + 1 := ⟨fuel - 1, by omega⟩
    rw [read_config_row_loop, hstep]
    simp only []
    -- the state after the pair
    have hpre : buf = (pre ++ ws ++ p.key.text ++ p.ws1 ++ [61] ++ p.ws2 ++ p.value)
        ++ (p.ws3 ++ (psrcs r ++ (comment ++ 10 :: tail))) := by
      rw [hbuf1]; simp [Pair.src]
    have hprelen : (pre ++ ws ++ p.key.text ++ p.ws1 ++ [61] ++ p.ws2 ++ p.value).length
        = pre.length + ws.length + p.value_offset + p.value.length := by
      simp only [List.length_append, List.length_cons, List.length_nil, Pair.value_offset]
      omega
    have hnext : pre.length + ws.length + p.value_offset + p.value.length + p.ws3.length
        = pre.length + ws.length + p.src.length := by omega
    have := ih (pre ++ ws ++ p.key.text ++ p.ws1 ++ [61] ++ p.ws2 ++ p.value) p.ws3 b1
      (store p.key buf (pre.length + ws.length + p.value_offset) row).2 f hpre hp.2.2
      (fun x hx => hwf x (List.mem_cons_of_mem _ hx))
      (by rw [hprelen, hnext]; exact hacc2) (store_sized _ _ _ _ hsized)
      (by rw [hprelen]; exact hag1) (by have h1 := hag1.1; have h2 := hag.1; omega)
    rw [hprelen] at this
    rw [this, hnext]
    rfl

theorem store_all_spec (buf : List Nat) (ps : List Pair) :
    ∀ (s : Nat) (row : ConfigRow), RowSized row → Accepted buf s ps →
      (ps.map Pair.key).Nodup →
      (∀ k, (store_all buf s ps row).has k = true ↔ (k ∈ ps.map Pair.key ∨ row.has k = true))
      ∧ (∀ kv ∈ decoded buf s ps, (store_all buf s ps row).field kv.1 = kv.2)
      ∧ (∀ k, k ∉ ps.map Pair.key → (store_all buf s ps row).field k = row.field k) := by
  induction ps with
  | nil =>
    intro s row _ _ _
    refine ⟨fun k => by simp [store_all], fun kv h => by simp [decoded] at h, fun k _ => rfl⟩
  | cons p r ih =>
    intro s row hsized hacc hnd
    obtain ⟨hacc1, hacc2⟩ := hacc
    have hnd' : p.key ∉ r.map Pair.key ∧ (r.map Pair.key).Nodup := by
      simpa [List.nodup_cons] using hnd
    have hsd := store_eq_decode p.key buf (s + p.value_offset) row hsized
    have hok : (decode p.key buf (s + p.value_offset)).1.ok = true := by rw [hacc1]
    obtain ⟨i1, i2, i3⟩ := ih (s + p.src.length) (store p.key buf (s + p.value_offset) row).2
      (store_sized _ _ _ _ hsized) hacc2 hnd'.2
    refine ⟨fun k => ?_, fun kv hkv => ?_, fun k hk => ?_⟩
    · simp only [store_all, List.map_cons, List.mem_cons]
      rw [i1 k]
      by_cases hk : k = p.key
      · subst hk
        have : (store p.key buf (s + p.value_offset) row).2.has p.key = true := by
          rw [store_has, ← store_stat, hsd.1, hok]
        simp [this]
      · rw [store_has_other p.key k buf _ row hk]
        simp [hk]
    · simp only [decoded, List.mem_cons] at hkv
      rcases hkv with rfl | hkv
      · simp only [store_all]
        rw [i3 p.key hnd'.1]
        exact hsd.2 hok
      · exact i2 kv hkv
    · simp only [List.map_cons, List.mem_cons, not_or] at hk
      simp only [store_all]
      rw [i3 k hk.2, store_field_other p.key k buf _ row hk.1]

theorem clear_flags_has (row : ConfigRow) (k : Key) : (clear_flags row).has k = false := by
  cases k <;> rfl

/-- The parse (lines 186 to 277) on a buffer that holds a line made of optional leading
whitespace, `key=value` pairs with pairwise distinct keys (optional whitespace around `=`
and after the value), an optional `#` comment and the final newline, in which the decoder
of every value succeeds and stops right after the text of the value: the parse returns
true and, whatever the row held before (its arrays having their declared sizes), a
presence flag is true exactly when its key occurs in the line, the field of each key that
occurs holding the decoded value. -/
theorem read_config_row_accepts_pairs (ws0 : List Nat) (ps : List Pair)
    (comment tail : List Nat) (row : ConfigRow) (buf : List Nat)
    (hbuf : buf = ws0 ++ (psrcs ps ++ (comment ++ 10 :: tail)))
    (hws0 : IsBlank ws0) (hps : ∀ p ∈ ps, p.wf) (hnodup : (ps.map Pair.key).Nodup)
    (hcomment : comment = [] ∨ rd comment 0 = 35) (htail : rd tail 0 = 0)
    (hrow : RowSized row) (hacc : Accepted buf ws0.length ps) :
    ∃ row1, read_config_row_parse buf (lstrip buf 0) row = some (true, row1)
      ∧ (∀ k, row1.has k = true ↔ k ∈ ps.map Pair.key)
      ∧ (∀ kv ∈ decoded buf ws0.length ps, row1.field kv.1 = kv.2) := by
  have hloop := pairs_loop buf comment tail hcomment htail ps [] ws0 buf (clear_flags row)
    (buf.length + 1) (by rw [hbuf]; rfl) hws0 hps (by simpa using hacc) hrow
    ⟨rfl, fun _ _ => rfl⟩ (by simp)
  simp only [List.length_nil, Nat.zero_add] at hloop
  obtain ⟨s1, s2, _⟩ := store_all_spec buf ps ws0.length (clear_flags row) hrow hacc hnodup
  refine ⟨store_all buf ws0.length ps (clear_flags row), ?_, fun k => ?_, s2⟩
  · unfold read_config_row_parse
    rw [read_config_row_loop, step_lstrip, ← hloop, read_config_row_loop]
  · rw [s1 k, clear_flags_has]
    simp

theorem read_config_row_accepts_pairs_witness :
    -- the lines "pnp=\"ACI\" dpi=96" and "  # hello"
    (∃ row1, read_config_row_parse [112, 110, 112, 61, 34, 65, 67, 73, 34, 32, 100, 112, 105, 61, 57, 54, 10] 0 example_row = some (true, row1)
      ∧ (∀ k, row1.has k = true ↔ k ∈ [Key.pnp, Key.dpi])
      ∧ row1.field .pnp = .inl [65, 67, 73, 0] ∧ row1.field .dpi = .inr 96)
    ∧ (∃ row1, read_config_row_parse [32, 32, 35, 32, 104, 101, 108, 108, 111, 10] 2 example_row = some (true, row1)
      ∧ (∀ k, row1.has k = true ↔ k ∈ ([] : List Key))) := by
  constructor
  · obtain ⟨row1, h1, h2, h3⟩ := read_config_row_accepts_pairs []
      [{ key := .pnp, ws1 := [], ws2 := [], value := [34, 65, 67, 73, 34], ws3 := [32] },
       { key := .dpi, ws1 := [], ws2 := [], value := [57, 54], ws3 := [] }]
      [] [] example_row [112, 110, 112, 61, 34, 65, 67, 73, 34, 32, 100, 112, 105, 61, 57, 54, 10] (by decide) (by simp [IsBlank])
      (by simp [Pair.wf, IsBlank, isspace]) (by decide) (Or.inl rfl) rfl
      ⟨rfl, rfl, rfl⟩ ⟨by decide, by decide, trivial⟩
    exact ⟨row1, h1, h2, h3 (.pnp, .inl [65, 67, 73, 0]) (List.mem_cons_self _ _),
      h3 (.dpi, .inr 96) (List.mem_cons_of_mem _ (List.mem_cons_self _ _))⟩
  · obtain ⟨row1, h1, h2, _⟩ := read_config_row_accepts_pairs [32, 32] []
      [35, 32, 104, 101, 108, 108, 111] [] example_row [32, 32, 35, 32, 104, 101, 108, 108, 111, 10] (by decide)
      (by simp [IsBlank, isspace]) (by simp) (by decide) (Or.inr rfl) rfl
      ⟨rfl, rfl, rfl⟩ trivial
    exact ⟨row1, h1, h2⟩

/-! ## The fuel of the loops

The loops are run with the distance from the cursor to the end of the buffer as fuel.
More fuel gives the same result, and the loop of `read_config_row` always returns. -/

theorem lstrip_loop_fuel (buf : List Nat) (fuel : Nat) :
    ∀ str, buf.length - str ≤ fuel → lstrip_loop buf fuel str = lstrip buf str := by
  induction fuel with
  | zero =>
    intro str h
    unfold lstrip
    rw [show buf.length - str = 0 by omega]
  | succ f ih =>
    intro str h
    unfold lstrip
    cases hl : buf.length - str with
    | zero =>
      have h0 : rd buf str = 0 := rd_of_length_le buf str (by omega)
      simp [lstrip_loop, h0]
    | succ g =>
      simp only [lstrip_loop]
      split
      · rw [ih (str + 1) (by omega)]
        unfold lstrip
        rw [show buf.length - (str + 1) = g by omega]
      · rfl

theorem read_key_loop_fuel (buf : List Nat) (fuel : Nat) :
    ∀ str, buf.length - str ≤ fuel → read_key_loop buf fuel str = read_key buf str := by
  induction fuel with
  | zero =>
    intro str h
    unfold read_key
    rw [show buf.length - str = 0 by omega]
  | succ f ih =>
    intro str h
    unfold read_key
    cases hl : buf.length - str with
    | zero =>
      have h0 : rd buf str = 0 := rd_of_length_le buf str (by omega)
      simp [read_key_loop, h0]
    | succ g =>
      simp only [read_key_loop]
      split
      · rw [ih (str + 1) (by omega)]
        unfold read_key
        rw [show buf.length - (str + 1) = g by omega]
      · rfl

theorem read_unsigned_loop_fuel (buf : List Nat) (h o b : Bool) (f1 : Nat) :
    ∀ f2 str val slot, buf.length - str ≤ f1 → buf.length - str ≤ f2 →
      read_unsigned_loop buf h o b f1 str val slot
        = read_unsigned_loop buf h o b f2 str val slot := by
  induction f1 with
  | zero =>
    intro f2 str val slot h1 _
    have h0 : rd buf str = 0 := rd_of_length_le buf str (by omega)
    cases f2 with
    | zero => rfl
    | succ g => simp [read_unsigned_loop, h0]
  | succ f ih =>
    intro f2 str val slot h1 h2
    cases f2 with
    | zero =>
      have h0 : rd buf str = 0 := rd_of_length_le buf str (by omega)
      simp [read_unsigned_loop, h0]
    | succ g =>
      simp only [read_unsigned_loop]
      by_cases h0 : rd buf str = 0
      · simp [h0]
      · by_cases hsp : isspace (rd buf str) = true
        · simp [h0, hsp]
        · simp only [h0, hsp, if_false, Bool.false_eq_true, reduceIte]
          cases accumulate h o b val (rd buf str) with
          | none => rfl
          | some v1 =>
            simp only []
            by_cases hv : v1 > 65535
            · simp [hv]
            · simp only [hv, if_false, reduceIte]
              exact ih g (str + 1) v1 slot (by omega) (by omega)

theorem read_string_loop_fuel (buf : List Nat) (cap f1 : Nat) :
    ∀ f2 str mem ptr, buf.length - str ≤ f1 → buf.length - str ≤ f2 →
      read_string_loop buf cap f1 str mem ptr = read_string_loop buf cap f2 str mem ptr := by
  induction f1 with
  | zero =>
    intro f2 str mem ptr h1 _
    have h0 : rd buf str = 0 := rd_of_length_le buf str (by omega)
    cases f2 with
    | zero => rfl
    | succ g => simp [read_string_loop, h0]
  | succ f ih =>
    intro f2 str mem ptr h1 h2
    cases f2 with
    | zero =>
      have h0 : rd buf str = 0 := rd_of_length_le buf str (by omega)
      simp [read_string_loop, h0]
    | succ g =>
      simp only [read_string_loop]
      by_cases h34 : rd buf str = 34
      · simp [h34]
      · by_cases h0 : rd buf str = 0
        · simp [h0]
        · simp only [h34, h0, if_false]
          by_cases h92 : rd buf str = 92
          · simp only [h92, if_true]
            cases he : read_escape buf (str + 1) with
            | error st => rfl
            | ok r =>
              obtain ⟨s, c⟩ := r
              have := read_escape_ge buf (str + 1) s c he
              simp only []
              split
              · rfl
              · exact ih g _ _ _ (by omega) (by omega)
          · simp only [h92, if_false]
            split
            · rfl
            · exact ih g _ _ _ (by omega) (by omega)

/-- The loop of `read_config_row` returns, whatever the buffer, with the fuel it is given. -/
theorem read_config_row_loop_returns (fuel : Nat) :
    ∀ (buf : List Nat) (line : Nat) (row : ConfigRow), 1 ≤ fuel → buf.length < fuel + line →
      ∃ r, read_config_row_loop fuel buf line row = some r := by
  induction fuel with
  | zero => intro buf line row h _; omega
  | succ f ih =>
    intro buf line row _ hlt
    rw [read_config_row_loop]
    cases hs : read_config_row_step buf line row with
    | done r => exact ⟨_, rfl⟩
    | fail r => exact ⟨_, rfl⟩
    | next b1 l1 r1 =>
      obtain ⟨e1, e2, e3⟩ := step_next_bounds buf line row b1 l1 r1 hs
      exact ih b1 l1 r1 (by omega) (by omega)

/-- The line parse of `read_config_row` returns on every buffer. -/
theorem read_config_row_parse_returns (buf : List Nat) (line : Nat) (row : ConfigRow) :
    ∃ r, read_config_row_parse buf line row = some r :=
  read_config_row_loop_returns (buf.length + 1) buf line (clear_flags row) (by omega) (by omega)

/-! ## The destination of `read_string` -/

theorem read_string_loop_dest (buf : List Nat) (cap fuel : Nat) :
    ∀ str mem ptr, ptr < cap → cap ≤ mem.length → rd mem (cap - 1) = 0 →
      (read_string_loop buf cap fuel str mem ptr).2.length = mem.length
      ∧ (∀ i, cap ≤ i → rd (read_string_loop buf cap fuel str mem ptr).2 i = rd mem i)
      ∧ rd (read_string_loop buf cap fuel str mem ptr).2 (cap - 1) = 0 := by
  induction fuel with
  | zero => intro str mem ptr _ _ h0; exact ⟨rfl, fun _ _ => rfl, h0⟩
  | succ f ih =>
    intro str mem ptr hp hc h0
    have key : ∀ (s b : Nat),
        (if ptr + 1 = cap then (STAT_OVERFLOW s 0, (mem.set ptr b).set ptr 0)
          else read_string_loop buf cap f (s + 1) (mem.set ptr b) (ptr + 1)).2.length = mem.length
        ∧ (∀ i, cap ≤ i →
          rd (if ptr + 1 = cap then (STAT_OVERFLOW s 0, (mem.set ptr b).set ptr 0)
            else read_string_loop buf cap f (s + 1) (mem.set ptr b) (ptr + 1)).2 i = rd mem i)
        ∧ rd (if ptr + 1 = cap then (STAT_OVERFLOW s 0, (mem.set ptr b).set ptr 0)
            else read_string_loop buf cap f (s + 1) (mem.set ptr b) (ptr + 1)).2 (cap - 1) = 0 := by
      intro s b
      by_cases hcap : ptr + 1 = cap
      · simp only [hcap, if_true]
        refine ⟨by simp, fun i hi => ?_, ?_⟩
        · rw [rd_set_ne _ _ _ _ (by omega), rd_set_ne _ _ _ _ (by omega)]
        · rw [show cap - 1 = ptr by omega]
          exact rd_set_eq _ _ _ (by simp; omega)
      · simp only [hcap, if_false]
        obtain ⟨i1, i2, i3⟩ := ih (s + 1) (mem.set ptr b) (ptr + 1) (by omega) (by simp; omega)
          (by rw [rd_set_ne _ _ _ _ (by omega)]; exact h0)
        refine ⟨by rw [i1]; simp, fun i hi => ?_, i3⟩
        rw [i2 i hi, rd_set_ne _ _ _ _ (by omega)]
    rw [read_string_loop]
    by_cases h34 : rd buf str = 34
    · rw [if_pos h34]; exact ⟨rfl, fun _ _ => rfl, h0⟩
    · by_cases hz : rd buf str = 0
      · rw [if_neg h34, if_pos hz]; exact ⟨rfl, fun _ _ => rfl, h0⟩
      · simp only [h34, hz, if_false]
        by_cases h92 : rd buf str = 92
        · simp only [h92, if_true]
          cases read_escape buf (str + 1) with
          | error st => exact ⟨rfl, fun _ _ => rfl, h0⟩
          | ok r => exact key r.1 r.2
        · simp only [h92, if_false]
          exact key str (rd buf str)

/-- Claim C11: for every buffer, every cursor and every capacity `N` of at least 1, whatever
the outcome of `read_string`, the destination keeps its size, every byte at an index from
`N` on is the byte that was there before the call, and the byte at index `N - 1` is zero:
only the indices `0` to `N - 1` are written and the string ends within the capacity. -/
theorem read_string_within_capacity (buf : List Nat) (str : Nat) (mem : List Nat) (N : Nat)
    (hN : 1 ≤ N) (hmem : N ≤ mem.length) :
    (read_string buf str mem N).2.length = mem.length
    ∧ (∀ i, N ≤ i → rd (read_string buf str mem N).2 i = rd mem i)
    ∧ rd (read_string buf str mem N).2 (N - 1) = 0 := by
  have hlen : (memset0 mem N).length = mem.length := by
    simp only [memset0, List.length_append, List.length_replicate, List.length_drop]; omega
  have hfar : ∀ i, N ≤ i → rd (memset0 mem N) i = rd mem i := by
    intro i hi
    obtain ⟨j, rfl⟩ : ∃ j, i = N + j := ⟨i - N, by omega⟩
    have := rd_append_right (List.replicate N 0) (mem.drop N) j
    simp only [List.length_replicate] at this
    rw [memset0, this]
    simp [rd, List.getD_eq_getElem?_getD]
  have hlast : rd (memset0 mem N) (N - 1) = 0 := by
    rw [memset0, rd_append_left _ _ _ (by simp; omega)]
    simp [rd, List.getD_eq_getElem?_getD, List.getElem?_replicate]
    split <;> rfl
  unfold read_string
  simp only []
  split
  · exact ⟨hlen, hfar, hlast⟩
  · obtain ⟨i1, i2, i3⟩ := read_string_loop_dest buf N (buf.length - (str + 1)) (str + 1)
      (memset0 mem N) 0 (by omega) (by omega) hlast
    exact ⟨by rw [i1, hlen], fun i hi => by rw [i2 i hi, hfar i hi], i3⟩

theorem read_string_within_capacity_witness :
    -- the literals "ABCDEFG" (truncated), "AB" (success) and "A\q" (failure) into 4 of 6 bytes
    read_string [34, 65, 66, 67, 68, 69, 70, 71, 34] 0 [1, 2, 3, 4, 5, 6] 4
        = ({ next := 4, ok := true, overflow := true }, [65, 66, 67, 0, 5, 6])
    ∧ read_string [34, 65, 66, 34] 0 [1, 2, 3, 4, 5, 6] 4
        = ({ next := 4, ok := true, overflow := false }, [65, 66, 0, 0, 5, 6])
    ∧ read_string [34, 65, 92, 113, 34] 0 [1, 2, 3, 4, 5, 6] 4
        = ({ next := 3, ok := false, overflow := false }, [65, 0, 0, 0, 5, 6])
    ∧ (read_string [34, 65, 66, 67, 68, 69, 70, 71, 34] 0 [1, 2, 3, 4, 5, 6] 4).2.length = 6
    ∧ (∀ i, 4 ≤ i → rd (read_string [34, 65, 66, 67, 68, 69, 70, 71, 34] 0 [1, 2, 3, 4, 5, 6] 4).2 i
        = rd [1, 2, 3, 4, 5, 6] i)
    ∧ rd (read_string [34, 65, 66, 67, 68, 69, 70, 71, 34] 0 [1, 2, 3, 4, 5, 6] 4).2 (4 - 1) = 0 :=
  ⟨by decide, by decide, by decide,
   read_string_within_capacity [34, 65, 66, 67, 68, 69, 70, 71, 34] 0 [1, 2, 3, 4, 5, 6] 4
     (by decide) (by decide)⟩

/-! ## Escapes that `read_string` rejects -/

theorem simple_escape_none (c : Nat) (h : simple_escape c = none) :
    c ≠ 97 ∧ c ≠ 98 ∧ c ≠ 101 ∧ c ≠ 102 ∧ c ≠ 110 ∧ c ≠ 114 ∧ c ≠ 116 ∧ c ≠ 118
      ∧ c ≠ 63 ∧ c ≠ 92 ∧ c ≠ 39 ∧ c ≠ 34 := by
  refine ⟨?_, ?_, ?_, ?_, ?_, ?_, ?_, ?_, ?_, ?_, ?_, ?_⟩ <;>
    (intro h1; rw [h1] at h; exact absurd h (by decide))

/-- The `switch` of `read_string` on a character that has no `case` but `default`. -/
theorem read_escape_default (buf : List Nat) (str : Nat)
    (h : simple_escape (rd buf str) = none) (hx : rd buf str ≠ 120) :
    read_escape buf str
      = if ¬ (48 ≤ rd buf str ∧ rd buf str < 52) then .error (STAT_FAIL str 0)
        else if rd buf str = 48 ∧ isodigit (rd buf (str + 1)) = false then .ok (str, 0)
        else if isodigit (rd buf (str + 1)) = false then .error (STAT_FAIL str 1)
        else if isodigit (rd buf (str + 2)) = false then .error (STAT_FAIL str 2)
        else .ok (str + 2,
          (xdigit_table (rd buf str) * 2 ^ 6 + xdigit_table (rd buf (str + 1)) * 2 ^ 3
            + xdigit_table (rd buf (str + 2))) % 256) := by
  obtain ⟨n1, n2, n3, n4, n5, n6, n7, n8, n9, n10, n11, n12⟩ := simple_escape_none _ h
  unfold read_escape
  simp only []
  rw [if_neg n1, if_neg n2, if_neg n3, if_neg n4, if_neg n5, if_neg n6, if_neg n7, if_neg n8,
    if_neg n9, if_neg n10, if_neg n11, if_neg n12, if_neg hx]

theorem simple_escape_digit (c : Nat) (h1 : 48 ≤ c) (h2 : c ≤ 57) : simple_escape c = none := by
  interval_cases c <;> rfl

/-- A failing escape after items that fit the capacity makes `read_string` fail. -/
theorem read_string_escape_error (its : List Item) (pre rest mem : List Nat) (cap : Nat)
    (st : ReadStat) (hw : WfItems its (92 :: rest)) (hlt : its.length < cap)
    (he : read_escape (pre ++ (34 :: (srcs its ++ 92 :: rest)))
      (pre.length + 1 + (srcs its).length + 1) = .error st) :
    (read_string (pre ++ (34 :: (srcs its ++ 92 :: rest))) pre.length mem cap).1 = st := by
  rw [read_string_after_items its pre _ mem cap hw hlt]
  have hb : pre ++ (34 :: (srcs its ++ 92 :: rest)) = (pre ++ 34 :: srcs its) ++ (92 :: rest) := by
    simp
  have hl : pre.length + 1 + (srcs its).length = (pre ++ 34 :: srcs its).length := by
    simp only [List.length_append, List.length_cons]; omega
  have hf : (srcs its).length - its.length + (92 :: rest).length
      = ((srcs its).length - its.length + rest.length) + 1 := by
    simp only [List.length_cons]; omega
  have h92 : rd (pre ++ (34 :: (srcs its ++ 92 :: rest))) (pre.length + 1 + (srcs its).length)
      = 92 := by
    rw [hb, hl, rd_append_length]; rfl
  rw [hf, read_string_loop]
  simp only [h92, he]
  simp

/-- The bytes after the backslash that follows the items `its` of a literal. -/
theorem rd_after_backslash (its : List Item) (pre rest : List Nat) (i : Nat) :
    rd (pre ++ (34 :: (srcs its ++ 92 :: rest))) (pre.length + 1 + (srcs its).length + 1 + i)
      = rd rest i := by
  have hb : pre ++ (34 :: (srcs its ++ 92 :: rest)) = (pre ++ 34 :: srcs its ++ [92]) ++ rest := by
    simp
  have hl : pre.length + 1 + (srcs its).length + 1 = (pre ++ 34 :: srcs its ++ [92]).length := by
    simp only [List.length_append, List.length_cons, List.length_nil]; omega
  rw [hb, hl, rd_append_right]

theorem simple_escape_of_table (e b : Nat) (h : (e, b) ∈ escape_table) :
    simple_escape e = some b := by
  have hall : ∀ p ∈ escape_table, simple_escape p.1 = some p.2 := by decide
  exact hall (e, b) h

theorem simple_escape_not_in_table (c : Nat) (h : ∀ p ∈ escape_table, c ≠ p.1) :
    simple_escape c = none := by
  have m : ∀ e b, (e, b) ∈ escape_table → ¬ c = e := fun e b hm => h (e, b) hm
  unfold simple_escape
  rw [if_neg (m 97 7 (by decide)), if_neg (m 98 8 (by decide)), if_neg (m 101 27 (by decide)),
    if_neg (m 102 12 (by decide)), if_neg (m 110 10 (by decide)), if_neg (m 114 13 (by decide)),
    if_neg (m 116 9 (by decide)), if_neg (m 118 11 (by decide)), if_neg (m 63 63 (by decide)),
    if_neg (m 92 92 (by decide)), if_neg (m 39 39 (by decide)), if_neg (m 34 34 (by decide))]

/-- The decoding of a well-formed literal around one of its items. -/
theorem read_string_literal_around (its1 its2 : List Item) (it : Item) (pre tail mem : List Nat)
    (cap : Nat) (hw : WfItems (its1 ++ it :: its2) (34 :: tail))
    (hlt : its1.length + 1 + its2.length < cap) :
    read_string (pre ++ (34 :: (srcs its1 ++ it.src ++ srcs its2 ++ 34 :: tail))) pre.length mem cap
      = ({ next := pre.length + (srcs its1).length + it.src.length + (srcs its2).length + 2,
           ok := true, overflow := false },
         bytes its1 ++ it.byte :: bytes its2
           ++ (List.replicate (cap - (its1.length + 1 + its2.length)) 0 ++ mem.drop cap)) := by
  have h := read_string_literal_ok (its1 ++ it :: its2) pre tail mem cap hw
    (by simp only [List.length_append, List.length_cons]; omega)
  simp only [srcs_append, srcs_cons, bytes, List.map_append, List.map_cons,
    List.length_append, List.length_cons, List.length_nil] at h
  simp only [bytes, List.append_assoc, List.cons_append, List.nil_append] at h ⊢
  rw [h]
  refine Prod.ext ?_ ?_
  · simp only [ReadStat.mk.injEq, and_true]; omega
  · simp only [List.append_cancel_left_eq, List.cons.injEq, true_and]
    congr 2
    omega

/-- Claim C19: inside a quoted literal the escape of three octal digits `d1 d2 d3` with
`d1` in 0 to 3 decodes to the single byte `64 * d1 + 8 * d2 + d3`, which is at most 255.
When a digit 1 to 3 after the backslash is followed by a character that is no octal
digit, `read_string` fails with the cursor on that character; when a digit 0 to 3 and
one octal digit are followed by a character that is no octal digit, it fails with the
cursor on that character; a digit 4 to 9 after the backslash is a failure with the
cursor on the digit. -/
theorem read_string_octal_digits (pre mem : List Nat) (cap : Nat) :
    (∀ (its1 its2 : List Item) (tail : List Nat) (d1 d2 d3 : Nat),
      48 ≤ d1 → d1 < 52 → isodigit d2 = true → isodigit d3 = true →
      WfItems (its1 ++ .oct d1 d2 d3 :: its2) (34 :: tail) →
      its1.length + 1 + its2.length < cap →
      read_string (pre ++ (34 :: (srcs its1 ++ [92, d1, d2, d3] ++ srcs its2 ++ 34 :: tail)))
          pre.length mem cap
        = ({ next := pre.length + (srcs its1).length + 4 + (srcs its2).length + 2,
             ok := true, overflow := false },
           bytes its1 ++ (64 * (d1 - 48) + 8 * (d2 - 48) + (d3 - 48)) :: bytes its2
             ++ (List.replicate (cap - (its1.length + 1 + its2.length)) 0 ++ mem.drop cap))
        ∧ 64 * (d1 - 48) + 8 * (d2 - 48) + (d3 - 48) ≤ 255)
    ∧ (∀ (its : List Item) (rest : List Nat) (d1 : Nat),
      WfItems its (92 :: d1 :: rest) → its.length < cap → 49 ≤ d1 → d1 ≤ 51 →
      isodigit (rd rest 0) = false →
      (read_string (pre ++ (34 :: (srcs its ++ 92 :: d1 :: rest))) pre.length mem cap).1
        = { next := pre.length + 1 + (srcs its).length + 2, ok := false, overflow := false })
    ∧ (∀ (its : List Item) (rest : List Nat) (d1 d2 : Nat),
      WfItems its (92 :: d1 :: d2 :: rest) → its.length < cap → 48 ≤ d1 → d1 ≤ 51 →
      isodigit d2 = true → isodigit (rd rest 0) = false →
      (read_string (pre ++ (34 :: (srcs its ++ 92 :: d1 :: d2 :: rest))) pre.length mem cap).1
        = { next := pre.length + 1 + (srcs its).length + 3, ok := false, overflow := false })
    ∧ (∀ (its : List Item) (rest : List Nat) (d : Nat),
      WfItems its (92 :: d :: rest) → its.length < cap → 52 ≤ d → d ≤ 57 →
      (read_string (pre ++ (34 :: (srcs its ++ 92 :: d :: rest))) pre.length mem cap).1
        = { next := pre.length + 1 + (srcs its).length + 1, ok := false, overflow := false }) := by
  refine ⟨?_, ?_, ?_, ?_⟩
  · intro its1 its2 tail d1 d2 d3 h1 h2 h3 h4 hw hlt
    refine ⟨read_string_literal_around its1 its2 (.oct d1 d2 d3) pre tail mem cap hw hlt, ?_⟩
    simp only [isodigit, Bool.and_eq_true, decide_eq_true_eq] at h3 h4
    omega
  · intro its rest d1 hw hlt h1 h2 hr
    have r0 := rd_after_backslash its pre (d1 :: rest) 0
    have r1 := rd_after_backslash its pre (d1 :: rest) 1
    simp only [Nat.add_zero, rd_cons_zero, rd_cons_succ] at r0 r1
    apply read_string_escape_error its pre _ mem cap _ hw hlt
    rw [read_escape_default _ _ (by rw [r0]; exact simple_escape_digit d1 (by omega) (by omega))
      (by rw [r0]; omega), r0, r1, hr]
    rw [if_neg (by omega), if_neg (by omega), if_pos rfl]
    rfl
  · intro its rest d1 d2 hw hlt h1 h2 h3 hr
    have r0 := rd_after_backslash its pre (d1 :: d2 :: rest) 0
    have r1 := rd_after_backslash its pre (d1 :: d2 :: rest) 1
    have r2 := rd_after_backslash its pre (d1 :: d2 :: rest) 2
    simp only [Nat.add_zero, rd_cons_zero, rd_cons_succ] at r0 r1 r2
    apply read_string_escape_error its pre _ mem cap _ hw hlt
    rw [read_escape_default _ _ (by rw [r0]; exact simple_escape_digit d1 (by omega) (by omega))
      (by rw [r0]; omega), r0, r1, r2, hr, h3]
    rw [if_neg (by omega), if_neg (by simp), if_neg (by simp), if_pos rfl]
    rfl
  · intro its rest d hw hlt h1 h2
    have r0 := rd_after_backslash its pre (d :: rest) 0
    simp only [Nat.add_zero, rd_cons_zero] at r0
    apply read_string_escape_error its pre _ mem cap _ hw hlt
    rw [read_escape_default _ _ (by rw [r0]; exact simple_escape_digit d (by omega) (by omega))
      (by rw [r0]; omega), r0]
    rw [if_pos (by omega)]
    rfl

theorem read_string_octal_digits_witness :
    -- the literals "A\101B", "\1", "\01" and "\8"
    (read_string [34, 65, 92, 49, 48, 49, 66, 34] 0 [1, 2, 3, 4] 4
        = ({ next := 8, ok := true, overflow := false }, [65, 65, 66, 0])
      ∧ 64 * (49 - 48) + 8 * (48 - 48) + (49 - 48) ≤ 255)
    ∧ (read_string [34, 92, 49, 34] 0 [1, 2, 3, 4] 4).1
        = { next := 3, ok := false, overflow := false }
    ∧ (read_string [34, 92, 48, 49, 34] 0 [1, 2, 3, 4] 4).1
        = { next := 4, ok := false, overflow := false }
    ∧ (read_string [34, 92, 56, 34] 0 [1, 2, 3, 4] 4).1
        = { next := 2, ok := false, overflow := false } :=
  have h := read_string_octal_digits [] [1, 2, 3, 4] 4
  ⟨h.1 [.plain 65] [.plain 66] [] 49 48 49 (by decide) (by decide) (by decide) (by decide)
     (by simp [WfItems, Item.wf, isodigit]) (by decide),
   h.2.1 [] [34] 49 trivial (by decide) (by decide) (by decide) (by decide),
   h.2.2.1 [] [34] 48 49 trivial (by decide) (by decide) (by decide) (by decide) (by decide),
   h.2.2.2 [] [34] 56 trivial (by decide) (by decide) (by decide)⟩

/-- Claim C20: inside a quoted literal each escape of the table (`a` 7, `b` 8, `e` 27,
`f` 12, `n` 10, `r` 13, `t` 9, `v` 11, and the question mark, the backslash and the two
quotes for themselves) decodes to exactly one byte, the one of the table.  For every
other character after the backslash that is not `x` and not a digit 0 to 3, the end of
the input included, `read_string` fails with the cursor on that character. -/
theorem read_string_two_char_escapes (pre mem : List Nat) (cap : Nat) :
    (∀ (e b : Nat), (e, b) ∈ escape_table →
      ∀ (its1 its2 : List Item) (tail : List Nat),
      WfItems (its1 ++ .simple e :: its2) (34 :: tail) →
      its1.length + 1 + its2.length < cap →
      read_string (pre ++ (34 :: (srcs its1 ++ [92, e] ++ srcs its2 ++ 34 :: tail)))
          pre.length mem cap
        = ({ next := pre.length + (srcs its1).length + 2 + (srcs its2).length + 2,
             ok := true, overflow := false },
           bytes its1 ++ b :: bytes its2
             ++ (List.replicate (cap - (its1.length + 1 + its2.length)) 0 ++ mem.drop cap)))
    ∧ (∀ (its : List Item) (rest : List Nat),
      WfItems its (92 :: rest) → its.length < cap →
      (∀ p ∈ escape_table, rd rest 0 ≠ p.1) → rd rest 0 ≠ 120 →
      ¬ (48 ≤ rd rest 0 ∧ rd rest 0 ≤ 51) →
      (read_string (pre ++ (34 :: (srcs its ++ 92 :: rest))) pre.length mem cap).1
        = { next := pre.length + 1 + (srcs its).length + 1, ok := false, overflow := false }) := by
  constructor
  · intro e b hm its1 its2 tail hw hlt
    have h := read_string_literal_around its1 its2 (.simple e) pre tail mem cap hw hlt
    simpa [Item.src, Item.byte, simple_escape_of_table e b hm] using h
  · intro its rest hw hlt ht hx hd
    have r0 := rd_after_backslash its pre rest 0
    simp only [Nat.add_zero] at r0
    apply read_string_escape_error its pre _ mem cap _ hw hlt
    rw [read_escape_default _ _ (by rw [r0]; exact simple_escape_not_in_table _ ht)
      (by rw [r0]; exact hx), r0]
    rw [if_pos (by omega)]
    rfl

theorem read_string_two_char_escapes_witness :
    -- the literals "A\nB", "\q" and an input that ends right after the backslash
    read_string [34, 65, 92, 110, 66, 34] 0 [1, 2, 3, 4] 4
        = ({ next := 6, ok := true, overflow := false }, [65, 10, 66, 0])
    ∧ (read_string [34, 92, 113, 34] 0 [1, 2, 3, 4] 4).1
        = { next := 2, ok := false, overflow := false }
    ∧ (read_string [34, 65, 92] 0 [1, 2, 3, 4] 4).1
        = { next := 3, ok := false, overflow := false } :=
  have h := read_string_two_char_escapes [] [1, 2, 3, 4] 4
  ⟨h.1 110 10 (by decide) [.plain 65] [.plain 66] []
     (by simp [WfItems, Item.wf, simple_escape]) (by decide),
   h.2 [] [113, 34] trivial (by decide) (by decide) (by decide) (by decide),
   h.2 [.plain 65] [] (by simp [WfItems, Item.wf]) (by decide) (by decide) (by decide)
     (by decide)⟩

/-! ## The fixed part of the binary descriptor -/

theorem land_7c (b : Nat) : (b &&& 0x7c) >>> 2 = (b / 4) % 32 := by
  have h : b &&& 0x7c = (b % 128) &&& 0x7c := by
    rw [show (128 : Nat) = 2 ^ 7 from rfl, ← Nat.and_pow_two_sub_one_eq_mod, Nat.and_assoc]
    rfl
  have hx : b % 128 < 128 := Nat.mod_lt _ (by norm_num)
  have hq : (b / 4) % 32 = (b % 128 / 4) % 32 := by omega
  rw [h, hq]
  generalize b % 128 = x at hx
  interval_cases x <;> rfl

theorem land_03 (b : Nat) : (b &&& 0x03) <<< 3 = (b % 4) * 8 := by
  have h : b &&& 0x03 = b % 4 := Nat.and_pow_two_sub_one_eq_mod b 2
  rw [h, Nat.shiftLeft_eq]

theorem land_e0 (b : Nat) : (b &&& 0xe0) >>> 5 = (b / 32) % 8 := by
  have h : b &&& 0xe0 = (b % 256) &&& 0xe0 := by
    rw [show (256 : Nat) = 2 ^ 8 from rfl, ← Nat.and_pow_two_sub_one_eq_mod, Nat.and_assoc]
    rfl
  have hx : b % 256 < 256 := Nat.mod_lt _ (by norm_num)
  have hq : (b / 32) % 8 = (b % 256 / 32) % 8 := by omega
  rw [h, hq]
  generalize b % 256 = x at hx
  interval_cases x <;> rfl

theorem land_1f (b : Nat) : b &&& 0x1f = b % 32 :=
  Nat.and_pow_two_sub_one_eq_mod b 5

/-- The loop over the records leaves the fixed fields alone. -/
theorem edid_block_fixed (buff : Buffer) (e : EdidInfo) (i : Nat) :
    (edid_block buff e i).pnp_id = e.pnp_id
    ∧ (edid_block buff e i).product_id = e.product_id
    ∧ (edid_block buff e i).serial_num = e.serial_num
    ∧ (edid_block buff e i).physical_width = e.physical_width
    ∧ (edid_block buff e i).physical_height = e.physical_height := by
  unfold edid_block
  simp only []
  split_ifs <;> exact ⟨rfl, rfl, rfl, rfl, rfl⟩

theorem edid_blocks_fixed (buff : Buffer) : ∀ (is : List Nat) (e : EdidInfo),
    (is.foldl (edid_block buff) e).pnp_id = e.pnp_id
    ∧ (is.foldl (edid_block buff) e).product_id = e.product_id
    ∧ (is.foldl (edid_block buff) e).serial_num = e.serial_num
    ∧ (is.foldl (edid_block buff) e).physical_width = e.physical_width
    ∧ (is.foldl (edid_block buff) e).physical_height = e.physical_height := by
  intro is
  induction is with
  | nil => intro e; exact ⟨rfl, rfl, rfl, rfl, rfl⟩
  | cons i r ih =>
    intro e
    obtain ⟨h1, h2, h3, h4, h5⟩ := ih (edid_block buff e i)
    obtain ⟨g1, g2, g3, g4, g5⟩ := edid_block_fixed buff e i
    simp only [List.foldl_cons]
    exact ⟨h1.trans g1, h2.trans g2, h3.trans g3, h4.trans g4, h5.trans g5⟩

/-- When `parse_edid` returns true. -/
theorem parse_edid_true_iff (buff : Buffer) :
    (parse_edid buff).1 = true ↔ 128 ≤ buff.len ∧ slice buff.ptr 0 8 = EDID_HEADER := by
  unfold parse_edid
  simp only []
  by_cases hl : buff.len < 128
  · rw [if_pos hl]
    constructor
    · intro h; cases h
    · rintro ⟨h, _⟩; omega
  · rw [if_neg hl]
    by_cases hh : slice buff.ptr 0 8 ≠ EDID_HEADER
    · rw [if_pos hh]
      constructor
      · intro h; cases h
      · rintro ⟨_, h⟩; exact absurd h hh
    · rw [if_neg hh]
      exact ⟨fun _ => ⟨by omega, not_not.mp hh⟩, fun _ => rfl⟩

/-- The fixed fields of the record of an accepted blob. -/
theorem parse_edid_fixed (buff : Buffer) (hacc : (parse_edid buff).1 = true) :
    (parse_edid buff).2.pnp_id
        = [(65 + ((rd buff.ptr 8 &&& 0x7c) >>> 2) - 1) % 256,
           (65 + ((rd buff.ptr 8 &&& 0x03) <<< 3) + ((rd buff.ptr 9 &&& 0xe0) >>> 5) - 1) % 256,
           (65 + (rd buff.ptr 9 &&& 0x1f) - 1) % 256, 0]
    ∧ (parse_edid buff).2.product_id
        = (rd buff.ptr 10 % 65536 + (rd buff.ptr 11 % 65536) <<< 8) % 65536
    ∧ (parse_edid buff).2.serial_num
        = (rd buff.ptr 12 % 2 ^ 32 + ((rd buff.ptr 13 % 2 ^ 32) <<< 8) % 2 ^ 32
            + ((rd buff.ptr 14 % 2 ^ 32) <<< 16) % 2 ^ 32
            + ((rd buff.ptr 15 % 2 ^ 32) <<< 24) % 2 ^ 32) % 2 ^ 32
    ∧ (parse_edid buff).2.physical_width = rd buff.ptr 21
    ∧ (parse_edid buff).2.physical_height = rd buff.ptr 22 := by
  obtain ⟨hl, hh⟩ := (parse_edid_true_iff buff).mp hacc
  unfold parse_edid
  simp only []
  rw [if_neg (by omega), if_neg (not_not.mpr hh)]
  obtain ⟨h1, h2, h3, h4, h5⟩ := edid_blocks_fixed buff (List.range 5)
    { pnp_id := (((edid_zero.pnp_id.set 0 ((65 + ((rd buff.ptr 8 &&& 0x7c) >>> 2) - 1) % 256)).set 1
          ((65 + ((rd buff.ptr 8 &&& 0x03) <<< 3) + ((rd buff.ptr 9 &&& 0xe0) >>> 5) - 1) % 256)).set 2
          ((65 + (rd buff.ptr 9 &&& 0x1f) - 1) % 256)).set 3 0,
      product_id := (rd buff.ptr 10 % 65536 + (rd buff.ptr 11 % 65536) <<< 8) % 65536,
      serial_num := (rd buff.ptr 12 % 2 ^ 32 + ((rd buff.ptr 13 % 2 ^ 32) <<< 8) % 2 ^ 32
            + ((rd buff.ptr 14 % 2 ^ 32) <<< 16) % 2 ^ 32
            + ((rd buff.ptr 15 % 2 ^ 32) <<< 24) % 2 ^ 32) % 2 ^ 32,
      product_name := edid_zero.product_name, identifier := edid_zero.identifier,
      serial_number := edid_zero.serial_number,
      physical_width := rd buff.ptr 21, physical_height := rd buff.ptr 22 }
  exact ⟨h1, h2, h3, h4, h5⟩

/-- The three characters of the PNP id in terms of the 5-bit groups of bytes 8 and 9. -/
theorem parse_edid_pnp_groups (buff : Buffer) (hacc : (parse_edid buff).1 = true) :
    (parse_edid buff).2.pnp_id
      = [64 + (rd buff.ptr 8 / 4) % 32,
         64 + ((rd buff.ptr 8 % 4) * 8 + (rd buff.ptr 9 / 32) % 8),
         64 + rd buff.ptr 9 % 32, 0] := by
  rw [(parse_edid_fixed buff hacc).1, land_7c, land_03, land_e0, land_1f]
  have e1 : (65 + rd buff.ptr 8 / 4 % 32 - 1) % 256 = 64 + rd buff.ptr 8 / 4 % 32 := by omega
  have e2 : (65 + rd buff.ptr 8 % 4 * 8 + rd buff.ptr 9 / 32 % 8 - 1) % 256
      = 64 + (rd buff.ptr 8 % 4 * 8 + rd buff.ptr 9 / 32 % 8) := by omega
  have e3 : (65 + rd buff.ptr 9 % 32 - 1) % 256 = 64 + rd buff.ptr 9 % 32 := by omega
  rw [e1, e2, e3]

/-- Claim C12: `parse_edid` returns false exactly when the declared length is below 128
or the first 8 bytes differ from `00 FF FF FF FF FF FF 00`; when it returns false every
field of the record is zero.  A blob of length 127 is rejected, and so is a blob in
which one of the 8 bytes of the header differs. -/
theorem parse_edid_rejects (buff : Buffer) :
    ((parse_edid buff).1 = false
        ↔ (buff.len < 128 ∨ slice buff.ptr 0 8 ≠ [0x00, 0xff, 0xff, 0xff, 0xff, 0xff, 0xff, 0x00]))
    ∧ ((parse_edid buff).1 = false →
        (parse_edid buff).2 =
          { pnp_id := [0, 0, 0, 0], product_id := 0, serial_num := 0,
            product_name := List.replicate 16 0, identifier := List.replicate 16 0,
            serial_number := List.replicate 16 0, physical_width := 0, physical_height := 0 })
    ∧ (buff.len = 127 → (parse_edid buff).1 = false)
    ∧ (∀ i, i < 8 → rd buff.ptr i ≠ rd [0x00, 0xff, 0xff, 0xff, 0xff, 0xff, 0xff, 0x00] i →
        (parse_edid buff).1 = false) := by
  have hiff : (parse_edid buff).1 = false
      ↔ (buff.len < 128 ∨ slice buff.ptr 0 8 ≠ [0x00, 0xff, 0xff, 0xff, 0xff, 0xff, 0xff, 0x00]) := by
    have h := parse_edid_true_iff buff
    constructor
    · intro hf
      by_contra hc
      push_neg at hc
      have := h.mpr ⟨hc.1, hc.2⟩
      rw [hf] at this
      cases this
    · intro hc
      cases hp : (parse_edid buff).1 with
      | false => rfl
      | true =>
        obtain ⟨h1, h2⟩ := h.mp hp
        rcases hc with hc | hc
        · omega
        · exact absurd h2 hc
  refine ⟨hiff, ?_, fun h => hiff.mpr (Or.inl (by omega)), ?_⟩
  · intro hf
    have hc := hiff.mp hf
    unfold parse_edid
    simp only []
    by_cases hl : buff.len < 128
    · rw [if_pos hl]; rfl
    · rw [if_neg hl]
      have hh : slice buff.ptr 0 8 ≠ EDID_HEADER := by
        rcases hc with hc | hc
        · exact absurd hc hl
        · exact hc
      rw [if_pos hh]; rfl
  · intro i hi hne
    apply hiff.mpr
    right
    intro hs
    apply hne
    simp only [slice, List.cons.injEq, and_true, zero_add] at hs
    obtain ⟨h0, h1, h2, h3, h4, h5, h6, h7⟩ := hs
    interval_cases i
    · exact h0
    · exact h1
    · exact h2
    · exact h3
    · exact h4
    · exact h5
    · exact h6
    · exact h7

/-- Claim C13: for letters `c1 c2 c3` in `A` to `Z` with codes `g = c - 65 + 1`, an
accepted blob whose byte 8 has bits 6 to 2 equal to `g1` and bits 1 to 0 equal to the
top two bits of `g2`, whatever its bit 7, and whose byte 9 has bits 7 to 5 equal to the
low three bits of `g2` and bits 4 to 0 equal to `g3`, decodes to the PNP id `c1 c2 c3`
followed by the terminator. -/
theorem parse_edid_pnp_unpack (buff : Buffer) (c1 c2 c3 : Nat)
    (hacc : (parse_edid buff).1 = true)
    (h1 : 65 ≤ c1 ∧ c1 ≤ 90) (h2 : 65 ≤ c2 ∧ c2 ≤ 90) (h3 : 65 ≤ c3 ∧ c3 ≤ 90)
    (hb8hi : (rd buff.ptr 8 / 4) % 32 = c1 - 65 + 1)
    (hb8lo : rd buff.ptr 8 % 4 = (c2 - 65 + 1) / 8)
    (hb9hi : (rd buff.ptr 9 / 32) % 8 = (c2 - 65 + 1) % 8)
    (hb9lo : rd buff.ptr 9 % 32 = c3 - 65 + 1) :
    (parse_edid buff).2.pnp_id = [c1, c2, c3, 0] := by
  rw [parse_edid_pnp_groups buff hacc, hb8hi, hb8lo, hb9hi, hb9lo]
  have e1 : 64 + (c1 - 65 + 1) = c1 := by omega
  have e2 : 64 + ((c2 - 65 + 1) / 8 * 8 + (c2 - 65 + 1) % 8) = c2 := by omega
  have e3 : 64 + (c3 - 65 + 1) = c3 := by omega
  rw [e1, e2, e3]

theorem parse_edid_pnp_unpack_witness :
    (parse_edid (pnp_blob 0x04 0x69)).2.pnp_id = [65, 67, 73, 0]
    ∧ (parse_edid (pnp_blob 0x84 0x69)).2.pnp_id = [65, 67, 73, 0] :=
  ⟨parse_edid_pnp_unpack (pnp_blob 0x04 0x69) 65 67 73 (by decide) (by decide) (by decide)
      (by decide) (by decide) (by decide) (by decide) (by decide),
   parse_edid_pnp_unpack (pnp_blob 0x84 0x69) 65 67 73 (by decide) (by decide) (by decide)
      (by decide) (by decide) (by decide) (by decide) (by decide)⟩

/-- Claim C14, counterexample: two accepted blobs whose PNP id is not made of letters.
With bytes 8 and 9 zero the three groups are 0 and the id is `@@@`; with the bytes
`7F 9F` the groups are 31, 28, 31 and the id is `_\_`. -/
theorem parse_edid_pnp_not_letters :
    (parse_edid (pnp_blob 0 0)).1 = true
    ∧ (parse_edid (pnp_blob 0 0)).2.pnp_id = [64, 64, 64, 0]
    ∧ (parse_edid (pnp_blob 0x7f 0x9f)).1 = true
    ∧ (parse_edid (pnp_blob 0x7f 0x9f)).2.pnp_id = [95, 92, 95, 0] := by
  decide

/-- Claim C14, amended: for every accepted blob the PNP id is the three bytes `64 + g1`,
`64 + g2`, `64 + g3` followed by the terminator, where `g1`, `g2`, `g3` are the 5-bit
groups of bytes 8 and 9; each group is below 32, so each byte lies in 64 to 95, and a
byte is a letter `A` to `Z` exactly when its group is in 1 to 26. -/
theorem parse_edid_pnp_range (buff : Buffer) (hacc : (parse_edid buff).1 = true) :
    ∃ g1 g2 g3, g1 = (rd buff.ptr 8 / 4) % 32
      ∧ g2 = (rd buff.ptr 8 % 4) * 8 + (rd buff.ptr 9 / 32) % 8
      ∧ g3 = rd buff.ptr 9 % 32
      ∧ (parse_edid buff).2.pnp_id = [64 + g1, 64 + g2, 64 + g3, 0]
      ∧ g1 < 32 ∧ g2 < 32 ∧ g3 < 32
      ∧ ((65 ≤ 64 + g1 ∧ 64 + g1 ≤ 90) ↔ (1 ≤ g1 ∧ g1 ≤ 26))
      ∧ ((65 ≤ 64 + g2 ∧ 64 + g2 ≤ 90) ↔ (1 ≤ g2 ∧ g2 ≤ 26))
      ∧ ((65 ≤ 64 + g3 ∧ 64 + g3 ≤ 90) ↔ (1 ≤ g3 ∧ g3 ≤ 26)) := by
  refine ⟨_, _, _, rfl, rfl, rfl, parse_edid_pnp_groups buff hacc, ?_, ?_, ?_, ?_, ?_, ?_⟩ <;> omega

theorem parse_edid_pnp_range_witness :
    ∃ g1 g2 g3, g1 = (rd (pnp_blob 0x7f 0x9f).ptr 8 / 4) % 32
      ∧ g2 = (rd (pnp_blob 0x7f 0x9f).ptr 8 % 4) * 8 + (rd (pnp_blob 0x7f 0x9f).ptr 9 / 32) % 8
      ∧ g3 = rd (pnp_blob 0x7f 0x9f).ptr 9 % 32
      ∧ (parse_edid (pnp_blob 0x7f 0x9f)).2.pnp_id = [64 + g1, 64 + g2, 64 + g3, 0]
      ∧ g1 < 32 ∧ g2 < 32 ∧ g3 < 32
      ∧ ((65 ≤ 64 + g1 ∧ 64 + g1 ≤ 90) ↔ (1 ≤ g1 ∧ g1 ≤ 26))
      ∧ ((65 ≤ 64 + g2 ∧ 64 + g2 ≤ 90) ↔ (1 ≤ g2 ∧ g2 ≤ 26))
      ∧ ((65 ≤ 64 + g3 ∧ 64 + g3 ≤ 90) ↔ (1 ≤ g3 ∧ g3 ≤ 26)) :=
  parse_edid_pnp_range (pnp_blob 0x7f 0x9f) (by decide)

/-- Claim C15: for every accepted blob of bytes, the product id is
`b[10] + 256 * b[11]`, the serial number is
`b[12] + 2^8 * b[13] + 2^16 * b[14] + 2^24 * b[15]`, the physical width is `b[21]` and
the physical height is `b[22]`; another accepted blob with the same bytes at the offsets
10 to 15, 21 and 22 has the same four fields, whatever its other bytes. -/
theorem parse_edid_numeric_fields (buff : Buffer) (hacc : (parse_edid buff).1 = true)
    (hbytes : ∀ i, rd buff.ptr i < 256) :
    (parse_edid buff).2.product_id = rd buff.ptr 10 + 256 * rd buff.ptr 11
    ∧ (parse_edid buff).2.serial_num
        = rd buff.ptr 12 + 2 ^ 8 * rd buff.ptr 13 + 2 ^ 16 * rd buff.ptr 14 + 2 ^ 24 * rd buff.ptr 15
    ∧ (parse_edid buff).2.physical_width = rd buff.ptr 21
    ∧ (parse_edid buff).2.physical_height = rd buff.ptr 22
    ∧ ∀ other : Buffer, (parse_edid other).1 = true →
        (∀ i ∈ [10, 11, 12, 13, 14, 15, 21, 22], rd other.ptr i = rd buff.ptr i) →
        (parse_edid other).2.product_id = (parse_edid buff).2.product_id
        ∧ (parse_edid other).2.serial_num = (parse_edid buff).2.serial_num
        ∧ (parse_edid other).2.physical_width = (parse_edid buff).2.physical_width
        ∧ (parse_edid other).2.physical_height = (parse_edid buff).2.physical_height := by
  obtain ⟨_, hp, hs, hw, hh⟩ := parse_edid_fixed buff hacc
  have b10 := hbytes 10
  have b11 := hbytes 11
  have b12 := hbytes 12
  have b13 := hbytes 13
  have b14 := hbytes 14
  have b15 := hbytes 15
  refine ⟨?_, ?_, hw, hh, ?_⟩
  · rw [hp, Nat.shiftLeft_eq]
    omega
  · rw [hs, Nat.shiftLeft_eq, Nat.shiftLeft_eq, Nat.shiftLeft_eq]
    norm_num
    omega
  · intro other hacc2 hsame
    obtain ⟨_, hp2, hs2, hw2, hh2⟩ := parse_edid_fixed other hacc2
    have s10 := hsame 10 (by simp)
    have s11 := hsame 11 (by simp)
    have s12 := hsame 12 (by simp)
    have s13 := hsame 13 (by simp)
    have s14 := hsame 14 (by simp)
    have s15 := hsame 15 (by simp)
    have s21 := hsame 21 (by simp)
    have s22 := hsame 22 (by simp)
    rw [hp2, hs2, hw2, hh2, hp, hs, hw, hh, s10, s11, s12, s13, s14, s15, s21, s22]
    exact ⟨rfl, rfl, rfl, rfl⟩

theorem parse_edid_numeric_fields_witness :
    (parse_edid numeric_blob).2.product_id = 0x1234
    ∧ (parse_edid numeric_blob).2.serial_num = 0x04030201
    ∧ (parse_edid numeric_blob).2.physical_width = 52
    ∧ (parse_edid numeric_blob).2.physical_height = 32 := by
  have hb : ∀ i, rd numeric_blob.ptr i < 256 := by
    intro i
    by_cases hi : i < 128
    · interval_cases i <;> decide
    · rw [rd_of_length_le _ _ (by simp [numeric_blob, EDID_HEADER]; omega)]; decide
  obtain ⟨h1, h2, h3, h4, _⟩ := parse_edid_numeric_fields numeric_blob (by decide) hb
  exact ⟨h1, h2, h3, h4⟩

/-! ## The sanitized copy of a 13-byte window -/

theorem set_at (v : Nat) (l : List Nat) (c : Nat) : ∀ (pre : List Nat),
    (pre ++ c :: l).set pre.length v = pre ++ v :: l := by
  intro pre
  induction pre with
  | nil => rfl
  | cons a r ih => simp only [List.cons_append, List.length_cons, List.set_cons_succ, ih]

theorem rd_mem (l : List Nat) (i : Nat) (h : i < l.length) : rd l i ∈ l := by
  unfold rd
  rw [List.getD_eq_getElem _ _ h]
  exact List.getElem_mem _

theorem dropWhile_head_not (p : Nat → Bool) : ∀ (l : List Nat) (y : Nat) (ys : List Nat),
    l.dropWhile p = y :: ys → p y = false := by
  intro l
  induction l with
  | nil => intro y ys h; cases h
  | cons c r ih =>
    intro y ys h
    cases hp : p c with
    | true =>
      rw [List.dropWhile_cons_of_pos hp] at h
      exact ih y ys h
    | false =>
      rw [List.dropWhile_cons_of_neg (by simp [hp])] at h
      cases h
      exact hp

/-- The first loop leaves the bytes before the cursor and the length alone. -/
theorem crlf_loop_shape : ∀ (fuel : Nat) (pre l : List Nat),
    ∃ l2, l2.length = l.length ∧ crlf_loop fuel (pre ++ l) pre.length = pre ++ l2 := by
  intro fuel
  induction fuel with
  | zero => intro pre l; exact ⟨l, rfl, rfl⟩
  | succ f ih =>
    intro pre l
    cases l with
    | nil =>
      refine ⟨[], rfl, ?_⟩
      rw [crlf_loop, if_pos (by rw [rd_of_length_le _ _ (by simp)])]
    | cons c r =>
      have hrd : rd (pre ++ c :: r) pre.length = c := by rw [rd_append_length]; rfl
      rw [crlf_loop, hrd]
      by_cases h0 : c = 0
      · rw [if_pos h0]; exact ⟨c :: r, rfl, rfl⟩
      · rw [if_neg h0]
        by_cases hc : c = 13 ∨ c = 10
        · rw [if_pos hc, set_at]
          obtain ⟨l2, hl, he⟩ := ih (pre ++ [0]) r
          refine ⟨0 :: l2, by simp [hl], ?_⟩
          have e : pre ++ 0 :: r = (pre ++ [0]) ++ r := by simp
          rw [e, show pre.length + 1 = (pre ++ [0]).length by simp, he]
          simp
        · rw [if_neg hc]
          obtain ⟨l2, hl, he⟩ := ih (pre ++ [c]) r
          refine ⟨c :: l2, by simp [hl], ?_⟩
          have e : pre ++ c :: r = (pre ++ [c]) ++ r := by simp
          rw [e, show pre.length + 1 = (pre ++ [c]).length by simp, he]
          simp

/-- The first loop on a run `s` without NUL, CR and LF followed by one of them: the
run stays and a NUL follows it. -/
theorem crlf_loop_run : ∀ (s pre : List Nat) (x : Nat) (rest : List Nat) (fuel : Nat),
    (∀ c ∈ s, c ≠ 0 ∧ c ≠ 13 ∧ c ≠ 10) → (x = 0 ∨ x = 13 ∨ x = 10) →
    s.length + 1 ≤ fuel →
    ∃ r2, r2.length = rest.length
      ∧ crlf_loop fuel (pre ++ (s ++ x :: rest)) pre.length = pre ++ (s ++ 0 :: r2) := by
  intro s
  induction s with
  | nil =>
    intro pre x rest fuel _ hx hf
    obtain ⟨f, rfl⟩ : ∃ f, fuel = f + 1 := ⟨fuel - 1, by simp at hf; omega⟩
    have hrd : rd (pre ++ ([] ++ x :: rest)) pre.length = x := by rw [rd_append_length]; rfl
    rw [crlf_loop, hrd]
    by_cases h0 : x = 0
    · rw [if_pos h0]; exact ⟨rest, rfl, by rw [h0]⟩
    · rw [if_neg h0, if_pos (by tauto)]
      simp only [List.nil_append]
      rw [set_at]
      obtain ⟨l2, hl, he⟩ := crlf_loop_shape f (pre ++ [0]) rest
      refine ⟨l2, hl, ?_⟩
      have e : pre ++ 0 :: rest = (pre ++ [0]) ++ rest := by simp
      rw [e, show pre.length + 1 = (pre ++ [0]).length by simp, he]
      simp
  | cons c r ih =>
    intro pre x rest fuel hs hx hf
    obtain ⟨f, rfl⟩ : ∃ f, fuel = f + 1 := ⟨fuel - 1, by simp at hf; omega⟩
    have hc := hs c (List.mem_cons_self _ _)
    have hrd : rd (pre ++ (c :: r ++ x :: rest)) pre.length = c := by rw [rd_append_length]; rfl
    rw [crlf_loop, hrd, if_neg hc.1, if_neg (by tauto)]
    obtain ⟨r2, hl, he⟩ := ih (pre ++ [c]) x rest f
      (fun y hy => hs y (List.mem_cons_of_mem _ hy)) hx (by simp at hf; omega)
    refine ⟨r2, hl, ?_⟩
    have e : pre ++ (c :: r ++ x :: rest) = (pre ++ [c]) ++ (r ++ x :: rest) := by simp
    rw [e, show pre.length + 1 = (pre ++ [c]).length by simp, he]
    simp

/-- The loop of `strlen` counts the bytes before the first NUL. -/
theorem strlen_loop_run (d : List Nat) : ∀ (n str fuel : Nat),
    (∀ i, i < n → rd d (str + i) ≠ 0) → rd d (str + n) = 0 → n ≤ fuel →
    strlen_loop d fuel str = n := by
  intro n
  induction n with
  | zero =>
    intro str fuel _ h0 _
    cases fuel with
    | zero => rfl
    | succ f => rw [strlen_loop, if_pos (by simpa using h0)]
  | succ n ih =>
    intro str fuel hne h0 hf
    obtain ⟨f, rfl⟩ : ∃ f, fuel = f + 1 := ⟨fuel - 1, by omega⟩
    have h := hne 0 (by omega)
    rw [Nat.add_zero] at h
    rw [strlen_loop, if_neg h, ih (str + 1) f
      (fun i hi => by have := hne (i + 1) (by omega); rwa [show str + (i + 1) = str + 1 + i by omega] at this)
      (by rwa [show str + (n + 1) = str + 1 + n by omega] at h0) (by omega)]

theorem strlen_run (d : List Nat) (n str : Nat)
    (hne : ∀ i, i < n → rd d (str + i) ≠ 0) (h0 : rd d (str + n) = 0) :
    strlen d str = n := by
  unfold strlen
  apply strlen_loop_run d n str _ hne h0
  cases n with
  | zero => omega
  | succ k =>
    have := rd_lt_of_ne_zero d (str + k) (hne k (by omega))
    omega

/-- The loop that steps back over `n` trailing whitespace bytes. -/
theorem rstrip_loop_run (d : List Nat) (begin L : Nat) : ∀ (n : Nat),
    (∀ i, L ≤ i → i < L + n → isspace (rd d (begin + i)) = true) →
    (L = 0 ∨ isspace (rd d (begin + (L - 1))) = false) →
    rstrip_loop d begin (L + n) ((begin : Int) + ((L + n : Nat) : Int) - 1)
      = (begin : Int) + (L : Int) - 1 := by
  intro n
  induction n with
  | zero =>
    intro _ hL
    cases L with
    | zero => rfl
    | succ k =>
      have hk : isspace (rd d (begin + k)) = false := by
        rcases hL with h | h
        · omega
        · simpa using h
      have ht : ((begin : Int) + ((k + 1 + 0 : Nat) : Int) - 1).toNat = begin + k := by
        push_cast; omega
      rw [show k + 1 + 0 = k + 1 from rfl, rstrip_loop]
      rw [show k + 1 + 0 = k + 1 from rfl] at ht
      rw [ht, hk]
      simp
  | succ n ih =>
    intro hws hL
    have hsp := hws (L + n) (by omega) (by omega)
    have ht : ((begin : Int) + ((L + (n + 1) : Nat) : Int) - 1).toNat = begin + (L + n) := by
      push_cast; omega
    rw [show L + (n + 1) = (L + n) + 1 from rfl, rstrip_loop]
    rw [show L + (n + 1) = (L + n) + 1 from rfl] at ht
    rw [ht, hsp, if_pos ⟨by push_cast; omega, rfl⟩]
    have e : (begin : Int) + ((L + n + 1 : Nat) : Int) - 1 - 1
        = (begin : Int) + ((L + n : Nat) : Int) - 1 := by push_cast; omega
    rw [e]
    exact ih (fun i h1 h2 => hws i h1 (by omega)) hL

/-- The bytes after the loop that moves the string to the start of the array. -/
theorem move_loop_rd : ∀ (fuel : Nat) (d : List Nat) (s dd e : Nat),
    dd ≤ s → e ≤ d.length → e - s ≤ fuel →
    (move_loop fuel d s dd (e : Int)).length = d.length
    ∧ ∀ i, rd (move_loop fuel d s dd (e : Int)) i
        = if dd ≤ i ∧ i < dd + (e - s) then rd d (s + (i - dd)) else rd d i := by
  intro fuel
  induction fuel with
  | zero =>
    intro d s dd e _ _ hf
    refine ⟨rfl, fun i => ?_⟩
    rw [move_loop, if_neg (by omega)]
  | succ f ih =>
    intro d s dd e hds he hf
    rw [move_loop]
    by_cases hlt : (s : Int) < (e : Int)
    · rw [if_pos hlt]
      have hse : s < e := by exact_mod_cast hlt
      obtain ⟨hl, hr⟩ := ih (d.set dd (rd d s)) (s + 1) (dd + 1) e (by omega)
        (by rw [List.length_set]; exact he) (by omega)
      refine ⟨by rw [hl, List.length_set], fun i => ?_⟩
      rw [hr i]
      by_cases h1 : i = dd
      · subst h1
        rw [if_neg (by omega), if_pos (by omega), rd_set_eq _ _ _ (by omega)]
        simp
      · by_cases h2 : dd ≤ i ∧ i < dd + (e - s)
        · rw [if_pos (by omega), if_pos h2, rd_set_ne _ _ _ _ (by omega)]
          congr 1; omega
        · rw [if_neg (by omega), if_neg h2, rd_set_ne _ _ _ _ (fun h => h1 h.symm)]
    · rw [if_neg hlt]
      have hse : ¬ s < e := by intro h; exact hlt (by exact_mod_cast h)
      refine ⟨rfl, fun i => ?_⟩
      rw [if_neg (by omega)]

/-- An array that holds the bytes of `core`, none of them NUL, and then a NUL holds the
string `core`. -/
theorem cstr_of_rd : ∀ (core m : List Nat),
    (∀ i, i < core.length → rd m i = rd core i) → (∀ c ∈ core, c ≠ 0) →
    rd m core.length = 0 → cstr m = core := by
  intro core
  induction core with
  | nil =>
    intro m _ _ h0
    cases m with
    | nil => rfl
    | cons x r =>
      have : x = 0 := h0
      subst this
      rfl
  | cons c r ih =>
    intro m hrd hne h0
    have hc := hne c (List.mem_cons_self _ _)
    cases m with
    | nil =>
      have := hrd 0 (by simp)
      exact absurd this.symm hc
    | cons x m2 =>
      have hx : x = c := hrd 0 (by simp)
      subst hx
      have ht : cstr (x :: m2) = x :: cstr m2 := by
        unfold cstr
        rw [List.takeWhile_cons_of_pos (by simpa using hc)]
      rw [ht, ih m2 (fun i hi => hrd (i + 1) (by simp; omega))
        (fun y hy => hne y (List.mem_cons_of_mem _ hy)) h0]

/-- The tail of `copy_edid_string`, from the array after the first loop on: leading
whitespace `ws1`, the text `core`, trailing whitespace `ws2`, a NUL. -/
theorem copy_tail (ws1 core ws2 r2 d2 : List Nat)
    (hd2 : d2 = ws1 ++ (core ++ (ws2 ++ 0 :: r2)))
    (h1 : ∀ c ∈ ws1, isspace c = true) (h2 : ∀ c ∈ ws2, isspace c = true)
    (hne : ∀ c ∈ core, c ≠ 0)
    (hhead : core = [] ∨ isspace (rd core 0) = false)
    (hlast : core = [] ∨ isspace (rd core (core.length - 1)) = false)
    (hempty : core = [] → ws2 = []) :
    lstrip d2 0 = ws1.length
    ∧ strlen d2 ws1.length = core.length + ws2.length
    ∧ rstrip_loop d2 ws1.length (core.length + ws2.length)
        ((ws1.length : Int) + ((core.length + ws2.length : Nat) : Int) - 1)
        = (ws1.length : Int) + (core.length : Int) - 1
    ∧ cstr ((move_loop core.length d2 ws1.length 0 ((ws1.length + core.length : Nat) : Int)).set
        core.length 0) = core
    ∧ rd ((move_loop core.length d2 ws1.length 0 ((ws1.length + core.length : Nat) : Int)).set
        core.length 0) core.length = 0 := by
  have hcore : ∀ i, i < core.length → rd d2 (ws1.length + i) = rd core i := by
    intro i hi
    rw [hd2, rd_append_right, rd_append_left _ _ _ hi]
  have hws : ∀ i, i < ws2.length → rd d2 (ws1.length + (core.length + i)) = rd ws2 i := by
    intro i hi
    rw [hd2, rd_append_right, rd_append_right, rd_append_left _ _ _ hi]
  have hnul : rd d2 (ws1.length + (core.length + ws2.length)) = 0 := by
    rw [hd2, rd_append_right, rd_append_right, rd_append_length]; rfl
  have hsp0 : ∀ c, isspace c = true → c ≠ 0 := by
    intro c hc h; subst h; exact absurd hc (by decide)
  have hlen : d2.length = ws1.length + (core.length + (ws2.length + (r2.length + 1))) := by
    rw [hd2]; simp
  refine ⟨?_, ?_, ?_, ?_⟩
  · have := lstrip_run ws1 [] (core ++ (ws2 ++ 0 :: r2)) h1 (by
      cases core with
      | nil =>
        rw [hempty rfl]; left; rfl
      | cons c r =>
        right
        rcases hhead with h | h
        · cases h
        · exact h)
    rw [hd2]
    simpa using this
  · apply strlen_run
    · intro i hi
      by_cases hic : i < core.length
      · rw [hcore i hic]
        exact hne _ (rd_mem _ _ hic)
      · have e : i = core.length + (i - core.length) := by omega
        rw [e, hws _ (by omega)]
        exact hsp0 _ (h2 _ (rd_mem _ _ (by omega)))
    · exact hnul
  · apply rstrip_loop_run
    · intro i hi1 hi2
      have e : i = core.length + (i - core.length) := by omega
      rw [e, hws _ (by omega)]
      exact h2 _ (rd_mem _ _ (by omega))
    · rcases hlast with h | h
      · left; rw [h]; rfl
      · by_cases hz : core.length = 0
        · left; exact hz
        · right
          rw [hcore _ (by omega)]
          exact h
  · obtain ⟨hl, hr⟩ := move_loop_rd core.length d2 ws1.length 0 (ws1.length + core.length)
      (by omega) (by omega) (by omega)
    have hfin : rd ((move_loop core.length d2 ws1.length 0
        ((ws1.length + core.length : Nat) : Int)).set core.length 0) core.length = 0 :=
      rd_set_eq _ _ _ (by rw [hl]; omega)
    refine ⟨cstr_of_rd core _ ?_ hne hfin, hfin⟩
    intro i hi
    rw [rd_set_ne _ _ _ _ (by omega), hr i, if_pos (by omega)]
    simpa using hcore i hi

/-- The parts of a list around its trimmed text. -/
theorem trim_parts (s : List Nat) :
    ∃ ws1 ws2, s = ws1 ++ (trim s ++ ws2)
      ∧ (∀ c ∈ ws1, isspace c = true) ∧ (∀ c ∈ ws2, isspace c = true)
      ∧ (trim s = [] ∨ isspace (rd (trim s) 0) = false)
      ∧ (trim s = [] ∨ isspace (rd (trim s) ((trim s).length - 1)) = false)
      ∧ (trim s = [] → ws2 = []) := by
  have hs : s = s.takeWhile isspace ++ s.dropWhile isspace :=
    (List.takeWhile_append_dropWhile isspace s).symm
  have ht : s.dropWhile isspace = trim s ++ ((s.dropWhile isspace).reverse.takeWhile isspace).reverse := by
    have := List.takeWhile_append_dropWhile isspace (s.dropWhile isspace).reverse
    have h2 := congrArg List.reverse this
    rw [List.reverse_append, List.reverse_reverse] at h2
    exact h2.symm
  have hw2 : ∀ c ∈ ((s.dropWhile isspace).reverse.takeWhile isspace).reverse, isspace c = true := by
    intro c hc
    exact List.mem_takeWhile_imp (List.mem_reverse.mp hc)
  have hhead : trim s = [] ∨ isspace (rd (trim s) 0) = false := by
    cases hc : trim s with
    | nil => left; rfl
    | cons a r =>
      right
      rw [hc] at ht
      exact dropWhile_head_not isspace s a _ ht
  refine ⟨s.takeWhile isspace, ((s.dropWhile isspace).reverse.takeWhile isspace).reverse, ?_,
    fun c hc => List.mem_takeWhile_imp hc, hw2, hhead, ?_, ?_⟩
  · rw [← ht]; exact hs
  · unfold trim
    cases hu : (s.dropWhile isspace).reverse.dropWhile isspace with
    | nil => left; rfl
    | cons a r =>
      right
      have := dropWhile_head_not isspace _ a r hu
      rw [List.reverse_cons, List.length_append, List.length_cons, List.length_nil,
        Nat.add_sub_cancel, rd_append_length]
      exact this
  · intro he
    rw [he, List.nil_append] at ht
    cases hc : ((s.dropWhile isspace).reverse.takeWhile isspace).reverse with
    | nil => rfl
    | cons a r =>
      rw [hc] at ht hw2
      have h1 := dropWhile_head_not isspace s a r ht
      have h2 := hw2 a (List.mem_cons_self _ _)
      rw [h1] at h2
      cases h2

/-- The array after the first loop of `copy_edid_string`: the first line of the window
and a NUL. -/
theorem copy_first_loop (dst src : List Nat) (p : Nat) :
    ∃ r2, crlf_loop (memcpy (memset0 dst 16) src p 13).length (memcpy (memset0 dst 16) src p 13) 0
      = first_line (slice src p 13) ++ 0 :: r2 := by
  have hd1 : memcpy (memset0 dst 16) src p 13
      = slice src p 13 ++ ([0, 0, 0] ++ dst.drop 16) := rfl
  have hw : slice src p 13 = first_line (slice src p 13)
      ++ (slice src p 13).dropWhile (fun c => c != 0 && c != 13 && c != 10) :=
    (List.takeWhile_append_dropWhile _ _).symm
  have hok : ∀ c ∈ first_line (slice src p 13), c ≠ 0 ∧ c ≠ 13 ∧ c ≠ 10 := by
    intro c hc
    have := List.mem_takeWhile_imp hc
    simp only [Bool.and_eq_true, bne_iff_ne, ne_eq] at this
    exact ⟨this.1.1, this.1.2, this.2⟩
  obtain ⟨x, rest, hx, hrest⟩ : ∃ x rest, (x = 0 ∨ x = 13 ∨ x = 10)
      ∧ (slice src p 13).dropWhile (fun c => c != 0 && c != 13 && c != 10)
          ++ ([0, 0, 0] ++ dst.drop 16) = x :: rest := by
    cases hc : (slice src p 13).dropWhile (fun c => c != 0 && c != 13 && c != 10) with
    | nil => exact ⟨0, _, Or.inl rfl, rfl⟩
    | cons y ys =>
      refine ⟨y, _, ?_, rfl⟩
      have := dropWhile_head_not _ _ y ys hc
      by_cases h0 : y = 0
      · exact Or.inl h0
      · by_cases h13 : y = 13
        · exact Or.inr (Or.inl h13)
        · by_cases h10 : y = 10
          · exact Or.inr (Or.inr h10)
          · simp [h0, h13, h10] at this
  have hd : memcpy (memset0 dst 16) src p 13
      = first_line (slice src p 13) ++ x :: rest := by
    rw [hd1, ← hrest]
    conv_rhs => rw [← List.append_assoc, ← hw]
  obtain ⟨r2, _, he⟩ := crlf_loop_run (first_line (slice src p 13)) [] x rest
    (memcpy (memset0 dst 16) src p 13).length hok hx (by rw [hd]; simp)
  refine ⟨r2, ?_⟩
  rw [hd] at he ⊢
  simpa using he

/-- The string that `copy_edid_string` leaves in the destination, and the NUL after it. -/
theorem copy_edid_string_text (dst src : List Nat) (p : Nat) :
    cstr (copy_edid_string dst src p) = trim (first_line (slice src p 13))
    ∧ rd (copy_edid_string dst src p) (trim (first_line (slice src p 13))).length = 0 := by
  obtain ⟨r2, hloop⟩ := copy_first_loop dst src p
  obtain ⟨ws1, ws2, hs, h1, h2, hhead, hlast, hempty⟩ := trim_parts (first_line (slice src p 13))
  have hne : ∀ c ∈ trim (first_line (slice src p 13)), c ≠ 0 := by
    intro c hc
    have hm : c ∈ first_line (slice src p 13) := by
      rw [hs]
      exact List.mem_append_right _ (List.mem_append_left _ hc)
    have := List.mem_takeWhile_imp hm
    simp only [Bool.and_eq_true, bne_iff_ne, ne_eq] at this
    exact this.1.1
  have hd2 : crlf_loop (memcpy (memset0 dst 16) src p 13).length
      (memcpy (memset0 dst 16) src p 13) 0
      = ws1 ++ (trim (first_line (slice src p 13)) ++ (ws2 ++ 0 :: r2)) := by
    rw [hloop]
    conv_lhs => rw [hs]
    simp
  obtain ⟨hb, hn, hr, hc, hz⟩ := copy_tail ws1 (trim (first_line (slice src p 13))) ws2 r2 _ hd2
    h1 h2 hne hhead hlast hempty
  have hres : copy_edid_string dst src p
      = (move_loop (trim (first_line (slice src p 13))).length
          (crlf_loop (memcpy (memset0 dst 16) src p 13).length (memcpy (memset0 dst 16) src p 13) 0)
          ws1.length 0 ((ws1.length + (trim (first_line (slice src p 13))).length : Nat) : Int)).set
          (trim (first_line (slice src p 13))).length 0 := by
    unfold copy_edid_string
    simp only []
    rw [hb, hn, hr]
    have e1 : (ws1.length : Int) + ((trim (first_line (slice src p 13))).length : Int) - 1 + 1
        = ((ws1.length + (trim (first_line (slice src p 13))).length : Nat) : Int) := by
      push_cast; omega
    have e2 : (((ws1.length + (trim (first_line (slice src p 13))).length : Nat) : Int)
        - (ws1.length : Int)).toNat = (trim (first_line (slice src p 13))).length := by
      push_cast; omega
    rw [e1, e2]
  rw [hres]
  exact ⟨hc, hz⟩

/-- Claim C17: for a destination of at least 16 bytes and the window of 13 bytes at
offset `p`, the string that `copy_edid_string` leaves in the destination is the window
up to, and not including, its first NUL, CR or LF, without its leading and trailing
whitespace, and a NUL follows it.  The string has at most 13 characters, holds no CR
and no LF, and neither starts nor ends with a whitespace character. -/
theorem copy_edid_string_sanitizes (dst src : List Nat) (p : Nat) (hdst : 16 ≤ dst.length) :
    cstr (copy_edid_string dst src p) = trim (first_line (slice src p 13))
    ∧ rd (copy_edid_string dst src p) (trim (first_line (slice src p 13))).length = 0
    ∧ (cstr (copy_edid_string dst src p)).length ≤ 13
    ∧ 13 ∉ cstr (copy_edid_string dst src p)
    ∧ 10 ∉ cstr (copy_edid_string dst src p)
    ∧ (∀ c, (cstr (copy_edid_string dst src p)).head? = some c → isspace c = false)
    ∧ (∀ c, (cstr (copy_edid_string dst src p)).getLast? = some c → isspace c = false) := by
  obtain ⟨hc, hz⟩ := copy_edid_string_text dst src p
  obtain ⟨ws1, ws2, hs, h1, h2, hhead, hlast, hempty⟩ := trim_parts (first_line (slice src p 13))
  have hok : ∀ c ∈ first_line (slice src p 13), c ≠ 0 ∧ c ≠ 13 ∧ c ≠ 10 := by
    intro c hc
    have := List.mem_takeWhile_imp hc
    simp only [Bool.and_eq_true, bne_iff_ne, ne_eq] at this
    exact ⟨this.1.1, this.1.2, this.2⟩
  have hsub : ∀ c ∈ trim (first_line (slice src p 13)), c ∈ first_line (slice src p 13) := by
    intro c hc
    rw [hs]
    exact List.mem_append_right _ (List.mem_append_left _ hc)
  rw [hc]
  refine ⟨rfl, hz, ?_, ?_, ?_, ?_, ?_⟩
  · have hl : (first_line (slice src p 13)).length ≤ 13 := by
      have : (first_line (slice src p 13)).length ≤ (slice src p 13).length :=
        (List.takeWhile_sublist _).length_le
      rw [slice_length] at this
      exact this
    have : (first_line (slice src p 13)).length
        = ws1.length + ((trim (first_line (slice src p 13))).length + ws2.length) := by
      conv_lhs => rw [hs]
      simp
    omega
  · intro hm; exact (hok 13 (hsub 13 hm)).2.1 rfl
  · intro hm; exact (hok 10 (hsub 10 hm)).2.2 rfl
  · intro c hc
    cases ht : trim (first_line (slice src p 13)) with
    | nil => rw [ht] at hc; cases hc
    | cons a r =>
      rw [ht] at hc hhead
      have hac : a = c := by simpa using hc
      subst hac
      rcases hhead with h | h
      · cases h
      · exact h
  · intro c hc
    unfold trim at hc
    rw [List.getLast?_reverse] at hc
    cases hu : (List.dropWhile isspace (first_line (slice src p 13))).reverse.dropWhile isspace with
    | nil => rw [hu] at hc; cases hc
    | cons a r =>
      rw [hu] at hc
      have hac : a = c := by simpa using hc
      subst hac
      exact dropWhile_head_not isspace _ a r hu

theorem copy_edid_string_sanitizes_witness :
    cstr (copy_edid_string (List.replicate 16 9)
        [68, 69, 76, 76, 32, 85, 50, 52, 49, 50, 77, 10, 32] 0)
      = [68, 69, 76, 76, 32, 85, 50, 52, 49, 50, 77]
    ∧ cstr (copy_edid_string (List.replicate 16 9)
        [32, 9, 32, 10, 88, 89, 90, 32, 32, 32, 65, 66, 67] 0) = [] :=
  ⟨(copy_edid_string_sanitizes (List.replicate 16 9)
      [68, 69, 76, 76, 32, 85, 50, 52, 49, 50, 77, 10, 32] 0 (by decide)).1.trans (by decide),
   (copy_edid_string_sanitizes (List.replicate 16 9)
      [32, 9, 32, 10, 88, 89, 90, 32, 32, 32, 65, 66, 67] 0 (by decide)).1.trans (by decide)⟩

/-! ## The text records of the binary descriptor -/

theorem move_loop_length : ∀ (fuel : Nat) (d : List Nat) (s dd : Nat) (e : Int),
    (move_loop fuel d s dd e).length = d.length := by
  intro fuel
  induction fuel with
  | zero => intro d s dd e; rfl
  | succ f ih =>
    intro d s dd e
    rw [move_loop]
    by_cases h : (s : Int) < e
    · rw [if_pos h, ih, List.length_set]
    · rw [if_neg h]

/-- The function `copy_edid_string` keeps the size of the destination. -/
theorem copy_edid_string_length (dst src : List Nat) (p : Nat) (hdst : 16 ≤ dst.length) :
    (copy_edid_string dst src p).length = dst.length := by
  unfold copy_edid_string
  simp only []
  rw [List.length_set, move_loop_length]
  obtain ⟨l2, hl, he⟩ := crlf_loop_shape (memcpy (memset0 dst 16) src p 13).length []
    (memcpy (memset0 dst 16) src p 13)
  rw [List.nil_append, List.length_nil] at he
  rw [he, List.nil_append, hl]
  unfold memcpy memset0
  simp only [List.length_append, slice_length, List.length_drop, List.length_replicate]
  omega

/-- The result of `copy_edid_string` does not depend on what a destination of 16 bytes
held before. -/
theorem copy_edid_string_fresh (dst src : List Nat) (p : Nat) (hdst : dst.length = 16) :
    copy_edid_string dst src p = copy_edid_string (List.replicate 16 0) src p := by
  have h : memset0 dst 16 = memset0 (List.replicate 16 0) 16 := by
    unfold memset0
    rw [List.drop_of_length_le (by omega), List.drop_of_length_le (by simp)]
  unfold copy_edid_string
  simp only []
  rw [h]

/-- The text field of a tag after the body of the loop for the index `i`. -/
theorem edid_block_text (buff : Buffer) (e : EdidInfo) (i : Nat) (t : Tag) :
    (edid_block buff e i).text t
      = if is_descriptor buff.ptr t.code (54 + i * 18) = true
        then copy_edid_string (e.text t) buff.ptr (54 + i * 18 + 5) else e.text t := by
  unfold edid_block is_descriptor
  simp only []
  by_cases h0 : rd buff.ptr (54 + i * 18) = 0
  case neg =>
    rw [if_pos (Or.inl h0)]
    simp [h0]
  by_cases h1 : rd buff.ptr (54 + i * 18 + 1) = 0
  case neg =>
    rw [if_pos (Or.inr (Or.inl h1))]
    simp [h1]
  by_cases h2 : rd buff.ptr (54 + i * 18 + 2) = 0
  case neg =>
    rw [if_pos (Or.inr (Or.inr h2))]
    simp [h2]
  rw [if_neg (by simp [h0, h1, h2])]
  by_cases hfc : rd buff.ptr (54 + i * 18 + 3) = 0xfc
  · rw [if_pos hfc]
    cases t <;> simp [h0, h1, h2, hfc, Tag.code, EdidInfo.text]
  rw [if_neg hfc]
  by_cases hfe : rd buff.ptr (54 + i * 18 + 3) = 0xfe
  · rw [if_pos hfe]
    cases t <;> simp [h0, h1, h2, hfe, Tag.code, EdidInfo.text]
  rw [if_neg hfe]
  by_cases hff : rd buff.ptr (54 + i * 18 + 3) = 0xff
  · rw [if_pos hff]
    cases t <;> simp [h0, h1, h2, hff, Tag.code, EdidInfo.text]
  rw [if_neg hff]
  cases t <;> simp [h0, h1, h2, hfc, hfe, hff, Tag.code, EdidInfo.text]

/-- The text field of a tag after the loop over the indices `is`: the copy of the
payload of the last record with the tag, the field before the loop if there is none. -/
theorem edid_blocks_text (buff : Buffer) (t : Tag) : ∀ (is : List Nat) (e : EdidInfo),
    (e.text t).length = 16 →
    (is.foldl (edid_block buff) e).text t
      = match ((is.map (fun i => 54 + i * 18)).filter
            (is_descriptor buff.ptr t.code)).getLast? with
        | none => e.text t
        | some o => copy_edid_string (List.replicate 16 0) buff.ptr (o + 5) := by
  intro is
  induction is with
  | nil => intro e _; rfl
  | cons i r ih =>
    intro e he
    have hstep := edid_block_text buff e i t
    have hlen : ((edid_block buff e i).text t).length = 16 := by
      rw [hstep]
      split
      · rw [copy_edid_string_length _ _ _ (by omega), he]
      · exact he
    rw [List.foldl_cons, ih _ hlen, List.map_cons]
    by_cases hd : is_descriptor buff.ptr t.code (54 + i * 18) = true
    · rw [List.filter_cons_of_pos hd]
      rw [if_pos hd, copy_edid_string_fresh _ _ _ he] at hstep
      cases hf : (r.map (fun i => 54 + i * 18)).filter (is_descriptor buff.ptr t.code) with
      | nil => simp only [List.getLast?_nil, List.getLast?_singleton]; exact hstep
      | cons b l =>
        rw [List.getLast?_cons_cons]
        cases hg : (b :: l).getLast? with
        | none => simp at hg
        | some x => rfl
    · rw [List.filter_cons_of_neg hd]
      rw [if_neg hd] at hstep
      cases hf : ((r.map (fun i => 54 + i * 18)).filter
          (is_descriptor buff.ptr t.code)).getLast? with
      | none => exact hstep
      | some o => rfl

/-- The record of an accepted blob is the result of the loop over the five records. -/
theorem parse_edid_accepted (buff : Buffer) (hacc : (parse_edid buff).1 = true) :
    ∃ e0 : EdidInfo, (∀ t, e0.text t = List.replicate 16 0)
      ∧ (parse_edid buff).2 = (List.range 5).foldl (edid_block buff) e0 := by
  obtain ⟨hl, hh⟩ := (parse_edid_true_iff buff).mp hacc
  unfold parse_edid
  simp only []
  rw [if_neg (by omega), if_neg (not_not.mpr hh)]
  exact ⟨_, fun t => by cases t <;> rfl, rfl⟩

/-- Claim C16: for an accepted blob whose five records of 18 bytes at the offsets 54, 72,
90, 108, 126 are readable (at least 144 bytes) and for each tag, `FC` for the product
name, `FE` for the identifier, `FF` for the serial number: when no record has its first
three bytes zero and the tag as fourth byte, the field is all zero, the empty string;
otherwise the field is the sanitized copy of the 13 bytes at offset + 5 of the last such
record in ascending order of offset.  A record that is no such record for any of the
three tags changes nothing. -/
theorem parse_edid_descriptors (buff : Buffer) (t : Tag)
    (hacc : (parse_edid buff).1 = true)
    (hread : 144 ≤ buff.len) (hmem : buff.len ≤ buff.ptr.length) :
    (record_offsets.filter (is_descriptor buff.ptr t.code) = [] →
        (parse_edid buff).2.text t = List.replicate 16 0
        ∧ cstr ((parse_edid buff).2.text t) = [])
    ∧ (∀ o, (record_offsets.filter (is_descriptor buff.ptr t.code)).getLast? = some o →
        (parse_edid buff).2.text t = copy_edid_string (List.replicate 16 0) buff.ptr (o + 5)
        ∧ cstr ((parse_edid buff).2.text t) = trim (first_line (slice buff.ptr (o + 5) 13)))
    ∧ (∀ i, i < 5 → ∀ e : EdidInfo,
        (∀ t2 : Tag, is_descriptor buff.ptr t2.code (54 + i * 18) = false) →
        edid_block buff e i = e) := by
  obtain ⟨e0, he0, hres⟩ := parse_edid_accepted buff hacc
  have hmain := edid_blocks_text buff t (List.range 5) e0 (by rw [he0]; rfl)
  rw [← hres, he0] at hmain
  have hoffs : (List.range 5).map (fun i => 54 + i * 18) = record_offsets := rfl
  rw [hoffs] at hmain
  refine ⟨?_, ?_, ?_⟩
  · intro hnone
    rw [hnone] at hmain
    rw [hmain]
    exact ⟨rfl, rfl⟩
  · intro o ho
    rw [ho] at hmain
    rw [hmain]
    exact ⟨rfl, (copy_edid_string_text _ _ _).1⟩
  · intro i _ e hno
    have h1 := hno .product_name
    have h2 := hno .identifier
    have h3 := hno .serial_number
    unfold is_descriptor at h1 h2 h3
    simp only [Tag.code] at h1 h2 h3
    unfold edid_block
    simp only []
    by_cases hz : rd buff.ptr (54 + i * 18) ≠ 0 ∨ rd buff.ptr (54 + i * 18 + 1) ≠ 0
        ∨ rd buff.ptr (54 + i * 18 + 2) ≠ 0
    · rw [if_pos hz]
    · rw [if_neg hz]
      push_neg at hz
      obtain ⟨z0, z1, z2⟩ := hz
      simp only [z0, z1, z2, beq_self_eq_true, Bool.true_and, beq_eq_false_iff_ne, ne_eq] at h1 h2 h3
      rw [if_neg h1, if_neg h2, if_neg h3]

set_option maxRecDepth 8000 in
theorem parse_edid_descriptors_witness :
    cstr (parse_edid records_blob).2.product_name = [83, 69, 67, 79, 78, 68]
    ∧ cstr (parse_edid records_blob).2.serial_number = [83, 69, 82, 49, 50, 51]
    ∧ (parse_edid records_blob).2.identifier = List.replicate 16 0 :=
  ⟨((parse_edid_descriptors records_blob .product_name rfl (by decide) (by decide)).2.1
      90 rfl).2.trans rfl,
   ((parse_edid_descriptors records_blob .serial_number rfl (by decide) (by decide)).2.1
      72 rfl).2.trans rfl,
   ((parse_edid_descriptors records_blob .identifier rfl (by decide) (by decide)).1
      rfl).1⟩

/-! ## The matching loop -/

theorem strcmp_loop_shift (x y : Nat) (a b : List Nat) : ∀ (fuel i : Nat),
    strcmp_loop (x :: a) (y :: b) fuel (i + 1) = strcmp_loop a b fuel i := by
  intro fuel
  induction fuel with
  | zero => intro i; rfl
  | succ f ih =>
    intro i
    rw [strcmp_loop, strcmp_loop, ih]
    rfl

theorem cstr_cons (x : Nat) (a : List Nat) :
    cstr (x :: a) = if x = 0 then [] else x :: cstr a := by
  unfold cstr
  by_cases h : x = 0
  · subst h; rfl
  · rw [if_neg h, List.takeWhile_cons_of_pos (by simpa using h)]

/-- C `strcmp` returns 0 exactly on arrays that hold the same string. -/
theorem strcmp_eq_zero_iff : ∀ (a b : List Nat), strcmp a b = 0 ↔ cstr a = cstr b := by
  intro a
  induction a with
  | nil =>
    intro b
    cases b with
    | nil => exact ⟨fun _ => rfl, fun _ => rfl⟩
    | cons y b2 =>
      have e : strcmp [] (y :: b2) = 0 - (y : Int) := rfl
      rw [e, cstr_cons]
      by_cases hy : y = 0
      · subst hy; exact ⟨fun _ => rfl, fun _ => rfl⟩
      · rw [if_neg hy]
        constructor
        · intro h; omega
        · intro h; cases h
  | cons x a2 ih =>
    intro b
    cases b with
    | nil =>
      have e : strcmp (x :: a2) [] = if x ≠ 0 then (x : Int) - (0 : Nat)
          else if x = 0 then 0 else strcmp_loop (x :: a2) [] a2.length 1 := rfl
      rw [e, cstr_cons]
      by_cases hx : x = 0
      · subst hx; exact ⟨fun _ => rfl, fun _ => rfl⟩
      · rw [if_pos hx, if_neg hx]
        constructor
        · intro h; push_cast at h; omega
        · intro h; cases h
    | cons y b2 =>
      have e : strcmp (x :: a2) (y :: b2) = if x ≠ y then (x : Int) - (y : Int)
          else if x = 0 then 0 else strcmp_loop (x :: a2) (y :: b2) a2.length (0 + 1) := rfl
      rw [e, strcmp_loop_shift, cstr_cons, cstr_cons]
      by_cases hxy : x = y
      · subst hxy
        rw [if_neg (by simp)]
        by_cases hx : x = 0
        · simp only [if_pos hx]
        · simp only [if_neg hx]
          have := ih b2
          unfold strcmp at this
          rw [this]
          constructor
          · intro h; rw [h]
          · intro h; exact (List.cons.inj h).2
      · rw [if_pos hxy]
        constructor
        · intro h; exact absurd (by omega) hxy
        · intro h
          by_cases hx : x = 0
          · rw [if_pos hx] at h
            by_cases hy : y = 0
            · exact absurd (hx.trans hy.symm) hxy
            · rw [if_neg hy] at h; cases h
          · rw [if_neg hx] at h
            by_cases hy : y = 0
            · rw [if_pos hy] at h; cases h
            · rw [if_neg hy] at h
              exact absurd (List.cons.inj h).1 hxy

/-- The body of the loop takes the dpi of a row that has one and matches, and keeps
the value otherwise. -/
theorem main_loop_body_eq (edid : EdidInfo) (dpi : Nat) (row : ConfigRow) :
    main_loop_body edid dpi row
      = if row.has_dpi = true ∧ RowMatches row edid then row.dpi else dpi := by
  unfold main_loop_body RowMatches
  simp only [ne_eq, strcmp_eq_zero_iff]
  by_cases h1 : row.has_pnp = true ∧ ¬ cstr row.pnp = cstr edid.pnp_id
  · rw [if_pos h1, if_neg (fun h => h1.2 (h.2.1 h1.1))]
  rw [if_neg h1]
  by_cases h2 : row.has_product = true ∧ ¬ row.product = edid.product_id
  · rw [if_pos h2, if_neg (fun h => h2.2 (h.2.2.1 h2.1))]
  rw [if_neg h2]
  by_cases h3 : row.has_name = true ∧ ¬ cstr row.name = cstr edid.product_name
  · rw [if_pos h3, if_neg (fun h => h3.2 (h.2.2.2.1 h3.1))]
  rw [if_neg h3]
  by_cases h4 : row.has_serial = true ∧ ¬ cstr row.serial = cstr edid.serial_number
  · rw [if_pos h4, if_neg (fun h => h4.2 (h.2.2.2.2 h4.1))]
  rw [if_neg h4]
  have hm : (row.has_pnp = true → cstr row.pnp = cstr edid.pnp_id)
      ∧ (row.has_product = true → row.product = edid.product_id)
      ∧ (row.has_name = true → cstr row.name = cstr edid.product_name)
      ∧ (row.has_serial = true → cstr row.serial = cstr edid.serial_number) :=
    ⟨fun h => by_contra fun hc => h1 ⟨h, hc⟩, fun h => by_contra fun hc => h2 ⟨h, hc⟩,
     fun h => by_contra fun hc => h3 ⟨h, hc⟩, fun h => by_contra fun hc => h4 ⟨h, hc⟩⟩
  by_cases hd : row.has_dpi = true
  · rw [if_pos hd, if_pos ⟨hd, hm⟩]
  · rw [if_neg hd, if_neg (fun h => hd h.1)]

/-- Rows none of which has a dpi and matches leave the value of `dpi` alone. -/
theorem main_loop_skip (edid : EdidInfo) : ∀ (rows : List ConfigRow) (dpi : Nat),
    (∀ r ∈ rows, ¬ (r.has_dpi = true ∧ RowMatches r edid)) →
    rows.foldl (main_loop_body edid) dpi = dpi := by
  intro rows
  induction rows with
  | nil => intro dpi _; rfl
  | cons r rs ih =>
    intro dpi h
    rw [List.foldl_cons, main_loop_body_eq, if_neg (h r (List.mem_cons_self _ _))]
    exact ih dpi (fun x hx => h x (List.mem_cons_of_mem _ hx))

/-- Claim C18: for every list of rows and every record, the value of `dpi` after the
matching loop is 0 when no row has a dpi and matches the record on every field present
in the row, and otherwise it is the dpi of the last such row of the list.  A field that
is absent from a row does not constrain the match; strings are compared byte for
byte. -/
theorem main_dpi_last_match (edid : EdidInfo) (rows : List ConfigRow) :
    ((∀ r ∈ rows, ¬ (r.has_dpi = true ∧ RowMatches r edid)) → main_dpi edid rows = 0)
    ∧ (∀ (before : List ConfigRow) (r : ConfigRow) (after : List ConfigRow),
        rows = before ++ r :: after → r.has_dpi = true → RowMatches r edid →
        (∀ x ∈ after, ¬ (x.has_dpi = true ∧ RowMatches x edid)) →
        main_dpi edid rows = r.dpi) := by
  constructor
  · intro h
    exact main_loop_skip edid rows 0 h
  · intro before r after hrows hd hm hafter
    unfold main_dpi
    rw [hrows, List.foldl_append, List.foldl_cons, main_loop_body_eq, if_pos ⟨hd, hm⟩]
    exact main_loop_skip edid after r.dpi hafter

theorem main_dpi_last_match_witness :
    -- the lines "pnp=\"ACI\" dpi=96" and "pnp=\"ACI\" name=\"X\" dpi=120"
    ∃ row1 row2,
      read_config_row_parse [112, 110, 112, 61, 34, 65, 67, 73, 34, 32, 100, 112, 105, 61, 57, 54, 10]
          0 example_row = some (true, row1)
      ∧ read_config_row_parse [112, 110, 112, 61, 34, 65, 67, 73, 34, 32, 110, 97, 109, 101, 61,
          34, 88, 34, 32, 100, 112, 105, 61, 49, 50, 48, 10] 0 row1 = some (true, row2)
      ∧ main_dpi (example_edid 88) [row1, row2] = 120
      ∧ main_dpi (example_edid 89) [row1, row2] = 96
      ∧ main_dpi (example_edid 88) [{ row1 with has_dpi := false }] = 0 := by
  refine ⟨_, _, rfl, rfl, ?_, ?_, ?_⟩
  · exact (main_dpi_last_match (example_edid 88) _).2 [_] _ [] rfl rfl (by decide)
      (fun x hx => by cases hx)
  · exact (main_dpi_last_match (example_edid 89) _).2 [] _ [_] rfl rfl (by decide)
      (by decide)
  · exact (main_dpi_last_match (example_edid 88) _).1 (by decide)

/-! ## Literals without escapes, and literals that do not end -/

theorem srcs_plain (s : List Nat) : srcs (s.map Item.plain) = s := by
  induction s with
  | nil => rfl
  | cons c r ih => rw [List.map_cons, srcs_cons, ih]; rfl

theorem bytes_plain (s : List Nat) : bytes (s.map Item.plain) = s := by
  induction s with
  | nil => rfl
  | cons c r ih =>
    unfold bytes at ih ⊢
    rw [List.map_cons, List.map_cons, ih]
    rfl

theorem wfItems_plain (rest : List Nat) : ∀ (s : List Nat),
    (∀ c ∈ s, c ≠ 34 ∧ c ≠ 92 ∧ c ≠ 0 ∧ c < 256) → WfItems (s.map Item.plain) rest := by
  intro s
  induction s with
  | nil => intro _; trivial
  | cons c r ih =>
    intro h
    obtain ⟨h1, h2, h3, h4⟩ := h c (List.mem_cons_self _ _)
    refine ⟨⟨h3, h1, h2, h4⟩, ?_, ih (fun x hx => h x (List.mem_cons_of_mem _ hx))⟩
    intro hn
    cases hn

/-- The loop of `read_string` at the end of the input. -/
theorem read_string_loop_eof (buf mem : List Nat) (cap fuel str ptr : Nat)
    (h : rd buf str = 0) :
    read_string_loop buf cap fuel str mem ptr = (STAT_FAIL str 0, mem) := by
  cases fuel with
  | zero => rfl
  | succ f => rw [read_string_loop, if_neg (by rw [h]; decide), if_pos h]

/-- Claim C21: for every capacity `N` and every string `s` of fewer than `N` bytes none
of which is the double quote, the backslash or NUL, `read_string` on `s` between double
quotes returns success, the destination holds the bytes of `s` unchanged followed by
`N - k` zero bytes, `k` being the length of `s`, and the cursor is one past the closing
quote, whatever text follows the quote and whatever the destination held before. -/
theorem read_string_plain_text (s pre tail mem : List Nat) (N : Nat)
    (hs : ∀ c ∈ s, c ≠ 34 ∧ c ≠ 92 ∧ c ≠ 0 ∧ c < 256) (hk : s.length < N) :
    read_string (pre ++ (34 :: (s ++ 34 :: tail))) pre.length mem N
      = ({ next := pre.length + s.length + 2, ok := true, overflow := false },
         s ++ (List.replicate (N - s.length) 0 ++ mem.drop N)) := by
  have h := read_string_literal_ok (s.map Item.plain) pre tail mem N
    (wfItems_plain _ s hs) (by rw [List.length_map]; exact hk)
  rw [srcs_plain, bytes_plain, List.length_map] at h
  exact h

theorem read_string_plain_text_witness :
    -- the literal "a b" before `x`, into 6 bytes of a memory of 8
    read_string [61, 34, 97, 32, 98, 34, 120] 1 [1, 2, 3, 4, 5, 6, 7, 8] 6
      = ({ next := 6, ok := true, overflow := false }, [97, 32, 98, 0, 0, 0, 7, 8]) :=
  read_string_plain_text [97, 32, 98] [61] [120] [1, 2, 3, 4, 5, 6, 7, 8] 6 (by decide) (by decide)

/-- Claim C22: when the byte at the cursor is not the double quote, `read_string` fails
with the cursor unmoved; and on a double quote followed by well-formed items, fewer
than the capacity, and then the end of the input with no closing quote, it fails with
the cursor on the end of the input. -/
theorem read_string_unterminated (mem : List Nat) (cap : Nat) :
    (∀ (buf : List Nat) (str : Nat), rd buf str ≠ 34 →
      (read_string buf str mem cap).1 = { next := str, ok := false, overflow := false })
    ∧ (∀ (its : List Item) (pre tail : List Nat),
      WfItems its tail → rd tail 0 = 0 → its.length < cap →
      (read_string (pre ++ (34 :: (srcs its ++ tail))) pre.length mem cap).1
        = { next := pre.length + 1 + (srcs its).length, ok := false, overflow := false }) := by
  constructor
  · intro buf str h
    unfold read_string
    simp only []
    rw [if_pos h]
    rfl
  · intro its pre tail hw h0 hlt
    rw [read_string_after_items its pre tail mem cap hw hlt, read_string_loop_eof]
    · rfl
    · have e : pre ++ (34 :: (srcs its ++ tail)) = (pre ++ 34 :: srcs its) ++ tail := by simp
      have l : pre.length + 1 + (srcs its).length = (pre ++ 34 :: srcs its).length := by
        simp only [List.length_append, List.length_cons]; omega
      rw [e, l, rd_append_length]
      exact h0

theorem read_string_unterminated_witness :
    -- the inputs `abc`, the empty input, `"ab` and `"a\n\"` followed by NUL and `"`
    (read_string [97, 98, 99] 0 [1, 2, 3, 4] 4).1 = { next := 0, ok := false, overflow := false }
    ∧ (read_string [] 0 [1, 2, 3, 4] 4).1 = { next := 0, ok := false, overflow := false }
    ∧ (read_string [34, 97, 98] 0 [1, 2, 3, 4] 4).1
        = { next := 3, ok := false, overflow := false }
    ∧ (read_string [34, 97, 92, 110, 92, 34, 0, 34] 0 [1, 2, 3, 4] 4).1
        = { next := 6, ok := false, overflow := false } :=
  have h := read_string_unterminated [1, 2, 3, 4] 4
  ⟨h.1 [97, 98, 99] 0 (by decide), h.1 [] 0 (by decide),
   h.2 [.plain 97, .plain 98] [] [] (by simp [WfItems, Item.wf]) rfl (by decide),
   h.2 [.plain 97, .simple 110, .simple 34] [] [0, 34]
     (by simp [WfItems, Item.wf, simple_escape]) rfl (by decide)⟩

/-! ## The failures of `read_unsigned` -/

/-- The loop of `read_unsigned` after a run of digits followed by a character that the
chain of lines 141 to 151 rejects. -/
theorem read_unsigned_loop_reject (h o b : Bool) (base : Nat) (dv : Nat → Nat) (hb : 1 ≤ base)
    (pre ds : List Nat) (c : Nat) (rest : List Nat) (slot fuel : Nat)
    (hd : ∀ d ∈ ds, DigitFor h o b base dv d)
    (hle : ds.foldl (fun v d => v * base + dv d) 0 ≤ 65535)
    (hc0 : c ≠ 0) (hcs : isspace c = false) (hcd : isdigit c = false)
    (hcx : h = true → isxdigit c = false) (hf : ds.length + 1 ≤ fuel) :
    read_unsigned_loop (pre ++ (ds ++ c :: rest)) h o b fuel pre.length 0 slot
      = (STAT_FAIL (pre.length + ds.length) 0, slot) := by
  obtain ⟨f, rfl⟩ : ∃ f, fuel = (f + 1) + ds.length := ⟨fuel - ds.length - 1, by omega⟩
  rw [read_unsigned_loop_run h o b base dv hb ds pre (c :: rest) 0 (f + 1) slot hd hle]
  have e : pre ++ (ds ++ c :: rest) = (pre ++ ds) ++ c :: rest := by simp
  have l : pre.length + ds.length = (pre ++ ds).length := by simp
  have hrd : rd (pre ++ (ds ++ c :: rest)) (pre.length + ds.length) = c := by
    rw [e, l, rd_append_length]; rfl
  have hod : isodigit c = false := by
    simp only [isdigit, isodigit, Bool.and_eq_false_imp, decide_eq_true_eq,
      decide_eq_false_iff_not] at hcd ⊢
    intro h1 h2
    exact hcd h1 (by omega)
  have h01 : ¬ (c = 48 ∨ c = 49) := by
    rintro (rfl | rfl) <;> exact absurd hcd (by decide)
  have hacc : ∀ v, accumulate h o b v c = none := by
    intro v
    unfold accumulate
    rw [if_neg (fun hh => by rw [hcx hh.1] at hh; exact absurd hh.2 (by decide)),
      if_neg (fun hh => by rw [hod] at hh; exact absurd hh.2 (by decide)),
      if_neg (fun hh => h01 hh.2), if_neg (by rw [hcd]; decide)]
  rw [read_unsigned_loop, hrd, if_neg hc0, hcs]
  simp only [Bool.false_eq_true, reduceIte, hacc]

/-- Claim C23: `read_unsigned` fails, the output slot unchanged, when the first character
is not a decimal digit (cursor at the start), when a base prefix is followed by the end
of the string or by whitespace (cursor right after the prefix), and when a run of valid
digits of value at most 65535 whose first digit is a decimal digit is followed by a
character that is no digit, no whitespace and not the end of the string (cursor on that
character), in each of the five notations.  After `0x` or `0X` a first digit that is a
letter is a failure with the cursor right after the prefix, not on the character that
follows the run of digits. -/
theorem read_unsigned_failures (pre : List Nat) (slot : Nat) :
    -- the first character is not a decimal digit
    (∀ (buf : List Nat) (str : Nat), isdigit (rd buf str) = false →
      read_unsigned buf str slot = ({ next := str, ok := false, overflow := false }, slot))
    -- a base prefix followed by the end of the string or by whitespace
    ∧ (∀ (p : Nat) (tail : List Nat), p ∈ [120, 88, 111, 79, 98, 66] → Terminated tail →
      read_unsigned (pre ++ ([48, p] ++ tail)) pre.length slot
        = ({ next := pre.length + 2, ok := false, overflow := false }, slot))
    -- decimal digits, then a character that is no digit, no whitespace and not the end
    ∧ (∀ (ds : List Nat) (c : Nat) (rest : List Nat),
      ds ≠ [] → (∀ d ∈ ds, isdigit d = true) →
      (rd ds 0 ≠ 48 ∨ (ds = [48] ∧ c ∉ [120, 88, 111, 79, 98, 66])) →
      ds.foldl (fun v d => v * 10 + (d - 48)) 0 ≤ 65535 →
      c ≠ 0 → isspace c = false → isdigit c = false →
      read_unsigned (pre ++ (ds ++ c :: rest)) pre.length slot
        = ({ next := pre.length + ds.length, ok := false, overflow := false }, slot))
    -- `0x` or `0X`, hexadecimal digits the first of which is a decimal digit, such a character
    ∧ (∀ (p : Nat) (ds : List Nat) (c : Nat) (rest : List Nat), p = 120 ∨ p = 88 →
      isdigit (rd ds 0) = true → (∀ d ∈ ds, isxdigit d = true) →
      ds.foldl (fun v d => v * 16 + hexval d) 0 ≤ 65535 →
      c ≠ 0 → isspace c = false → isxdigit c = false →
      read_unsigned (pre ++ ([48, p] ++ (ds ++ c :: rest))) pre.length slot
        = ({ next := pre.length + 2 + ds.length, ok := false, overflow := false }, slot))
    -- `0o` or `0O`, octal digits, such a character
    ∧ (∀ (p : Nat) (ds : List Nat) (c : Nat) (rest : List Nat), p = 111 ∨ p = 79 →
      ds ≠ [] → (∀ d ∈ ds, isodigit d = true) →
      ds.foldl (fun v d => v * 8 + (d - 48)) 0 ≤ 65535 →
      c ≠ 0 → isspace c = false → isdigit c = false →
      read_unsigned (pre ++ ([48, p] ++ (ds ++ c :: rest))) pre.length slot
        = ({ next := pre.length + 2 + ds.length, ok := false, overflow := false }, slot))
    -- `0b` or `0B`, binary digits, such a character
    ∧ (∀ (p : Nat) (ds : List Nat) (c : Nat) (rest : List Nat), p = 98 ∨ p = 66 →
      ds ≠ [] → (∀ d ∈ ds, d = 48 ∨ d = 49) →
      ds.foldl (fun v d => v * 2 + (d - 48)) 0 ≤ 65535 →
      c ≠ 0 → isspace c = false → isdigit c = false →
      read_unsigned (pre ++ ([48, p] ++ (ds ++ c :: rest))) pre.length slot
        = ({ next := pre.length + 2 + ds.length, ok := false, overflow := false }, slot))
    -- `0`, octal digits, such a character
    ∧ (∀ (ds : List Nat) (c : Nat) (rest : List Nat),
      ds ≠ [] → (∀ d ∈ ds, isodigit d = true) →
      ds.foldl (fun v d => v * 8 + (d - 48)) 0 ≤ 65535 →
      c ≠ 0 → isspace c = false → isdigit c = false →
      read_unsigned (pre ++ ([48] ++ (ds ++ c :: rest))) pre.length slot
        = ({ next := pre.length + 1 + ds.length, ok := false, overflow := false }, slot))
    -- `0x` or `0X` and a first hexadecimal digit that is a letter: the cursor stays after
    -- the prefix, whatever follows the digits
    ∧ (∀ (p l : Nat) (rest : List Nat), p = 120 ∨ p = 88 →
      isxdigit l = true → isdigit l = false →
      read_unsigned (pre ++ ([48, p] ++ l :: rest)) pre.length slot
        = ({ next := pre.length + 2, ok := false, overflow := false }, slot)) := by
  have r0 : ∀ (x : Nat) (t : List Nat), rd (pre ++ (x :: t)) pre.length = x := by
    intro x t; rw [rd_append_length]; rfl
  have r1 : ∀ (x y : Nat) (t : List Nat), rd (pre ++ (x :: y :: t)) (pre.length + 1) = y := by
    intro x y t; rw [rd_append_right]; rfl
  have r2 : ∀ (x y : Nat) (t : List Nat), rd (pre ++ (x :: y :: t)) (pre.length + 2) = rd t 0 := by
    intro x y t; rw [rd_append_right]; rfl
  have hfail2 : ∀ (p : Nat) (t : List Nat), p ∈ [120, 88, 111, 79, 98, 66] →
      isdigit (rd t 0) = false →
      read_unsigned (pre ++ ([48, p] ++ t)) pre.length slot
        = ({ next := pre.length + 2, ok := false, overflow := false }, slot) := by
    intro p t hp hd
    simp only [List.mem_cons, List.mem_singleton, List.not_mem_nil, or_false] at hp
    simp only [List.cons_append, List.nil_append]
    rcases hp with rfl | rfl | rfl | rfl | rfl | rfl
    · rw [read_unsigned_hex _ _ _ (r0 _ _) (Or.inl (r1 _ _ _)), r2, hd]; rfl
    · rw [read_unsigned_hex _ _ _ (r0 _ _) (Or.inr (r1 _ _ _)), r2, hd]; rfl
    · rw [read_unsigned_oct_o _ _ _ (r0 _ _) (Or.inl (r1 _ _ _)), r2, hd]; rfl
    · rw [read_unsigned_oct_o _ _ _ (r0 _ _) (Or.inr (r1 _ _ _)), r2, hd]; rfl
    · rw [read_unsigned_bin _ _ _ (r0 _ _) (Or.inl (r1 _ _ _)), r2, hd]; rfl
    · rw [read_unsigned_bin _ _ _ (r0 _ _) (Or.inr (r1 _ _ _)), r2, hd]; rfl
  have hhead : ∀ (ds : List Nat) (c : Nat) (rest : List Nat), ds ≠ [] →
      rd (ds ++ c :: rest) 0 = rd ds 0 := by
    intro ds c rest hne
    cases ds with
    | nil => exact absurd rfl hne
    | cons a r => rfl
  have hmem0 : ∀ (ds : List Nat), ds ≠ [] → rd ds 0 ∈ ds := by
    intro ds hne
    cases ds with
    | nil => exact absurd rfl hne
    | cons a r => exact List.mem_cons_self _ _
  have hoct : ∀ d, isodigit d = true → 48 ≤ d ∧ d < 56 := by
    intro d hd
    simpa [isodigit] using hd
  have hdig : ∀ d, isdigit d = true → 48 ≤ d ∧ d ≤ 57 := by
    intro d hd
    simpa [isdigit] using hd
  refine ⟨?_, ?_, ?_, ?_, ?_, ?_, ?_, ?_⟩
  · intro buf str h
    unfold read_unsigned
    rw [if_pos h]
    rfl
  · intro p tail hp ht
    exact hfail2 p tail hp (terminated_not_digit tail ht).1
  · intro ds c rest hne hds hlead hle hc0 hcs hcd
    have hfirst : rd (pre ++ (ds ++ c :: rest)) pre.length = rd ds 0 := by
      rw [rd_append_length, hhead ds c rest hne]
    have hplain := read_unsigned_plain (pre ++ (ds ++ c :: rest)) pre.length slot
      (by rw [hfirst]; exact hds _ (hmem0 ds hne))
      (by
        rcases hlead with h | ⟨h1, h2⟩
        · left; rw [hfirst]; exact h
        · right
          subst h1
          have : rd (pre ++ ([48] ++ c :: rest)) (pre.length + 1) = c := by
            rw [rd_append_right]; rfl
          rw [this]
          simp only [List.mem_cons, List.mem_singleton, List.not_mem_nil, or_false, not_or] at h2
          exact ⟨hcd, h2.1, h2.2.1, h2.2.2.2.2.1, h2.2.2.2.2.2, h2.2.2.1, h2.2.2.2.1⟩)
    rw [hplain, read_unsigned_loop_reject false false false 10 (fun d => d - 48) (by omega)
      pre ds c rest slot _ (fun d hd => digitFor_dec d (hdig d (hds d hd)).1 (hdig d (hds d hd)).2)
      hle hc0 hcs hcd (fun h => by cases h)
      (by simp only [List.length_append, List.length_cons]; omega)]
    rfl
  · intro p ds c rest hp hfirst hds hle hc0 hcs hcx
    have hne : ds ≠ [] := by
      rintro rfl
      exact absurd hfirst (by decide)
    have hcd : isdigit c = false := by
      cases hd : isdigit c with
      | false => rfl
      | true =>
        have := hdig c hd
        have hx : isxdigit c = true := by simp [isxdigit, this.1, this.2]
        rw [hx] at hcx
        cases hcx
    have e : pre ++ ([48, p] ++ (ds ++ c :: rest)) = (pre ++ [48, p]) ++ (ds ++ c :: rest) := by
      simp
    have hd2 : isdigit (rd (pre ++ ([48, p] ++ (ds ++ c :: rest))) (pre.length + 2)) = true := by
      simp only [List.cons_append, List.nil_append]
      rw [r2, hhead ds c rest hne]
      exact hfirst
    have hloop := read_unsigned_loop_reject true false false 16 hexval (by omega)
      (pre ++ [48, p]) ds c rest slot
      ((pre ++ ([48, p] ++ (ds ++ c :: rest))).length - (pre.length + 2))
      (fun d hd => digitFor_hex d (hds d hd)) hle hc0 hcs hcd (fun _ => hcx)
      (by simp only [List.length_append, List.length_cons, List.length_nil]; omega)
    rw [← e, show (pre ++ [48, p]).length = pre.length + 2 by simp] at hloop
    rw [read_unsigned_hex _ _ _ (by simp only [List.cons_append, List.nil_append]; exact r0 _ _)
      (by simp only [List.cons_append, List.nil_append]; rw [r1]; exact hp), hd2]
    simp only [Bool.true_eq_false, reduceIte]
    rw [hloop]
    rfl
  · intro p ds c rest hp hne hds hle hc0 hcs hcd
    have e : pre ++ ([48, p] ++ (ds ++ c :: rest)) = (pre ++ [48, p]) ++ (ds ++ c :: rest) := by
      simp
    have hd2 : isdigit (rd (pre ++ ([48, p] ++ (ds ++ c :: rest))) (pre.length + 2)) = true := by
      simp only [List.cons_append, List.nil_append]
      rw [r2, hhead ds c rest hne]
      have := hoct _ (hds _ (hmem0 ds hne))
      simp [isdigit]; omega
    have hloop := read_unsigned_loop_reject false true false 8 (fun d => d - 48) (by omega)
      (pre ++ [48, p]) ds c rest slot
      ((pre ++ ([48, p] ++ (ds ++ c :: rest))).length - (pre.length + 2))
      (fun d hd => digitFor_oct d (hoct d (hds d hd)).1 (hoct d (hds d hd)).2)
      hle hc0 hcs hcd (fun h => by cases h)
      (by simp only [List.length_append, List.length_cons, List.length_nil]; omega)
    rw [← e, show (pre ++ [48, p]).length = pre.length + 2 by simp] at hloop
    rw [read_unsigned_oct_o _ _ _ (by simp only [List.cons_append, List.nil_append]; exact r0 _ _)
      (by simp only [List.cons_append, List.nil_append]; rw [r1]; exact hp), hd2]
    simp only [Bool.true_eq_false, reduceIte]
    rw [hloop]
    rfl
  · intro p ds c rest hp hne hds hle hc0 hcs hcd
    have e : pre ++ ([48, p] ++ (ds ++ c :: rest)) = (pre ++ [48, p]) ++ (ds ++ c :: rest) := by
      simp
    have hd2 : isdigit (rd (pre ++ ([48, p] ++ (ds ++ c :: rest))) (pre.length + 2)) = true := by
      simp only [List.cons_append, List.nil_append]
      rw [r2, hhead ds c rest hne]
      rcases hds _ (hmem0 ds hne) with h | h <;> rw [h] <;> rfl
    have hloop := read_unsigned_loop_reject false false true 2 (fun d => d - 48) (by omega)
      (pre ++ [48, p]) ds c rest slot
      ((pre ++ ([48, p] ++ (ds ++ c :: rest))).length - (pre.length + 2))
      (fun d hd => digitFor_bin d (hds d hd))
      hle hc0 hcs hcd (fun h => by cases h)
      (by simp only [List.length_append, List.length_cons, List.length_nil]; omega)
    rw [← e, show (pre ++ [48, p]).length = pre.length + 2 by simp] at hloop
    rw [read_unsigned_bin _ _ _ (by simp only [List.cons_append, List.nil_append]; exact r0 _ _)
      (by simp only [List.cons_append, List.nil_append]; rw [r1]; exact hp), hd2]
    simp only [Bool.true_eq_false, reduceIte]
    rw [hloop]
    rfl
  · intro ds c rest hne hds hle hc0 hcs hcd
    have e : pre ++ ([48] ++ (ds ++ c :: rest)) = (pre ++ [48]) ++ (ds ++ c :: rest) := by
      simp
    have hd1 : isdigit (rd (pre ++ ([48] ++ (ds ++ c :: rest))) (pre.length + 1)) = true := by
      rw [rd_append_right]
      have : rd ([48] ++ (ds ++ c :: rest)) 1 = rd (ds ++ c :: rest) 0 := rfl
      rw [this, hhead ds c rest hne]
      have := hoct _ (hds _ (hmem0 ds hne))
      simp [isdigit]; omega
    have hloop := read_unsigned_loop_reject false true false 8 (fun d => d - 48) (by omega)
      (pre ++ [48]) ds c rest slot
      ((pre ++ ([48] ++ (ds ++ c :: rest))).length - (pre.length + 1))
      (fun d hd => digitFor_oct d (hoct d (hds d hd)).1 (hoct d (hds d hd)).2)
      hle hc0 hcs hcd (fun h => by cases h)
      (by simp only [List.length_append, List.length_cons, List.length_nil]; omega)
    rw [← e, show (pre ++ [(48 : Nat)]).length = pre.length + 1 by simp] at hloop
    rw [read_unsigned_oct_c _ _ _ (by rw [rd_append_length]; rfl) hd1, hloop]
    rfl
  · intro p l rest hp hx hd
    exact hfail2 p (l :: rest) (by rcases hp with rfl | rfl <;> simp) hd

theorem read_unsigned_failures_witness :
    -- the strings `abc`, `0x `, `96#`, `0x1G`, `0o17#`, `0b101#`, `017#` and `0xF#`
    read_unsigned [97, 98, 99] 0 7 = ({ next := 0, ok := false, overflow := false }, 7)
    ∧ read_unsigned [48, 120, 32] 0 7 = ({ next := 2, ok := false, overflow := false }, 7)
    ∧ read_unsigned [57, 54, 35] 0 7 = ({ next := 2, ok := false, overflow := false }, 7)
    ∧ read_unsigned [48, 120, 49, 71] 0 7 = ({ next := 3, ok := false, overflow := false }, 7)
    ∧ read_unsigned [48, 111, 49, 55, 35] 0 7 = ({ next := 4, ok := false, overflow := false }, 7)
    ∧ read_unsigned [48, 98, 49, 48, 49, 35] 0 7
        = ({ next := 5, ok := false, overflow := false }, 7)
    ∧ read_unsigned [48, 49, 55, 35] 0 7 = ({ next := 3, ok := false, overflow := false }, 7)
    ∧ read_unsigned [48, 120, 70, 35] 0 7 = ({ next := 2, ok := false, overflow := false }, 7) :=
  have h := read_unsigned_failures [] 7
  ⟨h.1 [97, 98, 99] 0 (by decide),
   h.2.1 120 [32] (by decide) (Or.inr (by decide)),
   h.2.2.1 [57, 54] 35 [] (by decide) (by decide) (Or.inl (by decide)) (by decide) (by decide)
     (by decide) (by decide),
   h.2.2.2.1 120 [49] 71 [] (Or.inl rfl) (by decide) (by decide) (by decide) (by decide)
     (by decide) (by decide),
   h.2.2.2.2.1 111 [49, 55] 35 [] (Or.inl rfl) (by decide) (by decide) (by decide) (by decide)
     (by decide) (by decide),
   h.2.2.2.2.2.1 98 [49, 48, 49] 35 [] (Or.inl rfl) (by decide) (by decide) (by decide)
     (by decide) (by decide) (by decide),
   h.2.2.2.2.2.2.1 [49, 55] 35 [] (by decide) (by decide) (by decide) (by decide) (by decide)
     (by decide),
   h.2.2.2.2.2.2.2 120 70 [35] (Or.inl rfl) (by decide) (by decide)⟩

/-! ## The bounds of the reads of `parse_edid` -/

theorem edid_block_reads_lt (buff : Buffer) (i : Nat) :
    ∀ o ∈ edid_block_reads buff i, o < 54 + i * 18 + 18 := by
  intro o ho
  unfold edid_block_reads copy_edid_string_reads at ho
  simp only [] at ho
  split_ifs at ho <;>
    simp only [List.mem_cons, List.mem_singleton, List.not_mem_nil, or_false, List.mem_append,
      List.mem_map, List.mem_range] at ho
  · omega
  · omega
  · omega
  · rcases ho with (h | h | h | h) | ⟨j, hj, rfl⟩ <;> omega
  · omega

/-- The reads of the loop on an accepted blob. -/
theorem parse_edid_reads_accepted (buff : Buffer) (hacc : (parse_edid buff).1 = true) :
    parse_edid_reads buff
      = List.range 8 ++ [8, 8, 9, 9, 10, 11, 12, 13, 14, 15, 21, 22]
          ++ ((List.range 5).map (edid_block_reads buff)).flatten := by
  obtain ⟨hl, hh⟩ := (parse_edid_true_iff buff).mp hacc
  unfold parse_edid_reads
  rw [if_neg (by omega), if_neg (not_not.mpr hh)]

theorem mem_block_reads (buff : Buffer) (o i : Nat) (hi : i < 5)
    (ho : o ∈ edid_block_reads buff i) (hacc : (parse_edid buff).1 = true) :
    o ∈ parse_edid_reads buff := by
  rw [parse_edid_reads_accepted buff hacc]
  apply List.mem_append_right
  rw [List.mem_flatten]
  exact ⟨_, List.mem_map.mpr ⟨i, List.mem_range.mpr hi, rfl⟩, ho⟩

/-- Claim C24: on an accepted blob every offset that `parse_edid` reads is below 144, so
below the length when the length is at least 144.  The offset 126 is always read, the
offset 127 when the byte at 126 is zero, the offset 128 when the bytes at 126 and 127
are zero, and the offset 143 when the record at offset 126 is a descriptor with one of
the three tags: on a blob of 128 bytes the fifth record reaches outside the blob. -/
theorem parse_edid_reads_bound (buff : Buffer) (hacc : (parse_edid buff).1 = true) :
    (∀ o ∈ parse_edid_reads buff, o < 144)
    ∧ (144 ≤ buff.len → ∀ o ∈ parse_edid_reads buff, o < buff.len)
    ∧ 126 ∈ parse_edid_reads buff
    ∧ (rd buff.ptr 126 = 0 → 127 ∈ parse_edid_reads buff)
    ∧ (rd buff.ptr 126 = 0 → rd buff.ptr 127 = 0 → 128 ∈ parse_edid_reads buff)
    ∧ (∀ t : Tag, is_descriptor buff.ptr t.code 126 = true → 143 ∈ parse_edid_reads buff) := by
  have hall : ∀ o ∈ parse_edid_reads buff, o < 144 := by
    intro o ho
    rw [parse_edid_reads_accepted buff hacc] at ho
    simp only [List.mem_append, List.mem_range, List.mem_flatten, List.mem_map] at ho
    rcases ho with (h | h) | ⟨l, ⟨i, hi, rfl⟩, hl⟩
    · omega
    · simp only [List.mem_cons, List.mem_singleton, List.not_mem_nil, or_false] at h
      omega
    · have := edid_block_reads_lt buff i o hl
      omega
  have h126 : 126 ∈ edid_block_reads buff 4 := by
    unfold edid_block_reads
    simp only []
    split_ifs <;> simp
  refine ⟨hall, fun hlen o ho => by have := hall o ho; omega,
    mem_block_reads buff 126 4 (by omega) h126 hacc, ?_, ?_, ?_⟩
  · intro h0
    apply mem_block_reads buff 127 4 (by omega) _ hacc
    unfold edid_block_reads
    simp only []
    rw [if_neg (by simpa using h0)]
    split_ifs <;> simp
  · intro h0 h1
    apply mem_block_reads buff 128 4 (by omega) _ hacc
    unfold edid_block_reads
    simp only []
    rw [if_neg (by simpa using h0), if_neg (by simpa using h1)]
    split_ifs <;> simp
  · intro t ht
    apply mem_block_reads buff 143 4 (by omega) _ hacc
    unfold is_descriptor at ht
    simp only [Bool.and_eq_true, beq_iff_eq] at ht
    obtain ⟨⟨⟨h0, h1⟩, h2⟩, h3⟩ := ht
    unfold edid_block_reads copy_edid_string_reads
    simp only []
    rw [if_neg (by simpa using h0), if_neg (by simpa using h1), if_neg (by simpa using h2),
      if_pos (by cases t <;> simp [Tag.code] at h3 <;> simp [h3])]
    simp only [List.mem_append, List.mem_map, List.mem_range]
    right
    exact ⟨12, by omega, rfl⟩

set_option maxRecDepth 8000 in
theorem parse_edid_reads_bound_witness :
    (parse_edid short_blob).1 = true ∧ short_blob.ptr.length = 128 ∧ short_blob.len = 128
    ∧ 128 ∈ parse_edid_reads short_blob :=
  ⟨rfl, rfl, rfl, (parse_edid_reads_bound short_blob rfl).2.2.2.2.1 rfl rfl⟩

/-! ## Lines in which a key occurs more than once -/

theorem fgets_chars_line : ∀ (body : List Nat) (n : Nat) (rest : List Nat),
    (∀ c ∈ body, c ≠ 10) → body.length + 1 ≤ n →
    fgets_chars n (body ++ 10 :: rest) = body ++ [10] := by
  intro body
  induction body with
  | nil =>
    intro n rest _ hn
    obtain ⟨m, rfl⟩ : ∃ m, n = m + 1 := ⟨n - 1, by simp at hn; omega⟩
    simp [fgets_chars]
  | cons a r ih =>
    intro n rest hb hn
    obtain ⟨m, rfl⟩ : ∃ m, n = m + 1 := ⟨n - 1, by simp at hn; omega⟩
    have ha := hb a (List.mem_cons_self _ _)
    rw [List.cons_append, fgets_chars, if_neg ha,
      ih m rest (fun c hc => hb c (List.mem_cons_of_mem _ hc)) (by simp at hn; omega)]
    rfl

theorem stream_with_data (s : Stream) (d : List Nat) (h : s.eof = false) :
    ({ data := d, broken := s.broken, eof := false, error := s.error } : Stream)
      = { s with data := d } := by
  cases s
  simp only [Stream.mk.injEq, true_and] at h ⊢
  simp [h]

/-- The call of `fgets` that reads a whole line of at most 1023 bytes. -/
theorem fgets_line (buf body rest : List Nat) (s : Stream)
    (hs : s.data = body ++ 10 :: rest) (heof : s.eof = false)
    (hb : ∀ c ∈ body, c ≠ 10) (hl : body.length + 1 ≤ 1023) :
    fgets buf 1024 s
      = (some ((body ++ [10]) ++ 0 :: buf.drop (body.length + 1 + 1)), { s with data := rest }) := by
  unfold fgets
  rw [if_neg (by rw [heof]; decide)]
  simp only [show 1024 - 1 = 1023 from rfl, hs, fgets_chars_line body 1023 rest hb hl]
  have hlast : (body ++ [10]).getLast? = some 10 := List.getLast?_concat _
  have hdrop : (body ++ 10 :: rest).drop (body ++ [10]).length = rest := by
    have e : body ++ 10 :: rest = (body ++ [10]) ++ rest := by simp
    rw [e, List.drop_left]
  simp only [hlast, hdrop, bne_self_eq_false, Bool.and_false, Bool.false_eq_true, false_and,
    reduceIte]
  rw [← stream_with_data s rest heof]
  simp only [List.length_append, List.length_cons, List.length_nil, Nat.zero_add]

/-- The characters that `fgets` takes from text that ends with a newline: not empty, a
part of the text, and what is left of the text is empty or ends with a newline. -/
theorem fgets_chars_blank : ∀ (n : Nat) (skip d : List Nat),
    skip.getLast? = some 10 → 0 < n →
    ∃ c rem, skip = c ++ rem ∧ c ≠ [] ∧ fgets_chars n (skip ++ d) = c
      ∧ (c.length = n ∨ c.getLast? = some 10)
      ∧ (rem = [] ∨ rem.getLast? = some 10) := by
  intro n
  induction n with
  | zero => intro _ _ _ h; omega
  | succ m ih =>
    intro skip d hlast _
    cases skip with
    | nil => simp at hlast
    | cons a t =>
      have ht : a = 10 ∨ (t ≠ [] ∧ t.getLast? = some 10) := by
        cases t with
        | nil => left; simpa using hlast
        | cons b u => right; exact ⟨by simp, by simpa using hlast⟩
      by_cases ha : a = 10
      · subst ha
        refine ⟨[10], t, rfl, by simp, by simp [fgets_chars], Or.inr rfl, ?_⟩
        cases t with
        | nil => left; rfl
        | cons b u => right; simpa using hlast
      · rcases ht with h | ⟨htne, htl⟩
        · exact absurd h ha
        · cases m with
          | zero =>
            refine ⟨[a], t, rfl, by simp, ?_, Or.inl rfl, Or.inr htl⟩
            simp [fgets_chars, ha]
          | succ k =>
            obtain ⟨c, rem, h1, h2, h3, h4, h5⟩ := ih t d htl (by omega)
            refine ⟨a :: c, rem, by rw [h1]; rfl, by simp, ?_, ?_, h5⟩
            · rw [List.cons_append, fgets_chars, if_neg ha, h3]
            · rcases h4 with h4 | h4
              · left; simp [h4]
              · right
                cases c with
                | nil => exact absurd rfl h2
                | cons x y => simpa using h4

/-- The call of `fgets` on blank text that ends with a newline. -/
theorem fgets_blank (buf skip d : List Nat) (s : Stream)
    (hs : s.data = skip ++ d) (heof : s.eof = false) (hlast : skip.getLast? = some 10) :
    ∃ c rem, skip = c ++ rem ∧ c ≠ [] ∧ (rem = [] ∨ rem.getLast? = some 10)
      ∧ fgets buf 1024 s
          = (some (c ++ 0 :: buf.drop (c.length + 1)), { s with data := rem ++ d }) := by
  obtain ⟨c, rem, h1, h2, h3, h4, h5⟩ := fgets_chars_blank 1023 skip d hlast (by omega)
  refine ⟨c, rem, h1, h2, h5, ?_⟩
  unfold fgets
  rw [if_neg (by rw [heof]; decide)]
  simp only [show 1024 - 1 = 1023 from rfl, hs, h3]
  have hdrop : (skip ++ d).drop c.length = rem ++ d := by
    rw [h1, List.append_assoc, List.drop_left]
  have hpast : (decide (c.length < 1023) && c.getLast? != some 10) = false := by
    rcases h4 with h | h
    · simp [h]
    · simp [h]
  simp only [hpast, hdrop, Bool.false_eq_true, false_and, reduceIte]
  rw [← stream_with_data s (rem ++ d) heof]

/-- The loop over the lines: blank text is skipped, in one or more calls of `fgets`, and
the loop is left with the buffer holding the first line that is not blank, whatever
bytes are left after its NUL. -/
theorem read_line_loop_line (body rest : List Nat)
    (hb : ∀ c ∈ body, c ≠ 10) (hl : body.length + 1 ≤ 1023)
    (hnb : ∀ tail, rd tail 0 = 0 →
      rd ((body ++ [10]) ++ tail) (lstrip ((body ++ [10]) ++ tail) 0) ≠ 0) :
    ∀ (m : Nat) (skip : List Nat), skip.length ≤ m → IsBlank skip →
      (skip = [] ∨ skip.getLast? = some 10) →
      ∀ (buf : List Nat) (s : Stream) (line fuel : Nat) (pline : Int),
      s.data = skip ++ (body ++ 10 :: rest) → s.eof = false → skip.length + 1 ≤ fuel →
      ∃ tail pline1, rd tail 0 = 0
        ∧ read_line_loop fuel s buf line pline
            = some ({ s with data := rest }, (body ++ [10]) ++ tail,
                lstrip ((body ++ [10]) ++ tail) 0, pline1) := by
  intro m
  induction m with
  | zero =>
    intro skip hm _ _ buf s line fuel pline hs heof hf
    have hnil : skip = [] := List.length_eq_zero.mp (by omega)
    subst hnil
    obtain ⟨f, rfl⟩ : ∃ f, fuel = f + 1 := ⟨fuel - 1, by omega⟩
    refine ⟨0 :: buf.drop (body.length + 1 + 1), pline + 1, rfl, ?_⟩
    rw [read_line_loop, fgets_line buf body rest s (by simpa using hs) heof hb hl]
    simp only []
    rw [if_pos (hnb (0 :: buf.drop (body.length + 1 + 1)) rfl)]
  | succ k ih =>
    intro skip hm hblank hlast buf s line fuel pline hs heof hf
    by_cases hnil : skip = []
    · subst hnil
      exact ih [] (by simp) hblank (Or.inl rfl) buf s line fuel pline hs heof hf
    · have hl10 : skip.getLast? = some 10 := by
        rcases hlast with h | h
        · exact absurd h hnil
        · exact h
      obtain ⟨c, rem, h1, h2, h3, h4⟩ := fgets_blank buf skip (body ++ 10 :: rest) s hs heof hl10
      obtain ⟨f, rfl⟩ : ∃ f, fuel = f + 1 := ⟨fuel - 1, by omega⟩
      have hclen : 1 ≤ c.length := by
        cases c with
        | nil => exact absurd rfl h2
        | cons x y => simp
      have hlen : skip.length = c.length + rem.length := by rw [h1]; simp
      have hcb : ∀ x ∈ c, isspace x = true := fun x hx =>
        hblank x (by rw [h1]; exact List.mem_append_left _ hx)
      have hls : lstrip (c ++ 0 :: buf.drop (c.length + 1)) 0 = c.length := by
        have := lstrip_run c [] (0 :: buf.drop (c.length + 1)) hcb (Or.inl rfl)
        simpa using this
      have hz : rd (c ++ 0 :: buf.drop (c.length + 1)) c.length = 0 := by
        rw [rd_append_length]; rfl
      obtain ⟨tail, pline1, ht, hloop⟩ := ih rem (by omega)
        (fun x hx => hblank x (by rw [h1]; exact List.mem_append_right _ hx)) h3
        (c ++ 0 :: buf.drop (c.length + 1)) { s with data := rem ++ (body ++ 10 :: rest) }
        c.length f (pline + 1) rfl heof (by omega)
      refine ⟨tail, pline1, ht, ?_⟩
      rw [read_line_loop, h4]
      simp only []
      rw [hls, if_neg (by rw [hz]; simp), hloop]

/-- Every call of the loop over the lines returns. -/
theorem read_line_loop_returns : ∀ (fuel : Nat) (s : Stream) (buf : List Nat) (line : Nat)
    (pline : Int), s.data.length < fuel →
    ∃ r, read_line_loop fuel s buf line pline = some r := by
  intro fuel
  induction fuel with
  | zero => intro s _ _ _ h; omega
  | succ f ih =>
    intro s buf line pline hf
    rw [read_line_loop]
    cases hg : fgets buf 1024 s with
    | mk r s1 =>
      cases r with
      | none => exact ⟨_, rfl⟩
      | some buf1 =>
        simp only []
        split
        · exact ⟨_, rfl⟩
        · apply ih
          unfold fgets at hg
          by_cases he : s.eof = true
          · rw [if_pos he] at hg; cases hg
          · rw [if_neg he] at hg
            simp only [show 1024 - 1 = 1023 from rfl] at hg
            split at hg
            · cases hg
            · split at hg
              · cases hg
              · rename_i h1 h2
                simp only [Prod.mk.injEq, Option.some.injEq] at hg
                obtain ⟨_, hs1⟩ := hg
                rw [← hs1]
                simp only [List.length_drop]
                have hpos : fgets_chars 1023 s.data ≠ [] := by
                  intro hnil
                  apply h2
                  refine ⟨?_, hnil⟩
                  simp [hnil]
                have hle : (fgets_chars 1023 s.data).length ≥ 1 := by
                  cases hc : fgets_chars 1023 s.data with
                  | nil => exact absurd hc hpos
                  | cons x y => simp
                have hdl : 1 ≤ s.data.length := by
                  cases hd : s.data with
                  | nil => rw [hd] at hpos; exact absurd rfl hpos
                  | cons x y => simp
                omega

theorem fgets_chars_full : ∀ (chunk : List Nat) (n : Nat) (rest : List Nat),
    (∀ c ∈ chunk, c ≠ 10) → chunk.length = n → fgets_chars n (chunk ++ rest) = chunk := by
  intro chunk
  induction chunk with
  | nil =>
    intro n rest _ hn
    simp only [List.length_nil] at hn
    subst hn
    simp [fgets_chars]
  | cons a r ih =>
    intro n rest hb hn
    obtain ⟨m, rfl⟩ : ∃ m, n = m + 1 := ⟨n - 1, by simp at hn; omega⟩
    have ha := hb a (List.mem_cons_self _ _)
    rw [List.cons_append, fgets_chars, if_neg ha,
      ih m rest (fun c hc => hb c (List.mem_cons_of_mem _ hc)) (by simpa using hn)]

/-- A line whose first 1023 bytes hold no newline is rejected: `fgets` stores these
bytes and the test for the final newline fails (lines 180 to 184). -/
theorem read_config_row_long (chunk rest : List Nat) (row : ConfigRow) (stream : Stream)
    (hdata : stream.data = chunk ++ rest) (heof : stream.eof = false)
    (herr : stream.error = false) (hlen : chunk.length = 1023)
    (htext : ∀ c ∈ chunk, c ≠ 10 ∧ c ≠ 0) (hfirst : isspace (rd chunk 0) = false) :
    read_config_row stream row
      = some (false, { row with line := row.line + 1 }, { stream with data := rest }) := by
  have hchars : fgets_chars 1023 (chunk ++ rest) = chunk :=
    fgets_chars_full chunk 1023 rest (fun c hc => (htext c hc).1) hlen
  have hne : chunk ≠ [] := by
    intro h
    rw [h] at hlen
    cases hlen
  have hlast : chunk.getLast? ≠ some 10 := by
    intro h
    exact (htext 10 (List.mem_of_getLast?_eq_some h)).1 rfl
  have hfg : fgets (List.replicate 1024 0) 1024 stream
      = (some (chunk ++ 0 :: (List.replicate 1024 0).drop (chunk.length + 1)),
          { stream with data := rest }) := by
    unfold fgets
    rw [if_neg (by rw [heof]; decide)]
    simp only [show 1024 - 1 = 1023 from rfl, hdata, hchars]
    have hpast : (decide (chunk.length < 1023) && chunk.getLast? != some 10) = false := by
      simp [hlen]
    simp only [hpast, List.drop_left, Bool.false_eq_true, false_and, reduceIte]
    rw [← stream_with_data stream rest heof]
  have hrd0 : rd (chunk ++ 0 :: (List.replicate 1024 0).drop (chunk.length + 1)) 0 = rd chunk 0 :=
    rd_append_left _ _ _ (by omega)
  have hc0 : rd chunk 0 ≠ 0 := (htext _ (rd_mem chunk 0 (by omega))).2
  have hls : lstrip (chunk ++ 0 :: (List.replicate 1024 0).drop (chunk.length + 1)) 0 = 0 :=
    lstrip_eq_self _ _ (Or.inr (by rw [hrd0]; exact hfirst))
  have hstr : strlen (chunk ++ 0 :: (List.replicate 1024 0).drop (chunk.length + 1)) 0 = 1023 := by
    apply strlen_run
    · intro i hi
      rw [Nat.zero_add, rd_append_left _ _ _ (by omega)]
      exact (htext _ (rd_mem chunk i (by omega))).2
    · rw [Nat.zero_add, ← hlen, rd_append_length]
      rfl
  have hend : rd (chunk ++ 0 :: (List.replicate 1024 0).drop (chunk.length + 1)) 1022 ≠ 10 := by
    rw [rd_append_left _ _ _ (by omega)]
    exact (htext _ (rd_mem chunk 1022 (by omega))).1
  unfold read_config_row
  simp only []
  obtain ⟨f, hf⟩ : ∃ f, stream.data.length + 1 = f + 1 := ⟨_, rfl⟩
  rw [hf, read_line_loop, hfg]
  simp only []
  rw [hls, if_pos (by rw [hrd0]; exact hc0)]
  simp only [heof, herr, Bool.false_eq_true, reduceIte, hstr]
  rw [if_pos hend]

set_option maxRecDepth 100000 in
/-- Claim C1, counterexample: lines of the stated form that `read_config_row` does not
accept.  On the file that is one blank line the function returns false, at the end of
the file; a blank line before `dpi=96` is skipped and the row is that of `dpi=96`, the
dpi present; the line `dpi=96 #`, 1015 letters and a newline, 1024 bytes, is rejected. -/
theorem read_config_row_blank_or_long :
    -- the file that is the blank line `  ` and its newline
    read_config_row (stream_of [32, 32, 10]) example_row
      = some (false, { example_row with line := 4 },
          { data := [], broken := false, eof := true, error := false })
    -- a blank line, then `dpi=96`
    ∧ (read_config_row (stream_of [32, 32, 10, 100, 112, 105, 61, 57, 54, 10]) example_row).map
        (fun r => (r.1, r.2.1.has_dpi, r.2.1.dpi)) = some (true, true, 96)
    -- `dpi=96 #`, 1015 times `A` and a newline: 1024 bytes
    ∧ (read_config_row
        (stream_of (([100, 112, 105, 61, 57, 54, 32, 35] ++ List.replicate 1015 65) ++ [10]))
        example_row).map (fun r => r.1) = some false := by
  refine ⟨by decide, by decide, ?_⟩
  rw [read_config_row_long ([100, 112, 105, 61, 57, 54, 32, 35] ++ List.replicate 1015 65) [10]
    example_row _ rfl rfl rfl
    (by rw [List.length_append, List.length_replicate]; rfl) ?_ (by decide)]
  · rfl
  · intro c hc
    simp only [List.mem_append, List.mem_cons, List.mem_singleton, List.not_mem_nil, or_false,
      List.mem_replicate] at hc
    rcases hc with (h | h | h | h | h | h | h | h) | ⟨_, h⟩ <;> subst h <;> decide

/-- The head of the text of the pairs, or of the comment when there is no pair, is
neither NUL nor whitespace. -/
theorem line_head (ps : List Pair) (comment rest : List Nat)
    (hcomment : comment = [] ∨ rd comment 0 = 35) (hnonblank : ps ≠ [] ∨ comment ≠ []) :
    rd (psrcs ps ++ (comment ++ rest)) 0 ≠ 0
    ∧ isspace (rd (psrcs ps ++ (comment ++ rest)) 0) = false := by
  cases ps with
  | nil =>
    have hne : comment ≠ [] := by
      rcases hnonblank with h | h
      · exact absurd rfl h
      · exact h
    have h35 : rd comment 0 = 35 := by
      rcases hcomment with h | h
      · exact absurd h hne
      · exact h
    have e : rd (psrcs [] ++ (comment ++ rest)) 0 = rd comment 0 := by
      cases comment with
      | nil => exact absurd rfl hne
      | cons a r => rfl
    rw [e, h35]
    exact ⟨by decide, by decide⟩
  | cons p r =>
    have e : psrcs (p :: r) ++ (comment ++ rest)
        = p.key.text ++ ((p.ws1 ++ (61 :: (p.ws2 ++ (p.value ++ p.ws3)))) ++ (psrcs r
            ++ (comment ++ rest))) := by
      rw [psrcs_cons, Pair.src]
      simp
    rw [e]
    exact key_text_head p.key _

/-- Claim C1, amended: on a stream without indicator whose next bytes are blank lines
(`skip`, none or any number) and then a line made of optional leading whitespace,
`key=value` pairs with pairwise distinct keys, an optional `#` comment and the final
newline, the line being not blank (a pair or a comment), at most 1023 bytes long with its
newline and without NUL and without another newline, and the decoder of every value
succeeding and stopping right after the text of the value whatever follows the NUL that
ends the line in the buffer: `read_config_row` returns true, the stream is left right
after the line and, whatever the row held before (its arrays having their declared
sizes), a presence flag is true exactly when its key occurs in the line, the field of
each key that occurs holding the decoded value. -/
theorem read_config_row_accepts_line (skip ws0 : List Nat) (ps : List Pair)
    (comment rest : List Nat) (row : ConfigRow) (stream : Stream)
    (hdata : stream.data = skip ++ ((ws0 ++ (psrcs ps ++ comment)) ++ 10 :: rest))
    (heof : stream.eof = false) (herr : stream.error = false)
    (hskip : IsBlank skip) (hskipnl : skip = [] ∨ skip.getLast? = some 10)
    (hws0 : IsBlank ws0) (hps : ∀ p ∈ ps, p.wf) (hnodup : (ps.map Pair.key).Nodup)
    (hcomment : comment = [] ∨ rd comment 0 = 35)
    (hnonblank : ps ≠ [] ∨ comment ≠ [])
    (hlen : (ws0 ++ (psrcs ps ++ comment)).length + 1 ≤ 1023)
    (htext : ∀ c ∈ ws0 ++ (psrcs ps ++ comment), c ≠ 0 ∧ c ≠ 10)
    (hrow : RowSized row)
    (hacc : ∀ tail, rd tail 0 = 0 →
      Accepted (ws0 ++ (psrcs ps ++ (comment ++ 10 :: tail))) ws0.length ps) :
    ∃ row1 tail, rd tail 0 = 0
      ∧ read_config_row stream row = some (true, row1, { stream with data := rest })
      ∧ (∀ k, row1.has k = true ↔ k ∈ ps.map Pair.key)
      ∧ (∀ kv ∈ decoded (ws0 ++ (psrcs ps ++ (comment ++ 10 :: tail))) ws0.length ps,
          row1.field kv.1 = kv.2) := by
  have hform : ∀ tail : List Nat, ((ws0 ++ (psrcs ps ++ comment)) ++ [10]) ++ tail
      = ws0 ++ (psrcs ps ++ (comment ++ 10 :: tail)) := by
    intro tail; simp
  have hls : ∀ tail : List Nat,
      lstrip (ws0 ++ (psrcs ps ++ (comment ++ 10 :: tail))) 0 = ws0.length := by
    intro tail
    have := lstrip_run ws0 [] (psrcs ps ++ (comment ++ 10 :: tail)) hws0
      (Or.inr (line_head ps comment (10 :: tail) hcomment hnonblank).2)
    simpa using this
  have hhead : ∀ tail : List Nat,
      rd (ws0 ++ (psrcs ps ++ (comment ++ 10 :: tail))) ws0.length ≠ 0 := by
    intro tail
    rw [rd_append_length]
    exact (line_head ps comment (10 :: tail) hcomment hnonblank).1
  obtain ⟨tail, pline1, ht, hloop⟩ := read_line_loop_line (ws0 ++ (psrcs ps ++ comment)) rest
    (fun c hc => (htext c hc).2) hlen
    (fun tail _ => by rw [hform, hls]; exact hhead tail)
    skip.length skip (le_refl _) hskip hskipnl (List.replicate 1024 0) stream 0
    (stream.data.length + 1) row.line hdata heof
    (by rw [hdata, List.length_append]; omega)
  rw [hform, hls] at hloop
  obtain ⟨row1, hparse, hflags, hfields⟩ := read_config_row_accepts_pairs ws0 ps comment tail
    { row with line := pline1 } (ws0 ++ (psrcs ps ++ (comment ++ 10 :: tail))) rfl hws0 hps
    hnodup hcomment ht hrow (hacc tail ht)
  rw [hls] at hparse
  have hstr : strlen (ws0 ++ (psrcs ps ++ (comment ++ 10 :: tail))) ws0.length
      = (psrcs ps ++ comment).length + 1 := by
    have e : ws0 ++ (psrcs ps ++ (comment ++ 10 :: tail))
        = ws0 ++ ((psrcs ps ++ comment) ++ 10 :: tail) := by simp
    apply strlen_run
    · intro i hi
      rw [e, rd_append_right]
      by_cases hlt : i < (psrcs ps ++ comment).length
      · rw [rd_append_left _ _ _ hlt]
        exact (htext _ (List.mem_append_right _ (rd_mem _ _ hlt))).1
      · have hi2 : i = (psrcs ps ++ comment).length := by omega
        rw [hi2, rd_append_length]
        exact Nat.succ_ne_zero 9
    · rw [e, rd_append_right]
      have e2 : (psrcs ps ++ comment) ++ 10 :: tail = ((psrcs ps ++ comment) ++ [10]) ++ tail := by
        simp
      have l2 : (psrcs ps ++ comment).length + 1 = ((psrcs ps ++ comment) ++ [10]).length := by
        simp only [List.length_append, List.length_cons, List.length_nil]
      rw [e2, l2, rd_append_length]
      exact ht
  have hnl : rd (ws0 ++ (psrcs ps ++ (comment ++ 10 :: tail)))
      (ws0.length + ((psrcs ps ++ comment).length + 1) - 1) = 10 := by
    have e : ws0 ++ (psrcs ps ++ (comment ++ 10 :: tail))
        = ws0 ++ ((psrcs ps ++ comment) ++ 10 :: tail) := by simp
    rw [e, show ws0.length + ((psrcs ps ++ comment).length + 1) - 1
      = ws0.length + (psrcs ps ++ comment).length by omega, rd_append_right, rd_append_length]
    rfl
  refine ⟨row1, tail, ht, ?_, hflags, hfields⟩
  unfold read_config_row
  simp only []
  rw [hloop]
  simp only [heof, herr, Bool.false_eq_true, reduceIte, hstr]
  rw [if_neg (by rw [hnl]; simp), hparse]

theorem read_config_row_accepts_line_witness :
    -- the file: a blank line, the line "pnp=\"ACI\" dpi=96" and the text `next`
    (∃ row1, read_config_row (stream_of ([32, 32, 10] ++ ([112, 110, 112, 61, 34, 65, 67, 73, 34,
          32, 100, 112, 105, 61, 57, 54] ++ 10 :: [110, 101, 120, 116]))) example_row
        = some (true, row1, stream_of [110, 101, 120, 116])
      ∧ (∀ k, row1.has k = true ↔ k ∈ [Key.pnp, Key.dpi])
      ∧ row1.field .pnp = .inl [65, 67, 73, 0] ∧ row1.field .dpi = .inr 96)
    -- the file that is the line "  # hi"
    ∧ (∃ row1, read_config_row (stream_of ([] ++ (([32, 32] ++ ([] ++ [35, 32, 104, 105]))
          ++ 10 :: []))) example_row = some (true, row1, stream_of [])
      ∧ (∀ k, row1.has k = true ↔ k ∈ ([] : List Key))) := by
  refine ⟨?_, ?_⟩
  swap
  · obtain ⟨row1, tail, _, h1, h2, _⟩ := read_config_row_accepts_line [] [32, 32] []
      [35, 32, 104, 105] [] example_row
      (stream_of ([] ++ (([32, 32] ++ ([] ++ [35, 32, 104, 105])) ++ 10 :: [])))
      rfl rfl rfl (by simp [IsBlank]) (Or.inl rfl) (by simp [IsBlank, isspace])
      (by simp) (by decide) (Or.inr rfl) (Or.inr (by simp))
      (by decide) (by decide) ⟨rfl, rfl, rfl⟩ (fun _ _ => trivial)
    exact ⟨row1, h1, h2⟩
  have hA : ∀ tail : List Nat,
      read_string ([112, 110, 112, 61, 34, 65, 67, 73, 34, 32, 100, 112, 105, 61, 57, 54, 10] ++ tail)
        4 (List.replicate 4 0) 4
        = ({ next := 9, ok := true, overflow := false }, [65, 67, 73, 0]) := by
    intro tail
    exact read_string_literal_ok [.plain 65, .plain 67, .plain 73] [112, 110, 112, 61]
      ([32, 100, 112, 105, 61, 57, 54, 10] ++ tail) (List.replicate 4 0) 4
      (by simp [WfItems, Item.wf]) (by decide)
  have hB : ∀ tail : List Nat,
      read_unsigned ([112, 110, 112, 61, 34, 65, 67, 73, 34, 32, 100, 112, 105, 61, 57, 54, 10] ++ tail)
        14 0 = ({ next := 16, ok := true, overflow := false }, 96) := by
    intro tail
    have h := read_unsigned_decimal 96 (by omega)
      [112, 110, 112, 61, 34, 65, 67, 73, 34, 32, 100, 112, 105, 61] (10 :: tail) 0 (Or.inr rfl)
    have hr : render 10 96 = [57, 54] := by simp [render]
    rw [hr] at h
    exact h
  obtain ⟨row1, tail, ht, h1, h2, h3⟩ := read_config_row_accepts_line [32, 32, 10] []
    [{ key := .pnp, ws1 := [], ws2 := [], value := [34, 65, 67, 73, 34], ws3 := [32] },
     { key := .dpi, ws1 := [], ws2 := [], value := [57, 54], ws3 := [] }]
    [] [110, 101, 120, 116] example_row
    (stream_of ([32, 32, 10] ++ ([112, 110, 112, 61, 34, 65, 67, 73, 34,
          32, 100, 112, 105, 61, 57, 54] ++ 10 :: [110, 101, 120, 116])))
    rfl rfl rfl (by simp [IsBlank, isspace]) (Or.inr rfl) (by simp [IsBlank])
    (by simp [Pair.wf, IsBlank, isspace]) (by decide) (Or.inl rfl) (Or.inl (by simp))
    (by decide) (by decide) ⟨rfl, rfl, rfl⟩
    (fun tail _ => ⟨congrArg Prod.fst (hA tail), congrArg Prod.fst (hB tail), trivial⟩)
  refine ⟨row1, h1, h2, ?_, ?_⟩
  · exact h3 (.pnp, .inl [65, 67, 73, 0])
      (by
        have e := congrArg Prod.snd (hA tail)
        simp only [decoded, decode, List.mem_cons, Prod.mk.injEq, true_and]
        left
        exact (congrArg Sum.inl e).symm)
  · exact h3 (.dpi, .inr 96)
      (by
        have e := congrArg Prod.snd (hB tail)
        simp only [decoded, decode, List.mem_cons, Prod.mk.injEq, true_and]
        right; left
        exact (congrArg Sum.inr e).symm)

/-- The function `read_config_row` returns on every stream and every row. -/
theorem read_config_row_returns (stream : Stream) (row : ConfigRow) :
    ∃ r, read_config_row stream row = some r := by
  obtain ⟨⟨s, buf1, line, pline⟩, hloop⟩ := read_line_loop_returns (stream.data.length + 1) stream
    (List.replicate 1024 0) 0 row.line (by omega)
  obtain ⟨⟨b, row1⟩, hparse⟩ := read_config_row_parse_returns buf1 line { row with line := pline }
  unfold read_config_row
  simp only []
  rw [hloop]
  simp only []
  split
  · exact ⟨_, rfl⟩
  · split
    · exact ⟨_, rfl⟩
    · split
      · exact ⟨_, rfl⟩
      · rw [hparse]
        exact ⟨_, rfl⟩

end SuggestDpi
